import Mathlib

/-!
# Storage: the country download orchestrator (`storage/storage.cpp`)

A shallow embedding of `storage::Storage`.  The C++ object becomes the record
`Storage`; every member function becomes a function from a `Storage` to the
`Storage` it leaves behind.  Calls that leave the object (observer callbacks,
map activation, file deletion, HTTP requests) are appended to the ghost field
`log`, each together with the download queue at the moment of the call, so that
the order of the calls and what an observer would see can be stated.

Resolving a key walks the country tree with `operator[]`; an access outside
`[0, SiblingsCount)` has no result, so everything that resolves a key returns
an `Option`.

Two smaller embeddings follow the data model of the storage: the loop of
`PathRenderer::drawSolidPath` (`graphics/path_renderer.cpp`), whose two arrays
of eight cells are filled through a cursor, and the serialization of features
(`indexer/feature.cpp`), where `FeatureBuilder::Serialize` writes the bytes
that `FeatureGeom` parses back.  Their lemmas and theorems come after those of
the storage.
-/

namespace storage

/-! ## Data model -/

/-- Three-level key `storage::TIndex`; each level is an `int`. -/
structure TIndex where
  m_group : Int
  m_country : Int
  m_region : Int
deriving DecidableEq, Repr

/-- The sentinel `TIndex::INVALID = -1` (storage.cpp:31). -/
def TIndex.INVALID : Int := -1

/-- Status values returned by `Storage::CountryStatus`. -/
inductive TStatus where
  | EOnDisk
  | ENotDownloaded
  | EDownloadFailed
  | EDownloading
  | EInQueue
  | EUnknown
  | EGeneratingIndex
deriving DecidableEq, Repr

/-- Modelled from the spec: `m2::RectD` (geometry, not part of the sources at
hand).  Only two things are done with a rectangle here: it is handed to the
bounds callback and it is compared with the empty rectangle, so the
coordinates are carried as integers. -/
inductive RectD where
  | GetEmptyRect
  | rect (minX minY maxX maxY : Int)
deriving DecidableEq, Repr

/-- Modelled from the spec: `CountryFile` (country.hpp, not part of the sources
at hand): a file name and its remote size in bytes. -/
structure CountryFile where
  m_fileName : String
  m_remoteSize : Nat
deriving DecidableEq, Repr

/-- Modelled from the spec: `Country` (country.hpp, not part of the sources at
hand): display name, flag, one or more backing files, bounding rectangle. -/
structure Country where
  m_name : String
  m_flag : String
  m_files : List CountryFile
  m_bounds : RectD
deriving DecidableEq, Repr

/-- Modelled from the spec: `SimpleTree<T>` (not part of the sources at hand):
a value and an ordered sequence of children. -/
inductive SimpleTree (α : Type) where
  | node (m_value : α) (m_siblings : List (SimpleTree α))

abbrev CountriesContainerT := SimpleTree Country

namespace SimpleTree

def Value {α : Type} : SimpleTree α → α
  | node v _ => v

def Siblings {α : Type} : SimpleTree α → List (SimpleTree α)
  | node _ cs => cs

def SiblingsCount {α : Type} (t : SimpleTree α) : Nat := t.Siblings.length

/-- The child access `tree[i]` with an `int` argument.  The parameter of
`operator[]` is a `size_t`, so a negative `int` becomes an index far past the
end; any index outside `[0, SiblingsCount)` has no result. -/
def child {α : Type} (t : SimpleTree α) (i : Int) : Option (SimpleTree α) :=
  if i < 0 then none else t.Siblings.get? i.toNat

end SimpleTree

/-- The enumeration `HttpRequest::StatusT`. -/
inductive StatusT where
  | EInProgress
  | ECompleted
  | EFailed
deriving DecidableEq, Repr

/-- What a callback reads from the `HttpRequest &` it is given. -/
structure HttpRequest where
  Status : StatusT
  Data : String
  Progress : Int × Int
deriving DecidableEq, Repr

/-- The platform singleton `GetPlatform()` and the constants of `defines.hpp`
that the orchestrator reads.  They are not part of the sources at hand and are
taken as parameters. -/
structure Platform where
  MetaServerUrl : String
  WritableDir : String
  DATA_FILE_EXTENSION : String
  /-- The bounds read by `LoadMapHeader(GetReader(fName), header); header.GetBounds()`. -/
  LoadMapHeaderBounds : String → RectD
  /-- The macro `OMIM_OS_NAME` (target_os.hpp). -/
  OMIM_OS_NAME : String
  /-- The function `UrlEncode` (coding/url_encode.hpp). -/
  UrlEncode : String → String
  /-- The mirror list that `GetServerListFromRequest` (platform/servers_list.hpp) writes
  into `urls`. -/
  GetServerListFromRequest : HttpRequest → List String

/-- Modelled from the spec: the suffix of a partially downloaded file. -/
def DOWNLOADING_FILE_EXTENSION : String := ".downloading"

/-- Modelled from the spec: the suffix of a resume sidecar file. -/
def RESUME_FILE_EXTENSION : String := ".resume"

/-- Modelled from the spec: `CountryFile::GetFileWithExt`, the file name
followed by the data file extension. -/
def CountryFile.GetFileWithExt (pl : Platform) (file : CountryFile) : String :=
  file.m_fileName ++ pl.DATA_FILE_EXTENSION

/-- Modelled from the spec: `IsFileDownloaded` (country.cpp, not part of the
sources at hand): the file exists fully on disk.  `disk` lists the paths
present in local storage. -/
def IsFileDownloaded (pl : Platform) (disk : List String) (file : CountryFile) : Bool :=
  decide ((pl.WritableDir ++ file.GetFileWithExt pl) ∈ disk)

/-- Sum of the remote sizes of a country's files. -/
def Country.RemoteSize (c : Country) : Nat :=
  (c.m_files.map CountryFile.m_remoteSize).sum

/-- Modelled from the spec: `Country::Size` (country.cpp, not part of the
sources at hand), the pair (local, remote).  The remote size is fixed by the
catalog; the local size is 0 unless every file exists fully on disk, in which
case it equals the remote size. -/
def Country.Size (pl : Platform) (disk : List String) (c : Country) : Nat × Nat :=
  (if c.m_files.all (IsFileDownloaded pl disk) then c.RemoteSize else 0, c.RemoteSize)

/-- One entry of `m_observers`.  The two callbacks are identified by the slot
they were registered under. -/
structure CountryObservers where
  m_slotId : Int
deriving DecidableEq, Repr

/-- What `m_request` holds: the request created by `HttpRequest::PostJson` or
by `HttpRequest::GetFile`. -/
inductive PendingRequest where
  | PostJson (url : String) (postBody : String)
  | GetFile (urls : List String) (filePath : String) (fileSize : Nat)
deriving DecidableEq, Repr

/-- A call that leaves the `Storage` object. -/
inductive Effect where
  | changeCountryFn (slotId : Int) (index : TIndex)
  | progressFn (slotId : Int) (index : TIndex) (p : Int × Int)
  | addMap (fName : String)
  | removeMap (fName : String)
  | updateRect (r : RectD)
  | DeleteFileX (path : String)
  | PostJson (url : String) (postBody : String)
  | GetFile (urls : List String) (filePath : String) (fileSize : Nat)
deriving DecidableEq, Repr

/-- A logged call together with `m_queue` at the moment of the call. -/
structure Event where
  effect : Effect
  queue : List TIndex
deriving DecidableEq, Repr

/-- The members of `storage::Storage` that the orchestrator reads and writes,
the local file system (`disk`) and the log of outgoing calls. -/
structure Storage where
  m_countries : CountriesContainerT
  m_currentVersion : Int
  m_queue : List TIndex
  m_failedCountries : Finset TIndex
  m_indexGeneration : Finset TIndex
  m_countryProgress : Int × Int
  m_request : Option PendingRequest
  m_observers : List CountryObservers
  m_currentSlotId : Int
  disk : List String
  log : List Event

/-- The object right after `Storage::Storage()` (storage.cpp:65-68): the slot
counter is 0, the country tree is what `LoadCountriesFile` read, everything
else is empty. -/
def Storage.initial (countries : CountriesContainerT) (version : Int)
    (disk : List String) : Storage :=
  { m_countries := countries
    m_currentVersion := version
    m_queue := []
    m_failedCountries := ∅
    m_indexGeneration := ∅
    m_countryProgress := (0, 0)
    m_request := none
    m_observers := []
    m_currentSlotId := 0
    disk := disk
    log := [] }

/-! ## Index resolution -/

/-- Embedding of `NodeFromIndex` (storage.cpp:78-91). -/
def NodeFromIndex (root : CountriesContainerT) (index : TIndex) :
    Option CountriesContainerT :=
  if index.m_group = TIndex.INVALID ∨ index.m_group ≥ (root.SiblingsCount : Int) then
    some root
  else
    match root.child index.m_group with
    | none => none
    | some g =>
      if index.m_country = TIndex.INVALID ∨ index.m_country ≥ (g.SiblingsCount : Int) then
        some g
      else
        match g.child index.m_country with
        | none => none
        | some c =>
          if index.m_region = TIndex.INVALID ∨ index.m_region ≥ (c.SiblingsCount : Int) then
            some c
          else
            c.child index.m_region

/-- Embedding of `Storage::CountryByIndex` (storage.cpp:93-96). -/
def CountryByIndex (s : Storage) (index : TIndex) : Option Country :=
  (NodeFromIndex s.m_countries index).map SimpleTree.Value

/-- Embedding of `Storage::CountryName` (storage.cpp:103-106). -/
def CountryName (s : Storage) (index : TIndex) : Option String :=
  (NodeFromIndex s.m_countries index).map (fun node => node.Value.m_name)

/-- Embedding of `Storage::CountrySizeInBytes` (storage.cpp:113-116). -/
def CountrySizeInBytes (pl : Platform) (s : Storage) (index : TIndex) : Option (Nat × Nat) :=
  (CountryByIndex s index).map (Country.Size pl s.disk)

/-! ## Status -/

/-- Embedding of `Storage::CountryStatus` (storage.cpp:118-147).  `found` is the position
returned by `std::find`; the end iterator is the length of the queue. -/
def CountryStatus (pl : Platform) (s : Storage) (index : TIndex) : Option TStatus :=
  let found := s.m_queue.indexOf index
  if found ≠ s.m_queue.length then
    if found = 0 then some TStatus.EDownloading else some TStatus.EInQueue
  else if index ∈ s.m_failedCountries then
    some TStatus.EDownloadFailed
  else if index ∈ s.m_indexGeneration then
    some TStatus.EGeneratingIndex
  else
    match CountryByIndex s index with
    | none => none
    | some country =>
      let size := country.Size pl s.disk
      if size.1 = size.2 then
        if size.2 = 0 then some TStatus.EUnknown else some TStatus.EOnDisk
      else
        some TStatus.ENotDownloaded

/-! ## Notification -/

/-- Embedding of `Storage::NotifyStatusChanged` (storage.cpp:196-200): one call of
`m_changeCountryFn(index)` per observer, in list order. -/
def NotifyStatusChanged (s : Storage) (index : TIndex) : Storage :=
  let calls := s.m_observers.map
    (fun it => Event.mk (Effect.changeCountryFn it.m_slotId index) s.m_queue)
  { s with log := s.log ++ calls }

/-- The log entries of one status-change notification for `index`: one call
per observer, in list order, made while the queue is `queue`. -/
def changeCalls (observers : List CountryObservers) (index : TIndex) (queue : List TIndex) :
    List Event :=
  observers.map (fun it => Event.mk (Effect.changeCountryFn it.m_slotId index) queue)

/-- Append one outgoing call to the log. -/
def emit (s : Storage) (e : Effect) : Storage :=
  { s with log := s.log ++ [Event.mk e s.m_queue] }

/-! ## Download queue -/

/-- The body of the `while (!m_queue.empty())` loop of
`Storage::DownloadNextCountryFromQueue` (storage.cpp:204-235).  The first
argument is `m_queue` at the top of the iteration; each iteration that does not
return pops one element, which is what the recursion follows. -/
def DownloadNextCountryFromQueue.loop (pl : Platform) : List TIndex → Storage → Option Storage
  | [], s => some { s with m_queue := [] }
  | index :: rest, s =>
    match CountryByIndex s index with
    | none => none
    | some country =>
      match country.m_files.find? (fun it => !IsFileDownloaded pl s.disk it) with
      | some it =>
        -- send Country name for statistics
        let postBody := it.m_fileName
        let request := PendingRequest.PostJson pl.MetaServerUrl postBody
        let s0 := { s with m_queue := index :: rest, m_request := some request }
        let s1 := emit s0 (Effect.PostJson pl.MetaServerUrl postBody)
        -- new status for country, "Downloading"
        some (NotifyStatusChanged s1 index)
      | none =>
        -- continue with next country
        let s1 := { s with m_queue := rest }
        -- reset total country's download progress
        let s2 : Option Storage :=
          match rest with
          | [] => some s1
          | front :: _ =>
            (CountryByIndex s1 front).map
              (fun c => { s1 with m_countryProgress := (0, ((c.Size pl s1.disk).2 : Int)) })
        match s2 with
        | none => none
        | some s2 =>
          -- new status for country, "OnDisk"
          DownloadNextCountryFromQueue.loop pl rest (NotifyStatusChanged s2 index)

/-- Embedding of `Storage::DownloadNextCountryFromQueue` (storage.cpp:202-236). -/
def DownloadNextCountryFromQueue (pl : Platform) (s : Storage) : Option Storage :=
  DownloadNextCountryFromQueue.loop pl s.m_queue s

/-- Embedding of `Storage::DownloadCountry` (storage.cpp:149-178). -/
def DownloadCountry (pl : Platform) (s : Storage) (index : TIndex) : Option Storage :=
  -- check if we already downloading this country
  let found := s.m_queue.indexOf index
  if found ≠ s.m_queue.length then
    -- do nothing
    some s
  else
    -- remove it from failed list, add it into the queue
    let s1 := { s with m_failedCountries := s.m_failedCountries.erase index, m_queue := s.m_queue ++ [index] }
    -- and start download if necessary
    if s1.m_queue.length = 1 then
      match CountryByIndex s1 index with
      | none => none
      | some country =>
        let size := country.Size pl s1.disk
        DownloadNextCountryFromQueue pl { s1 with m_countryProgress := (0, (size.2 : Int)) }
    else
      -- notify about "In Queue" status
      some (NotifyStatusChanged s1 index)

/-! ## Deletion -/

/-- Embedding of `DeactivateMap::operator()` (storage.cpp:190-193) applied to every file. -/
def DeactivateMap (pl : Platform) (s : Storage) (files : List CountryFile) : Storage :=
  files.foldl (fun acc file => emit acc (Effect.removeMap (file.GetFileWithExt pl))) s

/-- The call `FileWriter::DeleteFileX`: the path is gone from local storage afterwards. -/
def DeleteFileX (s : Storage) (path : String) : Storage :=
  emit { s with disk := s.disk.filter (fun p => p ≠ path) } (Effect.DeleteFileX path)

/-- Embedding of `DeleteMap::operator()` (storage.cpp:247-252) applied to every file. -/
def DeleteMap (pl : Platform) (s : Storage) (files : List CountryFile) : Storage :=
  files.foldl (fun acc file =>
    let a1 := DeleteFileX acc (pl.WritableDir ++ file.m_fileName ++ DOWNLOADING_FILE_EXTENSION)
    let a2 := DeleteFileX a1 (pl.WritableDir ++ file.m_fileName ++ RESUME_FILE_EXTENSION)
    DeleteFileX a2 (pl.WritableDir ++ file.GetFileWithExt pl)) s

/-- Embedding of `DeactivateAndDeleteCountry` (storage.cpp:255-262). -/
def DeactivateAndDeleteCountry (pl : Platform) (s : Storage) (country : Country) : Storage :=
  -- deactivate from multiindex, then delete from disk
  DeleteMap pl (DeactivateMap pl s country.m_files) country.m_files

/-- The log entries of the deactivation pass: one `m_removeMap` call per file,
in file order. -/
def removeCalls (pl : Platform) (files : List CountryFile) (queue : List TIndex) : List Event :=
  files.map (fun file => Event.mk (Effect.removeMap (file.GetFileWithExt pl)) queue)

/-- The log entries of the deletion pass: for each file, in file order, its
partial download, its resume sidecar and the file itself. -/
def deleteCalls (pl : Platform) : List CountryFile → List TIndex → List Event
  | [], _ => []
  | file :: files, queue =>
    Event.mk (Effect.DeleteFileX (pl.WritableDir ++ file.m_fileName ++ DOWNLOADING_FILE_EXTENSION)) queue ::
    Event.mk (Effect.DeleteFileX (pl.WritableDir ++ file.m_fileName ++ RESUME_FILE_EXTENSION)) queue ::
    Event.mk (Effect.DeleteFileX (pl.WritableDir ++ file.GetFileWithExt pl)) queue ::
    deleteCalls pl files queue

/-- Embedding of `Storage::DeleteCountry` (storage.cpp:270-312). -/
def DeleteCountry (pl : Platform) (s : Storage) (index : TIndex) : Option Storage :=
  match CountryByIndex s index with
  | none => none
  | some country =>
    let found := s.m_queue.indexOf index
    let r : Option (Storage × RectD) :=
      if found ≠ s.m_queue.length then
        if found = 0 then
          -- stop download, remove from the queue
          let s1 := { s with m_request := none, m_queue := s.m_queue.eraseIdx found }
          -- reset progress if the queue is not empty
          let s2 : Option Storage :=
            match s1.m_queue with
            | [] => some s1
            | front :: _ =>
              (CountryByIndex s1 front).map
                (fun c => { s1 with m_countryProgress := (0, ((c.Size pl s1.disk).2 : Int)) })
          -- start another download if the queue is not empty
          match s2 with
          | none => none
          | some s2 => (DownloadNextCountryFromQueue pl s2).map (fun s3 => (s3, RectD.GetEmptyRect))
        else
          -- remove from the queue
          some ({ s with m_queue := s.m_queue.eraseIdx found }, RectD.GetEmptyRect)
      else
        -- bounds are only updated if country was already activated before
        some (s, country.m_bounds)
    match r with
    | none => none
    | some (s4, bounds) =>
      let s5 := NotifyStatusChanged (DeactivateAndDeleteCountry pl s4 country) index
      if bounds ≠ RectD.GetEmptyRect then some (emit s5 (Effect.updateRect bounds)) else some s5

/-! ## Completion callbacks -/

/-- The search `string::find_last_of` over the characters of `set`: the position of the
last character of `file` that belongs to `set`, if there is one. -/
def find_last_of : List Char → List Char → Option Nat
  | [], _ => none
  | ch :: rest, set =>
    match find_last_of rest set with
    | some i => some (i + 1)
    | none => if ch ∈ set then some 0 else none

/-- The file name taken from `request.Data()` in `OnMapDownloadFinished`
(storage.cpp:382-387): what follows the last slash or backslash, or the whole
text when there is neither. -/
def fileFromData (data : String) : String :=
  match find_last_of data.toList ['/', '\\'] with
  | some i => String.mk (data.toList.drop (i + 1))
  | none => data

/-- Embedding of `Storage::UpdateAfterSearchIndex` (storage.cpp:425-438). -/
def UpdateAfterSearchIndex (pl : Platform) (s : Storage) (index : TIndex) (fName : String) :
    Storage :=
  -- remove from index set
  let s1 := NotifyStatusChanged { s with m_indexGeneration := s.m_indexGeneration.erase index } index
  -- activate downloaded map piece
  let s2 := emit s1 (Effect.addMap fName)
  -- update rect from downloaded file
  emit s2 (Effect.updateRect (pl.LoadMapHeaderBounds fName))

/-- Embedding of `Storage::OnMapDownloadFinished` (storage.cpp:357-409).  With an empty
queue the source has `ASSERT(false, ...)` and then returns; the embedding is
the release build, where the `ASSERT` is compiled out and the call returns at
once. -/
def OnMapDownloadFinished (pl : Platform) (s : Storage) (request : HttpRequest) :
    Option Storage :=
  match s.m_queue with
  | [] => some s
  | index :: rest =>
    let s1 : Option Storage :=
      if request.Status = StatusT.EFailed then
        -- remove failed country from the queue, notify GUI about failed country
        let s0 := { s with m_queue := rest, m_failedCountries := insert index s.m_failedCountries }
        some (NotifyStatusChanged s0 index)
      else
        match CountryByIndex s index with
        | none => none
        | some country =>
          let size := country.Size pl s.disk
          let s0 := if size.2 ≠ 0 then { s with m_countryProgress := ((size.1 : Int), s.m_countryProgress.2) } else s
          -- or simply activate downloaded map
          some (UpdateAfterSearchIndex pl s0 index (fileFromData request.Data))
    match s1 with
    | none => none
    | some s1 => DownloadNextCountryFromQueue pl { s1 with m_request := none }

/-! ## Progress and server list callbacks -/

/-- Embedding of `Storage::ReportProgress` (storage.cpp:440-444): one call of
`m_progressFn(idx, p)` per observer, in list order. -/
def ReportProgress (s : Storage) (idx : TIndex) (p : Int × Int) : Storage :=
  let calls := s.m_observers.map
    (fun it => Event.mk (Effect.progressFn it.m_slotId idx p) s.m_queue)
  { s with log := s.log ++ calls }

/-- The log entries of one progress report: one call per observer, in list
order, made while the queue is `queue`. -/
def progressCalls (observers : List CountryObservers) (idx : TIndex) (p : Int × Int)
    (queue : List TIndex) : List Event :=
  observers.map (fun it => Event.mk (Effect.progressFn it.m_slotId idx p) queue)

/-- Embedding of `Storage::OnMapDownloadProgress` (storage.cpp:446-462).  With an
empty queue the source has `ASSERT(false, ...)` and then returns; the
embedding is the release build, which returns at once.  The sum of the two
byte counts is far below the range of `int64_t` and is not reduced. -/
def OnMapDownloadProgress (s : Storage) (request : HttpRequest) : Storage :=
  match s.m_queue with
  | [] => s
  | front :: _ =>
    if s.m_observers ≠ [] then
      let p := request.Progress
      ReportProgress s front (p.1 + s.m_countryProgress.1, s.m_countryProgress.2)
    else
      s

/-- Embedding of `Storage::GetFileDownloadUrl` (storage.cpp:489-492). -/
def GetFileDownloadUrl (pl : Platform) (s : Storage) (baseUrl fName : String) : String :=
  baseUrl ++ pl.OMIM_OS_NAME ++ "/" ++ toString s.m_currentVersion ++ "/" ++ pl.UrlEncode fName

/-- Embedding of `Storage::OnServerListDownloaded` (storage.cpp:464-487).  With an
empty queue the source has `ASSERT(false, ...)` and then returns; the
embedding is the release build, which returns at once.  `Files().front()` has
no result for a country without files. -/
def OnServerListDownloaded (pl : Platform) (s : Storage) (request : HttpRequest) :
    Option Storage :=
  match s.m_queue with
  | [] => some s
  | front :: _ =>
    match CountryByIndex s front with
    | none => none
    | some country =>
      match country.m_files with
      | [] => none
      | file :: _ =>
        -- append actual version and file name
        let urls := (pl.GetServerListFromRequest request).map
          (fun url => GetFileDownloadUrl pl s url (file.GetFileWithExt pl))
        let filePath := pl.WritableDir ++ file.GetFileWithExt pl
        let request := PendingRequest.GetFile urls filePath file.m_remoteSize
        some (emit { s with m_request := some request }
          (Effect.GetFile urls filePath file.m_remoteSize))

/-! ## Observers -/

/-- Embedding of `Storage::Subscribe` (storage.cpp:329-341): the slot id handed back
and the object afterwards.  Overflow of the `int` counter is left out. -/
def Subscribe (s : Storage) : Int × Storage :=
  let slotId := s.m_currentSlotId + 1
  (slotId, { s with m_currentSlotId := slotId, m_observers := s.m_observers ++ [⟨slotId⟩] })

/-- The loop of `Storage::Unsubscribe` (storage.cpp:345-354): the first entry
with the given slot id is erased and the loop returns. -/
def Unsubscribe.loop (slotId : Int) : List CountryObservers → List CountryObservers
  | [] => []
  | it :: rest => if it.m_slotId = slotId then rest else it :: Unsubscribe.loop slotId rest

/-- Embedding of `Storage::Unsubscribe` (storage.cpp:343-355). -/
def Unsubscribe (s : Storage) (slotId : Int) : Storage :=
  { s with m_observers := Unsubscribe.loop slotId s.m_observers }

/-! ## Lookup by name -/

/-- The innermost loop of `Storage::FindIndexByName` (storage.cpp:506-510), from
position `k` on. -/
def FindIndexByName.regions (name : String) (i j : Nat) :
    List CountriesContainerT → Nat → Option TIndex
  | [], _ => none
  | node :: rest, k =>
    if node.Value.m_name = name then some ⟨i, j, k⟩
    else FindIndexByName.regions name i j rest (k + 1)

/-- The middle loop of `Storage::FindIndexByName` (storage.cpp:501-511), from
position `j` on. -/
def FindIndexByName.countries (name : String) (i : Nat) :
    List CountriesContainerT → Nat → Option TIndex
  | [], _ => none
  | node :: rest, j =>
    if node.Value.m_name = name then some ⟨i, j, TIndex.INVALID⟩
    else
      match FindIndexByName.regions name i j node.Siblings 0 with
      | some found => some found
      | none => FindIndexByName.countries name i rest (j + 1)

/-- The outer loop of `Storage::FindIndexByName` (storage.cpp:496-512), from
position `i` on. -/
def FindIndexByName.groups (name : String) : List CountriesContainerT → Nat → Option TIndex
  | [], _ => none
  | node :: rest, i =>
    if node.Value.m_name = name then some ⟨i, TIndex.INVALID, TIndex.INVALID⟩
    else
      match FindIndexByName.countries name i node.Siblings 0 with
      | some found => some found
      | none => FindIndexByName.groups name rest (i + 1)

/-- Embedding of `Storage::FindIndexByName` (storage.cpp:494-515); `TIndex()` has all
three levels INVALID. -/
def FindIndexByName (s : Storage) (name : String) : TIndex :=
  match FindIndexByName.groups name s.m_countries.Siblings 0 with
  | some found => found
  | none => ⟨TIndex.INVALID, TIndex.INVALID, TIndex.INVALID⟩

/-! ## The specification's status resolver -/

/-- The status classes of the specification for a size pair (local, remote):
`OnDisk` if equal and non-zero, `Unknown` if both zero, `NotDownloaded` if they
differ. -/
def statusOfSizes (size : Nat × Nat) : TStatus :=
  if size.1 = size.2 ∧ size.2 ≠ 0 then TStatus.EOnDisk
  else if size.1 = 0 ∧ size.2 = 0 then TStatus.EUnknown
  else TStatus.ENotDownloaded

/-- The precedence list of the specification (section 4.1), first match wins. -/
def StatusResolver (pl : Platform) (s : Storage) (key : TIndex) : Option TStatus :=
  if s.m_queue.head? = some key then some TStatus.EDownloading
  else if key ∈ s.m_queue.tail then some TStatus.EInQueue
  else if key ∈ s.m_failedCountries then some TStatus.EDownloadFailed
  else if key ∈ s.m_indexGeneration then some TStatus.EGeneratingIndex
  else (CountrySizeInBytes pl s key).map statusOfSizes

/-! ## The transport -/

/-- The transport has written `path` to local storage (what happens between
the start of a fetch and its completion callback). -/
def fileArrives (s : Storage) (path : String) : Storage :=
  { s with disk := path :: s.disk }

/-! ## Sequences of calls -/

/-- A sequence of `DownloadCountry` calls, one per key, with no callback in
between. -/
def DownloadCountries (pl : Platform) (s : Storage) : List TIndex → Option Storage
  | [] => some s
  | key :: keys =>
    match DownloadCountry pl s key with
    | none => none
    | some s1 => DownloadCountries pl s1 keys

/-- One step in the life of the object: a public operation, a network
callback, or the transport writing a file. -/
inductive Call where
  | download (index : TIndex)
  | delete (index : TIndex)
  | subscribe
  | unsubscribe (slotId : Int)
  | serverList (request : HttpRequest)
  | progress (request : HttpRequest)
  | finished (request : HttpRequest)
  | arrives (path : String)
deriving DecidableEq, Repr

/-- The object after one step, if the step returns. -/
def Call.apply (pl : Platform) (s : Storage) : Call → Option Storage
  | Call.download index => DownloadCountry pl s index
  | Call.delete index => DeleteCountry pl s index
  | Call.subscribe => some (Subscribe s).2
  | Call.unsubscribe slotId => some (Unsubscribe s slotId)
  | Call.serverList request => OnServerListDownloaded pl s request
  | Call.progress request => some (OnMapDownloadProgress s request)
  | Call.finished request => OnMapDownloadFinished pl s request
  | Call.arrives path => some (fileArrives s path)

/-- The object after a sequence of steps, if every step returns. -/
def run (pl : Platform) (s : Storage) : List Call → Option Storage
  | [] => some s
  | call :: calls =>
    match call.apply pl s with
    | none => none
    | some s1 => run pl s1 calls

/-- The number of `Subscribe` calls in a sequence of steps. -/
def subscribeCount (calls : List Call) : Nat :=
  calls.count Call.subscribe

/-! ## The specification's index resolution and name lookup -/

/-- The node addressed by the longest prefix of `levels` whose elements are
all valid (non-negative) and in range, walking down from `t`. -/
def resolvePrefix {α : Type} : SimpleTree α → List Int → SimpleTree α
  | t, [] => t
  | t, level :: levels =>
    if 0 ≤ level then
      match t.Siblings.get? level.toNat with
      | some node => resolvePrefix node levels
      | none => t
    else
      t

/-- The regions of one country with their keys and names, from position `k` on. -/
def regionEntries (i j : Nat) : List CountriesContainerT → Nat → List (TIndex × String)
  | [], _ => []
  | node :: rest, k => (⟨i, j, k⟩, node.Value.m_name) :: regionEntries i j rest (k + 1)

/-- The countries of one group in pre-order (each country, then its regions),
from position `j` on. -/
def countryEntries (i : Nat) : List CountriesContainerT → Nat → List (TIndex × String)
  | [], _ => []
  | node :: rest, j =>
    (⟨i, j, TIndex.INVALID⟩, node.Value.m_name) ::
      (regionEntries i j node.Siblings 0 ++ countryEntries i rest (j + 1))

/-- The groups in pre-order (each group, then its countries with their
regions), from position `i` on. -/
def groupEntries : List CountriesContainerT → Nat → List (TIndex × String)
  | [], _ => []
  | node :: rest, i =>
    (⟨i, TIndex.INVALID, TIndex.INVALID⟩, node.Value.m_name) ::
      (countryEntries i node.Siblings 0 ++ groupEntries rest (i + 1))

/-- Every node at depth 1 to 3 with its key and name, in depth-first
pre-order. -/
def preorderEntries (root : CountriesContainerT) : List (TIndex × String) :=
  groupEntries root.Siblings 0

/-! ## Reading the log -/

/-- The slots that received a status-change call for `key`, in call order. -/
def changeSlotsFor (key : TIndex) (events : List Event) : List Int :=
  events.filterMap (fun e =>
    match e.effect with
    | Effect.changeCountryFn slotId index => if index = key then some slotId else none
    | _ => none)

/-- The rectangles handed to the bounds callback, in call order. -/
def updateRectsOf (events : List Event) : List RectD :=
  events.filterMap (fun e =>
    match e.effect with
    | Effect.updateRect r => some r
    | _ => none)

/-- The server-list requests issued, as (url, body), in call order. -/
def postJsonsOf (events : List Event) : List (String × String) :=
  events.filterMap (fun e =>
    match e.effect with
    | Effect.PostJson url body => some (url, body)
    | _ => none)

/-- Whether a call starts a network operation. -/
def Effect.isRequest : Effect → Bool
  | Effect.PostJson _ _ => true
  | Effect.GetFile _ _ _ => true
  | _ => false

/-- The log entries of the queue loop for the keys it removes: for each removed
key, in queue order, one status-change call per observer, made when the key
has just been popped. -/
def removedCalls (observers : List CountryObservers) : List TIndex → List TIndex → List Event
  | [], _ => []
  | k :: ks, remaining =>
    changeCalls observers k (ks ++ remaining) ++ removedCalls observers ks remaining

/-! ## Invariants of the queue, the sets and the request slot -/

/-- The queue has no duplicate, no queued key is in the failed set, the
indexing set is empty, and a request is outstanding exactly when the queue is
not empty. -/
def Consistent (s : Storage) : Prop :=
  s.m_queue.Nodup ∧ (∀ k ∈ s.m_queue, k ∉ s.m_failedCountries) ∧
    s.m_indexGeneration = ∅ ∧ (s.m_request.isSome = true ↔ s.m_queue ≠ [])

/-! ## Invariants of the observer list -/

/-- The second state has the observer list and the slot counter of the first. -/
def SameObservers (s s1 : Storage) : Prop :=
  s1.m_observers = s.m_observers ∧ s1.m_currentSlotId = s.m_currentSlotId

/-- The registered slot ids are pairwise distinct and none exceeds the slot
counter. -/
def SlotsInOrder (s : Storage) : Prop :=
  (s.m_observers.map CountryObservers.m_slotId).Nodup ∧
    ∀ o ∈ s.m_observers, o.m_slotId ≤ s.m_currentSlotId

/-! ## A small catalog used for the concrete instances -/

namespace Example

def platform : Platform :=
  { MetaServerUrl := "http://meta/"
    WritableDir := "/w/"
    DATA_FILE_EXTENSION := ".mwm"
    LoadMapHeaderBounds := fun _ => RectD.rect 0 0 1 1
    OMIM_OS_NAME := "linux"
    UrlEncode := fun name => name
    GetServerListFromRequest := fun _ => ["http://a/", "http://b/"] }

def region (name : String) (size : Nat) : CountriesContainerT :=
  SimpleTree.node ⟨name, "", [⟨name, size⟩], RectD.rect 0 0 1 1⟩ []

/-- One group, one country, three regions: Alps (1000 bytes), Balkans (2000)
and Carpathians (3000), each with a single file. -/
def countries : CountriesContainerT :=
  SimpleTree.node ⟨"", "", [], RectD.GetEmptyRect⟩
    [SimpleTree.node ⟨"Europe", "", [], RectD.GetEmptyRect⟩
      [SimpleTree.node ⟨"Mountains", "", [], RectD.GetEmptyRect⟩
        [region "Alps" 1000, region "Balkans" 2000, region "Carpathians" 3000]]]

def Alps : TIndex := ⟨0, 0, 0⟩

def Balkans : TIndex := ⟨0, 0, 1⟩

def Carpathians : TIndex := ⟨0, 0, 2⟩

/-- One group, one country, one region "Twin" backed by two files, `a` (100
bytes) and `b` (200 bytes). -/
def twinCountries : CountriesContainerT :=
  SimpleTree.node ⟨"", "", [], RectD.GetEmptyRect⟩
    [SimpleTree.node ⟨"World", "", [], RectD.GetEmptyRect⟩
      [SimpleTree.node ⟨"Islands", "", [], RectD.GetEmptyRect⟩
        [SimpleTree.node ⟨"Twin", "", [⟨"a", 100⟩, ⟨"b", 200⟩], RectD.rect 0 0 1 1⟩ []]]]

def Twin : TIndex := ⟨0, 0, 0⟩

/-- A fresh object with the given files on disk and one observer in slot 1. -/
def fresh (disk : List String) : Storage :=
  { Storage.initial countries 1 disk with m_observers := [⟨1⟩], m_currentSlotId := 1 }

/-- Queue [Alps, Balkans], Alps being downloaded, nothing on disk. -/
def twoQueued : Storage :=
  { fresh [] with
    m_queue := [Alps, Balkans]
    m_countryProgress := (0, 1000)
    m_request := some (PendingRequest.PostJson "http://meta/" "Alps") }

end Example

end storage

namespace graphics

/-! ## Solid paths (`graphics/path_renderer.cpp`) -/

/-- Floating-point arithmetic as the renderer uses it.  The values are `float`
and `double` in the source; here the scalar type and its operations are a
parameter, `toFloat` being the conversion from `double` to `float` and `lit`
the numeric literals. -/
class Arith (R : Type) extends Add R, Sub R, Mul R, Div R, Neg R where
  lit : Nat → R
  sqrt : R → R
  toFloat : R → R

/-- Modelled from the spec: `m2::Point<T>` of geometry/point2d.hpp, which is
absent: a pair of coordinates with componentwise sum and difference, scaling
by a scalar and the Euclidean distance `Length`. -/
structure Point (R : Type) where
  x : R
  y : R

namespace Point

variable {R : Type} [Arith R]

instance : Add (Point R) := ⟨fun a b => ⟨a.x + b.x, a.y + b.y⟩⟩

instance : Sub (Point R) := ⟨fun a b => ⟨a.x - b.x, a.y - b.y⟩⟩

/-- Scaling, `p * c` and `p *= c`. -/
def scale (p : Point R) (c : R) : Point R := ⟨p.x * c, p.y * c⟩

/-- Distance `p.Length(q)`. -/
def Length (p q : Point R) : R :=
  Arith.sqrt ((p.x - q.x) * (p.x - q.x) + (p.y - q.y) * (p.y - q.y))

/-- Conversion of an `m2::PointD` to an `m2::PointF`. -/
def toF (p : Point R) : Point R := ⟨Arith.toFloat p.x, Arith.toFloat p.y⟩

end Point

/-- Modelled from the spec: the line caps of `Pen::Info` (pen.hpp is absent).
The renderer tests for `ERoundCap` and `ESquareCap`; `EButtCap` stands for
every other value. -/
inductive ELineCap where
  | ERoundCap
  | EButtCap
  | ESquareCap
  deriving DecidableEq, Repr

/-- Modelled from the spec: the line joins of `Pen::Info` (pen.hpp is absent);
the three enumerators are the ones the renderer names. -/
inductive ELineJoin where
  | ERoundJoin
  | EBevelJoin
  | ENoJoin
  deriving DecidableEq, Repr

/-- The fields of `Pen::Info` read by `drawSolidPath`. -/
structure PenInfo (R : Type) where
  m_w : R
  m_cap : ELineCap
  m_join : ELineJoin

/-- The corners of `Pen::m_texRect` read by `drawSolidPath`. -/
structure TexRect (R : Type) where
  minX : R
  maxX : R
  minY : R
  maxY : R

/-- The fields of `Pen` read by `drawSolidPath`. -/
structure Pen (R : Type) where
  m_info : PenInfo R
  m_texRect : TexRect R
  m_pipelineID : Nat
  m_isSolid : Bool

/-- What `drawSolidPath` reads of the renderer: `aaShift()` and, for each
pipeline, the texture it has reserved, if any; a texture is given by its
`mapPixel`. -/
structure Renderer (R : Type) where
  aaShift : R
  texture : Nat → Option (Point R → Point R)

/-- One call of `addTexturedStripStrided`: the cells of `coords` and of
`texCoords` written before the call, the normal, and the arguments `size`,
`depth` and `pipelineID`. -/
structure StripCall (R : Type) where
  coords : List (Point R)
  normal : Point R
  texCoords : List (Point R)
  size : Nat
  depth : R
  pipelineID : Nat

/-- The assignment `arr[cur++] = v` on a C array of `capacity` cells whose
cursor started at 0: `written` are the cells filled so far, so `cur` is their
number; a write past the last cell has no result. -/
def store {α : Type} (capacity : Nat) (written : List α) (v : α) : Option (List α) :=
  if written.length < capacity then some (written ++ [v]) else none

/-- The computation of `numPoints` (path_renderer.cpp:318-324). -/
def drawSolidPath.numPoints (leftIsCap rightIsCap hasRoundCap hasSquareCap hasRoundJoin
    hasBevelJoin : Bool) : Nat :=
  let numPoints := 4
  let numPoints := if leftIsCap && (hasRoundCap || hasSquareCap) then numPoints + 2 else numPoints
  let numPoints :=
    if (rightIsCap && (hasRoundCap || hasSquareCap))
        || (!rightIsCap && (hasRoundJoin || hasBevelJoin)) then numPoints + 2
    else numPoints
  numPoints

/-- The writes into `coords[8]` (path_renderer.cpp:326-352); `pt` is
`points[i]` and `nextPt` is `points[i + 1]`. -/
def drawSolidPath.coords {R : Type} [Arith R] (leftIsCap rightIsCap hasRoundCap hasSquareCap
    hasRoundJoin hasBevelJoin : Bool) (pt nextPt fNorm fDir fNormNextSeg : Point R) :
    Option (List (Point R)) := do
  let coords : List (Point R) := []
  let coords ←
    if leftIsCap && (hasRoundCap || hasSquareCap) then do
      let coords ← store 8 coords (pt - fDir + fNorm).toF
      store 8 coords (pt - fDir - fNorm).toF
    else pure coords
  let coords ← store 8 coords (pt + fNorm).toF
  let coords ← store 8 coords (pt - fNorm).toF
  let coords ← store 8 coords (nextPt + fNorm).toF
  let coords ← store 8 coords (nextPt - fNorm).toF
  if (rightIsCap && (hasRoundCap || hasSquareCap)) || (!rightIsCap && hasRoundJoin) then do
    let coords ← store 8 coords (nextPt + fDir + fNorm).toF
    store 8 coords (nextPt + fDir - fNorm).toF
  else if !rightIsCap && hasBevelJoin then do
    let coords ← store 8 coords (nextPt + fNormNextSeg).toF
    store 8 coords (nextPt - fNormNextSeg).toF
  else pure coords

/-- The writes into `texCoords[8]` (path_renderer.cpp:364-394). -/
def drawSolidPath.texCoords {R : Type} (leftIsCap rightIsCap hasRoundCap hasSquareCap
    hasRoundJoin hasBevelJoin : Bool) (mapPixel : Point R → Point R)
    (texMinX texMaxX texMinY texMaxY texCenterX : R) : Option (List (Point R)) := do
  let texCoords : List (Point R) := []
  let texCoords ←
    if leftIsCap && hasRoundCap then do
      let texCoords ← store 8 texCoords (mapPixel ⟨texMinX, texMinY⟩)
      store 8 texCoords (mapPixel ⟨texMinX, texMaxY⟩)
    else if leftIsCap && hasSquareCap then do
      let texCoords ← store 8 texCoords (mapPixel ⟨texCenterX, texMinY⟩)
      store 8 texCoords (mapPixel ⟨texCenterX, texMaxY⟩)
    else pure texCoords
  let texCoords ← store 8 texCoords (mapPixel ⟨texCenterX, texMinY⟩)
  let texCoords ← store 8 texCoords (mapPixel ⟨texCenterX, texMaxY⟩)
  let texCoords ← store 8 texCoords (mapPixel ⟨texCenterX, texMinY⟩)
  let texCoords ← store 8 texCoords (mapPixel ⟨texCenterX, texMaxY⟩)
  if (rightIsCap && hasRoundCap) || (!rightIsCap && hasRoundJoin) then do
    let texCoords ← store 8 texCoords (mapPixel ⟨texMaxX, texMinY⟩)
    store 8 texCoords (mapPixel ⟨texMaxX, texMaxY⟩)
  else if (rightIsCap && hasSquareCap) || (!rightIsCap && hasBevelJoin) then do
    let texCoords ← store 8 texCoords (mapPixel ⟨texCenterX, texMinY⟩)
    store 8 texCoords (mapPixel ⟨texCenterX, texMaxY⟩)
  else pure texCoords

/-- The locals of `drawSolidPath` that live across iterations, and the strip
calls made so far. -/
structure SolidPathState (R : Type) where
  fNorm : Point R
  fDir : Point R
  fNormNextSeg : Point R
  fDirNextSeg : Point R
  calls : List (StripCall R)

/-- How an iteration ends: the loop goes on, or the function returns. -/
inductive Flow (σ : Type) where
  | next (s : σ)
  | ret (s : σ)

/-- What an iteration of the loop of `drawSolidPath` wrote and computed:
`numPoints`, the cells of `coords`, the cells of `texCoords` when the
iteration got that far, and how it ended. -/
structure Segment (R : Type) where
  numPoints : Nat
  coords : List (Point R)
  texCoords : Option (List (Point R))
  flow : Flow (SolidPathState R)

/-- The start of an iteration (path_renderer.cpp:289-308): the vectors of the
segment are those prepared by the previous iteration unless this is the first
segment, and the vectors of the next segment are prepared unless this is the
last one.  Reading `points` outside the array has no result. -/
def drawSolidPath.advance {R : Type} [Arith R] (points : List (Point R)) (geomHalfWidth : R)
    (leftIsCap rightIsCap : Bool) (i : Nat) (st : SolidPathState R) :
    Option (SolidPathState R) := do
  let st := if !leftIsCap then { st with fNorm := st.fNormNextSeg, fDir := st.fDirNextSeg } else st
  if !rightIsCap then do
    let p1 ← points.get? (i + 1)
    let p2 ← points.get? (i + 2)
    let dirNextSeg := p2 - p1
    let lenNextSeg := dirNextSeg.Length ⟨Arith.lit 0, Arith.lit 0⟩
    let dirNextSeg := dirNextSeg.scale (Arith.lit 1 / lenNextSeg)
    let normNextSeg : Point R := ⟨-dirNextSeg.y, dirNextSeg.x⟩
    let fNormNextSeg := normNextSeg.scale geomHalfWidth
    pure { st with fNormNextSeg := fNormNextSeg, fDirNextSeg := ⟨fNormNextSeg.y, -fNormNextSeg.x⟩ }
  else pure st

/-- The rest of an iteration (path_renderer.cpp:310-403): the two arrays are
filled and the strip is added, unless the pipeline has no texture, in which
case the function returns after filling `coords`.  Writing past an array has
no result. -/
def drawSolidPath.draw {R : Type} [Arith R] (rd : Renderer R) (pen : Pen R) (depth : R)
    (leftIsCap rightIsCap : Bool) (pt nextPt : Point R) (st : SolidPathState R) :
    Option (Segment R) := do
  let hasRoundCap := decide (pen.m_info.m_cap = ELineCap.ERoundCap)
  let hasSquareCap := decide (pen.m_info.m_cap = ELineCap.ESquareCap)
  let hasRoundJoin := decide (pen.m_info.m_join = ELineJoin.ERoundJoin)
  let hasBevelJoin := decide (pen.m_info.m_join = ELineJoin.EBevelJoin)
  let texMinX := Arith.toFloat (pen.m_texRect.minX + Arith.lit 1)
  let texMaxX := Arith.toFloat (pen.m_texRect.maxX - Arith.lit 1)
  let texMinY := Arith.toFloat (pen.m_texRect.maxY - rd.aaShift)
  let texMaxY := Arith.toFloat (pen.m_texRect.minY + rd.aaShift)
  let texCenterX := Arith.toFloat ((texMinX + texMaxX) / Arith.lit 2)
  let numPoints := drawSolidPath.numPoints leftIsCap rightIsCap hasRoundCap hasSquareCap
    hasRoundJoin hasBevelJoin
  let coords ← drawSolidPath.coords leftIsCap rightIsCap hasRoundCap hasSquareCap hasRoundJoin
    hasBevelJoin pt nextPt st.fNorm st.fDir st.fNormNextSeg
  match rd.texture pen.m_pipelineID with
  | none => pure ⟨numPoints, coords, none, Flow.ret st⟩
  | some mapPixel =>
    let texCoords ← drawSolidPath.texCoords leftIsCap rightIsCap hasRoundCap hasSquareCap
      hasRoundJoin hasBevelJoin mapPixel texMinX texMaxX texMinY texMaxY texCenterX
    let normal : Point R := ⟨Arith.toFloat (Arith.lit 0), Arith.toFloat (Arith.lit 0)⟩
    let call : StripCall R := ⟨coords, normal, texCoords, numPoints, depth, pen.m_pipelineID⟩
    pure ⟨numPoints, coords, some texCoords, Flow.next { st with calls := st.calls ++ [call] }⟩

/-- One iteration of the loop of `drawSolidPath` (path_renderer.cpp:288-404). -/
def drawSolidPath.body {R : Type} [Arith R] (rd : Renderer R) (points : List (Point R))
    (pointsCount : Nat) (pen : Pen R) (depth : R) (geomHalfWidth : R) (i : Nat)
    (st : SolidPathState R) : Option (Segment R) := do
  let leftIsCap := decide (i = 0)
  let rightIsCap := decide (i = pointsCount - 2)
  let st ← drawSolidPath.advance points geomHalfWidth leftIsCap rightIsCap i st
  let pt ← points.get? i
  let nextPt ← points.get? (i + 1)
  drawSolidPath.draw rd pen depth leftIsCap rightIsCap pt nextPt st

/-- The loop `for (size_t i = 0; i < pointsCount - 1; ++i)` of `drawSolidPath`
over the values of `i` still to come; the result lists what each iteration
wrote. -/
def drawSolidPath.loop {R : Type} [Arith R] (rd : Renderer R) (points : List (Point R))
    (pointsCount : Nat) (pen : Pen R) (depth : R) (geomHalfWidth : R) :
    List Nat → SolidPathState R → Option (List (Segment R) × SolidPathState R)
  | [], st => some ([], st)
  | i :: rest, st =>
    match drawSolidPath.body rd points pointsCount pen depth geomHalfWidth i st with
    | none => none
    | some seg =>
      match seg.flow with
      | Flow.ret st1 => some ([seg], st1)
      | Flow.next st1 =>
        (drawSolidPath.loop rd points pointsCount pen depth geomHalfWidth rest st1).map
          (fun r => (seg :: r.1, r.2))

/-- Embedding of `PathRenderer::drawSolidPath` (path_renderer.cpp:266-405);
`points` holds the `pointsCount` points of the path.  The result is what each
iteration wrote and the calls of `addTexturedStripStrided`, in order. -/
def drawSolidPath {R : Type} [Arith R] (rd : Renderer R) (points : List (Point R))
    (offset : R) (pen : Pen R) (depth : R) : Option (List (Segment R) × List (StripCall R)) := do
  let _ := offset
  let pointsCount := points.length
  let geomHalfWidth :=
    Arith.toFloat ((pen.m_info.m_w + Arith.lit 4 - rd.aaShift * Arith.lit 2) / Arith.lit 2)
  let p0 ← points.get? 0
  let p1 ← points.get? 1
  let dir := p1 - p0
  let len := dir.Length ⟨Arith.lit 0, Arith.lit 0⟩
  let dir := dir.scale (Arith.lit 1 / len)
  let norm : Point R := ⟨-dir.y, dir.x⟩
  let fNorm := norm.scale geomHalfWidth
  let fDir : Point R := ⟨fNorm.y, -fNorm.x⟩
  let zero : Point R := ⟨Arith.lit 0, Arith.lit 0⟩
  let r ← drawSolidPath.loop rd points pointsCount pen depth geomHalfWidth
    (List.range (pointsCount - 1)) ⟨fNorm, fDir, zero, zero, []⟩
  pure (r.1, r.2.calls)

/-- Every strip call has both arrays filled up to `size`, which is 4, 6 or 8. -/
def StripCall.Filled {R : Type} (c : StripCall R) : Prop :=
  c.coords.length = c.size ∧ c.texCoords.length = c.size ∧ (c.size = 4 ∨ c.size = 6 ∨ c.size = 8)

/-- An iteration wrote `numPoints` cells of `coords`, as many cells of
`texCoords` if it got that far, and `numPoints` is 4, 6 or 8. -/
def Segment.Filled {R : Type} (seg : Segment R) : Prop :=
  seg.coords.length = seg.numPoints ∧
    (seg.numPoints = 4 ∨ seg.numPoints = 6 ∨ seg.numPoints = 8) ∧
    ∀ ts, seg.texCoords = some ts → ts.length = seg.numPoints

namespace Example

/-- Integer arithmetic standing in for the floating-point operations. -/
instance : Arith Int :=
  { lit := fun n => n, sqrt := fun r => r, toFloat := fun r => r }

def renderer : Renderer Int := ⟨1, fun _ => some (fun p => p)⟩

def pen (cap : ELineCap) (join : ELineJoin) : Pen Int :=
  ⟨⟨2, cap, join⟩, ⟨0, 8, 0, 8⟩, 0, true⟩

/-- A path of three points, so a first and a last segment. -/
def path : List (Point Int) := [⟨0, 0⟩, ⟨10, 0⟩, ⟨10, 10⟩]

end Example

end graphics

namespace feature

/-! ## Features (`indexer/feature.cpp`) -/

/-- One `char` of the serialized data, as the number of the byte. -/
abbrev Byte := Nat

/-- Modelled from the spec: `m2::PointD` of geometry/point2d.hpp, which is
absent: a pair of coordinates.  The coordinates are `double` in the source;
here their type is a parameter. -/
structure PointD (R : Type) where
  x : R
  y : R
  deriving DecidableEq, Repr

/-- Modelled from the spec: the feature kinds of `FeatureBase` (feature.hpp is
absent).  The parser tests for `FEATURE_TYPE_POINT` and `FEATURE_TYPE_AREA`
only. -/
inductive FeatureType where
  | FEATURE_TYPE_POINT
  | FEATURE_TYPE_LINE
  | FEATURE_TYPE_AREA
  | FEATURE_TYPE_UNKNOWN
  deriving DecidableEq, Repr

/-- What feature.cpp takes from headers that are absent: the point codec of
cell_id.hpp, the variable-length integers of coding/varint.hpp and the layout
of the header byte of feature.hpp.  A reader gets the bytes from the position
of the source on and returns the value together with the number of bytes it
consumed, or nothing when the bytes run out; `bits` is the width of the
integer type it is instantiated with. -/
structure Env (R : Type) where
  Int64ToPoint : Int → R × R
  PointToInt64 : R → R → Int
  WriteVarUint : Nat → List Byte
  WriteVarInt : Int → List Byte
  ReadVarUint : (bits : Nat) → List Byte → Option (Nat × Nat)
  ReadVarInt : (bits : Nat) → List Byte → Option (Int × Nat)
  HEADER_HAS_LAYER : Nat
  HEADER_IS_LINE : Nat
  HEADER_IS_AREA : Nat
  HEADER_HAS_NAME : Nat
  GetTypesCount : Byte → Nat
  GetFeatureType : Byte → FeatureType

/-- The value an `int64_t` takes when the mathematical result is `x`. -/
def wrap64 (x : Int) : Int := (x + 2 ^ 63) % 2 ^ 64 - 2 ^ 63

/-- Embedding of `pts::ToPoint`. -/
def pts.ToPoint {R : Type} (env : Env R) (i : Int) : PointD R :=
  let pt := env.Int64ToPoint i
  ⟨pt.1, pt.2⟩

/-- Embedding of `pts::ToId`; the result is an `int64_t`. -/
def pts.ToId {R : Type} (env : Env R) (p : R × R) : Int :=
  wrap64 (env.PointToInt64 p.1 p.2)

/-! ### FeatureBuilder -/

/-- The members of `FeatureBuilder`: the types are `uint32_t`, the layer is an
`int32_t`, the name is a string of bytes, and the geometry and the triangles
are point ids, `int64_t`. -/
structure FeatureBuilder where
  m_Types : List Nat
  m_Layer : Int
  m_Name : List Byte
  m_Geometry : List Int
  m_Triangles : List Int
  deriving DecidableEq, Repr

namespace FeatureBuilder

/-- Embedding of the constructor `FeatureBuilder::FeatureBuilder()`. -/
def init : FeatureBuilder := ⟨[], 0, [], [], []⟩

/-- Embedding of `FeatureBuilder::AddPoint`. -/
def AddPoint {R : Type} (env : Env R) (fb : FeatureBuilder) (p : PointD R) : FeatureBuilder :=
  { fb with m_Geometry := fb.m_Geometry ++ [pts.ToId env (p.x, p.y)] }

/-- Embedding of `FeatureBuilder::AddTriangle`. -/
def AddTriangle {R : Type} (env : Env R) (fb : FeatureBuilder) (a b c : PointD R) :
    FeatureBuilder :=
  let m_Triangles := fb.m_Triangles ++ [pts.ToId env (a.x, a.y)]
  let m_Triangles := m_Triangles ++ [pts.ToId env (b.x, b.y)]
  let m_Triangles := m_Triangles ++ [pts.ToId env (c.x, c.y)]
  { fb with m_Triangles := m_Triangles }

/-- Embedding of `FeatureBuilder::AddName`; a failed `CHECK_EQUAL` has no
result. -/
def AddName (fb : FeatureBuilder) (name : List Byte) : Option FeatureBuilder :=
  if fb.m_Name = [] then some { fb with m_Name := name } else none

/-- Embedding of `FeatureBuilder::AddLayer`; a failed `CHECK_EQUAL` has no
result. -/
def AddLayer (fb : FeatureBuilder) (layer : Int) : Option FeatureBuilder :=
  if fb.m_Layer = 0 then
    let bound : Int := 10
    let layer := if layer < -bound then -bound else if layer > bound then bound else layer
    some { fb with m_Layer := layer }
  else none

/-- Modelled from the spec: `FeatureBuilder::AddTypes` of feature.hpp, which is
absent: the range becomes the types of the builder, each stored as a
`uint32_t`. -/
def AddTypes (fb : FeatureBuilder) (types : List Nat) : FeatureBuilder :=
  { fb with m_Types := types.map (fun t => t % 2 ^ 32) }

/-- The values written for a vector of ids after its first element: each id
minus the one before it, in `int64_t`. -/
def deltasFrom (prev : Int) : List Int → List Int
  | [] => []
  | x :: xs => wrap64 (x - prev) :: deltasFrom x xs

/-- The values written for a vector of ids: `i == 0 ? v[0] : v[i] - v[i-1]`. -/
def deltas : List Int → List Int
  | [] => []
  | x :: xs => x :: deltasFrom x xs

/-- The header byte of `FeatureBuilder::Serialize` (feature.cpp:90-101). -/
def header {R : Type} (env : Env R) (fb : FeatureBuilder) : Byte :=
  let header := fb.m_Types.length % 256
  let header := if fb.m_Layer ≠ 0 then (header ||| env.HEADER_HAS_LAYER) % 256 else header
  let header :=
    if 1 < fb.m_Geometry.length then
      if fb.m_Triangles = [] then (header ||| env.HEADER_IS_LINE) % 256
      else (header ||| env.HEADER_IS_AREA) % 256
    else header
  let header := if fb.m_Name ≠ [] then (header ||| env.HEADER_HAS_NAME) % 256 else header
  header

/-- The block "Serializing types" of `Serialize` (feature.cpp:105-108). -/
def Serialize.types {R : Type} (env : Env R) (fb : FeatureBuilder) : List Byte :=
  fb.m_Types.flatMap env.WriteVarUint

/-- The block "Serializing layer" of `Serialize` (feature.cpp:111-112). -/
def Serialize.layer {R : Type} (env : Env R) (fb : FeatureBuilder) : List Byte :=
  if fb.m_Layer ≠ 0 then env.WriteVarInt fb.m_Layer else []

/-- The block "Serializing name" of `Serialize` (feature.cpp:115-119). -/
def Serialize.name {R : Type} (env : Env R) (fb : FeatureBuilder) : List Byte :=
  if fb.m_Name ≠ [] then env.WriteVarUint (fb.m_Name.length - 1) ++ fb.m_Name else []

/-- The block "Serializing geometry" of `Serialize` (feature.cpp:122-131); it
runs on a geometry that is not empty. -/
def Serialize.geometry {R : Type} (env : Env R) (fb : FeatureBuilder) : List Byte :=
  if fb.m_Geometry.length = 1 then env.WriteVarInt (fb.m_Geometry.headD 0)
  else
    env.WriteVarUint (fb.m_Geometry.length - 1) ++
      (deltas fb.m_Geometry).flatMap env.WriteVarInt

/-- The block "Serializing triangles" of `Serialize` (feature.cpp:134-140);
the count is computed in `size_t`, taken to be 64 bits wide. -/
def Serialize.triangles {R : Type} (env : Env R) (fb : FeatureBuilder) : List Byte :=
  if fb.m_Triangles ≠ [] then
    env.WriteVarUint ((fb.m_Triangles.length / 3 + 2 ^ 64 - 1) % 2 ^ 64) ++
      (deltas fb.m_Triangles).flatMap env.WriteVarInt
  else []

/-- The bytes `Serialize` pushes into the sink, block after block. -/
def Serialize.data {R : Type} (env : Env R) (fb : FeatureBuilder) : List Byte :=
  header env fb :: (Serialize.types env fb ++ (Serialize.layer env fb ++
    (Serialize.name env fb ++ (Serialize.geometry env fb ++ Serialize.triangles env fb))))

/-- Embedding of `FeatureBuilder::Serialize` (feature.cpp:80-140), without the
final debug assertion, which is `CheckCorrect` below; a failed `CHECK` has no
result. -/
def Serialize {R : Type} (env : Env R) (fb : FeatureBuilder) : Option (List Byte) :=
  if fb.m_Geometry = [] then none
  else if ¬ (1 < fb.m_Geometry.length ∨ fb.m_Triangles = []) then none
  else if ¬ (fb.m_Types.length < 16) then none
  else
    some (Serialize.data env fb)

/-- Embedding of `FeatureBuilder::operator==`. -/
def equals (fb other : FeatureBuilder) : Bool :=
  fb.m_Types == other.m_Types && fb.m_Layer == other.m_Layer && fb.m_Name == other.m_Name &&
    fb.m_Geometry == other.m_Geometry && fb.m_Triangles == other.m_Triangles

end FeatureBuilder

/-! ### FeatureBase and FeatureGeom -/

/-- The members of `FeatureGeom`, those of `FeatureBase` included, except the
limit rectangle, which nothing below reads.  `m_Types` holds the entries of
the array that `ParseTypes` has written. -/
structure FeatureGeom (R : Type) where
  m_Data : List Byte
  m_Offset : Nat
  m_LayerOffset : Nat
  m_GeometryOffset : Nat
  m_TrianglesOffset : Nat
  m_NameOffset : Nat
  m_bTypesParsed : Bool
  m_bLayerParsed : Bool
  m_bGeometryParsed : Bool
  m_bTrianglesParsed : Bool
  m_bNameParsed : Bool
  m_Types : List Nat
  m_Layer : Int
  m_Name : List Byte
  m_Geometry : List (PointD R)
  m_Triangles : List (PointD R)

namespace FeatureGeom

variable {R : Type}

/-- A feature before its first `Deserialize`. -/
def init : FeatureGeom R :=
  ⟨[], 0, 0, 0, 0, 0, false, false, false, false, false, [], 0, [], [], []⟩

/-- Embedding of `FeatureGeom::Deserialize`, `FeatureBase::Deserialize`
included. -/
def Deserialize (f : FeatureGeom R) (data : List Byte) (offset : Nat) : FeatureGeom R :=
  { f with
    m_Offset := offset
    m_Data := data
    m_LayerOffset := 0
    m_GeometryOffset := 0
    m_TrianglesOffset := 0
    m_NameOffset := 0
    m_bTypesParsed := false
    m_bLayerParsed := false
    m_bGeometryParsed := false
    m_bTrianglesParsed := false
    m_bNameParsed := false
    m_Layer := 0
    m_Name := []
    m_Geometry := []
    m_Triangles := [] }

/-- The bytes an `ArrayByteSource` at `DataPtr() + pos` has before it. -/
def source (f : FeatureGeom R) (pos : Nat) : List Byte :=
  f.m_Data.drop (f.m_Offset + pos)

/-- Modelled from the spec: `FeatureBase::Header` of feature.hpp, which is
absent: the byte at `DataPtr()`. -/
def Header (f : FeatureGeom R) : Option Byte :=
  (f.source 0).head?

/-- Embedding of `FeatureBase::CalcOffset` for a source that has advanced to
`DataPtr() + pos`; the result is a `uint32_t`. -/
def CalcOffset (pos : Nat) : Nat := pos % 2 ^ 32

/-- The loop of `ParseTypes`: `count` reads of a `uint32_t`, from `src` on;
the result has the values and the number of bytes consumed. -/
def readTypes (env : Env R) : Nat → List Byte → Option (List Nat × Nat)
  | 0, _ => some ([], 0)
  | count + 1, src => do
    let (t, n) ← env.ReadVarUint 32 src
    let (ts, m) ← readTypes env count (src.drop n)
    pure (t % 2 ^ 32 :: ts, n + m)

/-- Embedding of `FeatureBase::ParseTypes`. -/
def ParseTypes (env : Env R) (f : FeatureGeom R) : Option (FeatureGeom R) := do
  let header ← f.Header
  let (types, n) ← readTypes env (env.GetTypesCount header) (f.source 1)
  pure { f with m_Types := types, m_bTypesParsed := true, m_LayerOffset := CalcOffset (1 + n) }

/-- Embedding of `FeatureBase::ParseLayer`. -/
def ParseLayer (env : Env R) (f : FeatureGeom R) : Option (FeatureGeom R) := do
  let f ← (if !f.m_bTypesParsed then ParseTypes env f else some f)
  let header ← f.Header
  if header &&& env.HEADER_HAS_LAYER ≠ 0 then do
    let (layer, n) ← env.ReadVarInt 32 (f.source f.m_LayerOffset)
    pure { f with m_Layer := layer, m_bLayerParsed := true,
                  m_NameOffset := CalcOffset (f.m_LayerOffset + n) }
  else
    pure { f with m_bLayerParsed := true, m_NameOffset := CalcOffset f.m_LayerOffset }

/-- The call `source.Read(dst, size)`: the next `size` bytes, or nothing when
fewer are left. -/
def readBytes (size : Nat) (src : List Byte) : Option (List Byte) :=
  if size ≤ src.length then some (src.take size) else none

/-- Embedding of `FeatureBase::ParseName`; the size of the name is computed in
`uint32_t`. -/
def ParseName (env : Env R) (f : FeatureGeom R) : Option (FeatureGeom R) := do
  let f ← (if !f.m_bLayerParsed then ParseLayer env f else some f)
  let header ← f.Header
  if header &&& env.HEADER_HAS_NAME ≠ 0 then do
    let (size, n) ← env.ReadVarUint 32 (f.source f.m_NameOffset)
    let size := (size % 2 ^ 32 + 1) % 2 ^ 32
    let name ← readBytes size (f.source (f.m_NameOffset + n))
    pure { f with m_Name := name, m_bNameParsed := true,
                  m_GeometryOffset := CalcOffset (f.m_NameOffset + n + size) }
  else
    pure { f with m_bNameParsed := true, m_GeometryOffset := CalcOffset f.m_NameOffset }

/-- The loop of `ParseGeometry` and of `ParseTriangles`: `count` times
`pts::ToPoint(id += ReadVarInt<int64_t>(source))`. -/
def readPoints (env : Env R) : Nat → Int → List Byte → Option (List (PointD R) × Nat)
  | 0, _, _ => some ([], 0)
  | count + 1, id, src => do
    let (d, n) ← env.ReadVarInt 64 src
    let id := wrap64 (id + d)
    let (ps, m) ← readPoints env count id (src.drop n)
    pure (pts.ToPoint env id :: ps, n + m)

/-- Embedding of `FeatureGeom::ParseGeometry`; the size is a `uint32_t`. -/
def ParseGeometry (env : Env R) (f : FeatureGeom R) : Option (FeatureGeom R) := do
  let f ← (if !f.m_bNameParsed then ParseName env f else some f)
  let header ← f.Header
  let (geometrySize, n) ←
    if env.GetFeatureType header = FeatureType.FEATURE_TYPE_POINT then pure (1, 0)
    else do
      let (size, n) ← env.ReadVarUint 32 (f.source f.m_GeometryOffset)
      pure ((size % 2 ^ 32 + 1) % 2 ^ 32, n)
  let (geometry, m) ← readPoints env geometrySize 0 (f.source (f.m_GeometryOffset + n))
  pure { f with m_Geometry := geometry, m_bGeometryParsed := true,
                m_TrianglesOffset := CalcOffset (f.m_GeometryOffset + n + m) }

/-- Embedding of `FeatureGeom::ParseTriangles`; the number of points is a
`uint32_t`. -/
def ParseTriangles (env : Env R) (f : FeatureGeom R) : Option (FeatureGeom R) := do
  let f ← (if !f.m_bGeometryParsed then ParseGeometry env f else some f)
  let header ← f.Header
  if env.GetFeatureType header = FeatureType.FEATURE_TYPE_AREA then do
    let (count, n) ← env.ReadVarUint 32 (f.source f.m_TrianglesOffset)
    let trgPoints := ((count % 2 ^ 32 + 1) * 3) % 2 ^ 32
    let (triangles, _) ← readPoints env trgPoints 0 (f.source (f.m_TrianglesOffset + n))
    pure { f with m_Triangles := triangles, m_bTrianglesParsed := true }
  else
    pure { f with m_bTrianglesParsed := true }

/-- Embedding of `FeatureGeom::ParseAll`. -/
def ParseAll (env : Env R) (f : FeatureGeom R) : Option (FeatureGeom R) :=
  if !f.m_bTrianglesParsed then ParseTriangles env f else some f

/-- Embedding of `FeatureGeom::DeserializeAndParse`. -/
def DeserializeAndParse (env : Env R) (f : FeatureGeom R) (data : List Byte) (offset : Nat) :
    Option (FeatureGeom R) :=
  ParseAll env (f.Deserialize data offset)

/-- The loop of `FeatureGeom::InitFeatureBuilder` over the triangles: one
`AddTriangle` for each index below `triangleCount`; reading the vector
outside its bounds has no result. -/
def addTriangles (env : Env R) (triangles : List (PointD R)) :
    List Nat → FeatureBuilder → Option FeatureBuilder
  | [], fb => some fb
  | i :: rest, fb => do
    let a ← triangles.get? (3 * i + 0)
    let b ← triangles.get? (3 * i + 1)
    let c ← triangles.get? (3 * i + 2)
    addTriangles env triangles rest (fb.AddTriangle env a b c)

/-- Embedding of `FeatureGeom::InitFeatureBuilder`, `FeatureBase::InitFeatureBuilder`
included; the result is the builder it leaves. -/
def InitFeatureBuilder (env : Env R) (f : FeatureGeom R) (fb : FeatureBuilder) :
    Option FeatureBuilder := do
  let f ← ParseAll env f
  let header ← f.Header
  let fb := fb.AddTypes (f.m_Types.take (env.GetTypesCount header))
  let fb ← fb.AddLayer f.m_Layer
  let fb ← fb.AddName f.m_Name
  let fb := f.m_Geometry.foldl (fun fb p => fb.AddPoint env p) fb
  let triangleCount := (f.m_Triangles.length / 3) % 2 ^ 32
  addTriangles env f.m_Triangles (List.range triangleCount) fb

end FeatureGeom

/-- The builder that `FeatureBuilder::CheckCorrect` (feature.cpp:145-163)
compares with the original: the data parsed by a fresh feature at offset 0,
the default of the declaration, and poured into a fresh builder. -/
def FeatureBuilder.CheckCorrect.parsed {R : Type} (env : Env R) (data : List Byte) :
    Option FeatureBuilder := do
  let feature ← (FeatureGeom.init : FeatureGeom R).DeserializeAndParse env data 0
  feature.InitFeatureBuilder env FeatureBuilder.init

/-- Embedding of `FeatureBuilder::CheckCorrect`, its assertions returned as
the result: the parsed builder exists and equals this one under `operator==`. -/
def FeatureBuilder.CheckCorrect {R : Type} (env : Env R) (fb : FeatureBuilder)
    (data : List Byte) : Bool :=
  match FeatureBuilder.CheckCorrect.parsed env data with
  | some parsed => fb.equals parsed
  | none => false

/-- The operations that change a `FeatureBuilder`. -/
inductive Call (R : Type) where
  | AddPoint (p : PointD R)
  | AddTriangle (a b c : PointD R)
  | AddName (name : List Byte)
  | AddLayer (layer : Int)
  | AddTypes (types : List Nat)

/-- One operation on a builder. -/
def Call.apply {R : Type} (env : Env R) (fb : FeatureBuilder) : Call R → Option FeatureBuilder
  | Call.AddPoint p => some (fb.AddPoint env p)
  | Call.AddTriangle a b c => some (fb.AddTriangle env a b c)
  | Call.AddName name => fb.AddName name
  | Call.AddLayer layer => fb.AddLayer layer
  | Call.AddTypes types => some (fb.AddTypes types)

/-- The builder a sequence of operations leaves, starting from `fb`. -/
def build {R : Type} (env : Env R) : FeatureBuilder → List (Call R) → Option FeatureBuilder
  | fb, [] => some fb
  | fb, c :: cs => (c.apply env fb).bind (fun fb1 => build env fb1 cs)

/-- The members of a builder have the values of their types, the layer is
within the bounds `AddLayer` clamps it to, and the triangles come in threes. -/
def FeatureBuilder.Valid (fb : FeatureBuilder) : Prop :=
  (∀ t ∈ fb.m_Types, t < 2 ^ 32) ∧ -10 ≤ fb.m_Layer ∧ fb.m_Layer ≤ 10 ∧
    (∀ id ∈ fb.m_Geometry, -2 ^ 63 ≤ id ∧ id < 2 ^ 63) ∧
    (∀ id ∈ fb.m_Triangles, -2 ^ 63 ≤ id ∧ id < 2 ^ 63) ∧ fb.m_Triangles.length % 3 = 0

/-- What the absent headers are taken to guarantee: a variable-length integer
that fits the type the reader is instantiated with is read back as written,
together with the number of bytes written, whatever follows it; and the
decoders of the header byte read back what `Serialize` packed into it. -/
def Env.Lawful {R : Type} (env : Env R) : Prop :=
  (∀ v rest, v < 2 ^ 32 →
    env.ReadVarUint 32 (env.WriteVarUint v ++ rest) = some (v, (env.WriteVarUint v).length)) ∧
  (∀ v rest, -2 ^ 31 ≤ v → v < 2 ^ 31 →
    env.ReadVarInt 32 (env.WriteVarInt v ++ rest) = some (v, (env.WriteVarInt v).length)) ∧
  (∀ v rest, -2 ^ 63 ≤ v → v < 2 ^ 63 →
    env.ReadVarInt 64 (env.WriteVarInt v ++ rest) = some (v, (env.WriteVarInt v).length)) ∧
  ∀ fb : FeatureBuilder, fb.m_Types.length < 16 →
    env.GetTypesCount (fb.header env) = fb.m_Types.length ∧
    (fb.header env &&& env.HEADER_HAS_LAYER ≠ 0 ↔ fb.m_Layer ≠ 0) ∧
    (fb.header env &&& env.HEADER_HAS_NAME ≠ 0 ↔ fb.m_Name ≠ []) ∧
    (env.GetFeatureType (fb.header env) = FeatureType.FEATURE_TYPE_POINT ↔
      ¬ 1 < fb.m_Geometry.length) ∧
    (env.GetFeatureType (fb.header env) = FeatureType.FEATURE_TYPE_AREA ↔
      1 < fb.m_Geometry.length ∧ fb.m_Triangles ≠ [])

namespace Example

/-- The bytes of an unsigned integer, seven bits at a time from the low end,
the high bit of a byte telling that more follow; `more` bounds the number of
bytes that may follow the first. -/
def writeVarUint : (more : Nat) → Nat → List Byte
  | 0, v => [v]
  | more + 1, v => if v < 128 then [v] else (v % 128 + 128) :: writeVarUint more (v / 128)

/-- The unsigned integer at the head of the bytes and the number of bytes it
takes. -/
def readVarUint : List Byte → Option (Nat × Nat)
  | [] => none
  | b :: rest =>
    if b < 128 then some (b, 1)
    else (readVarUint rest).map (fun r => (b - 128 + 128 * r.1, r.2 + 1))

/-- The unsigned integer that stands for a signed one: 0, -1, 1, -2, ... are
0, 1, 2, 3, ... -/
def zigZagEncode (x : Int) : Nat :=
  if 0 ≤ x then (2 * x).toNat else (-2 * x - 1).toNat

/-- The signed integer an unsigned one stands for. -/
def zigZagDecode (n : Nat) : Int :=
  if n % 2 = 0 then (n / 2 : Nat) else -((n / 2 : Nat) : Int) - 1

/-- The kind of a feature in bits 4 and 5 of the header byte. -/
def featureType (header : Byte) : FeatureType :=
  match (header >>> 4) &&& 3 with
  | 0 => FeatureType.FEATURE_TYPE_POINT
  | 1 => FeatureType.FEATURE_TYPE_LINE
  | 2 => FeatureType.FEATURE_TYPE_AREA
  | _ => FeatureType.FEATURE_TYPE_UNKNOWN

/-- An instance of what the absent headers provide: integer coordinates packed
into the two halves of an id, seven-bit variable-length integers, and a header
byte with the type count in its low four bits and the flags above them. -/
def env : Env Int :=
  { Int64ToPoint := fun i => (i / 2 ^ 32, i % 2 ^ 32)
    PointToInt64 := fun x y => x * 2 ^ 32 + y
    WriteVarUint := writeVarUint 9
    WriteVarInt := fun x => writeVarUint 9 (zigZagEncode x)
    ReadVarUint := fun bits src => (readVarUint src).map (fun r => (r.1 % 2 ^ bits, r.2))
    ReadVarInt := fun bits src =>
      (readVarUint src).map (fun r => (zigZagDecode (r.1 % 2 ^ bits), r.2))
    HEADER_HAS_LAYER := 128
    HEADER_IS_LINE := 16
    HEADER_IS_AREA := 32
    HEADER_HAS_NAME := 64
    GetTypesCount := fun header => header &&& 15
    GetFeatureType := featureType }

/-- The feature of `FeatureBucketerSmokeTest`: the points (10, 10) and
(20, 20). -/
def smokeTest : List (Call Int) := [Call.AddPoint ⟨10, 10⟩, Call.AddPoint ⟨20, 20⟩]

/-- An area with a name, a layer and two types, whose second point id lies
below the first. -/
def area : List (Call Int) :=
  [Call.AddTypes [7, 300], Call.AddLayer (-3), Call.AddName [72, 105],
    Call.AddPoint ⟨5, 5⟩, Call.AddPoint ⟨-5, 1⟩, Call.AddPoint ⟨5, 9⟩,
    Call.AddTriangle ⟨5, 5⟩ ⟨-5, 1⟩ ⟨5, 9⟩]

/-- Two points whose ids are the least and the greatest `int64_t`, so that
their difference wraps around. -/
def farApart : List (Call Int) :=
  [Call.AddPoint ⟨-2147483648, 0⟩, Call.AddPoint ⟨2147483647, 4294967295⟩]

/-- The point (10, 10) with a name of 4294967296 bytes. -/
def longNameCalls : List (Call Int) :=
  [Call.AddPoint ⟨10, 10⟩, Call.AddName (List.replicate 4294967296 65)]

/-- The builder `longNameCalls` makes. -/
def longName : FeatureBuilder :=
  ⟨[], 0, List.replicate 4294967296 65, [42949672970], []⟩

end Example

end feature

namespace storage

/-! ## Lemmas about the queue search -/

theorem found_ne_end_iff (q : List TIndex) (index : TIndex) :
    q.indexOf index ≠ q.length ↔ index ∈ q := by
  rw [Ne, List.indexOf_eq_length, not_not]

theorem found_eq_begin_iff (a : TIndex) (q : List TIndex) (index : TIndex) :
    (a :: q).indexOf index = 0 ↔ a = index := by
  by_cases h : a = index
  · simp [h]
  · simp [List.indexOf_cons_ne _ h, h]

/-! ## Lemmas about index resolution -/

theorem child_in_range {α : Type} (t : SimpleTree α) (i : Int)
    (h0 : 0 ≤ i) (h1 : i < (t.SiblingsCount : Int)) : ∃ n, t.child i = some n := by
  unfold SimpleTree.child
  rw [if_neg (not_lt.2 h0)]
  cases h : t.Siblings.get? i.toNat with
  | some n => exact ⟨n, rfl⟩
  | none =>
    rw [List.get?_eq_none] at h
    unfold SimpleTree.SiblingsCount at h1
    omega

/-- A key whose levels are each a position or INVALID resolves to a node,
whatever the shape of the tree. -/
theorem NodeFromIndex_resolves (root : CountriesContainerT) (index : TIndex)
    (hg : TIndex.INVALID ≤ index.m_group) (hc : TIndex.INVALID ≤ index.m_country)
    (hr : TIndex.INVALID ≤ index.m_region) :
    ∃ n, NodeFromIndex root index = some n := by
  unfold TIndex.INVALID at hg hc hr
  unfold NodeFromIndex
  split_ifs with h1
  · exact ⟨_, rfl⟩
  · unfold TIndex.INVALID at h1
    obtain ⟨g, hgn⟩ := child_in_range root index.m_group (by omega) (by omega)
    rw [hgn]
    simp only
    split_ifs with h2
    · exact ⟨_, rfl⟩
    · unfold TIndex.INVALID at h2
      obtain ⟨c, hcn⟩ := child_in_range g index.m_country (by omega) (by omega)
      rw [hcn]
      simp only
      split_ifs with h3
      · exact ⟨_, rfl⟩
      · unfold TIndex.INVALID at h3
        exact child_in_range c index.m_region (by omega) (by omega)

/-- Every key whose levels are each a position or INVALID has a country. -/
theorem CountryByIndex_resolves (s : Storage) (index : TIndex)
    (hg : TIndex.INVALID ≤ index.m_group) (hc : TIndex.INVALID ≤ index.m_country)
    (hr : TIndex.INVALID ≤ index.m_region) :
    ∃ c, CountryByIndex s index = some c := by
  obtain ⟨n, hn⟩ := NodeFromIndex_resolves s.m_countries index hg hc hr
  exact ⟨n.Value, by unfold CountryByIndex; rw [hn]; rfl⟩

theorem child_eq_get? {α : Type} (t : SimpleTree α) (i : Int) (h0 : 0 ≤ i) :
    t.child i = t.Siblings.get? i.toNat := by
  unfold SimpleTree.child
  rw [if_neg (not_lt.2 h0)]

/-- One level of the walk: a level that is INVALID or past the end stops the
walk at the node reached so far. -/
theorem resolvePrefix_stop {α : Type} (t : SimpleTree α) (level : Int) (levels : List Int)
    (h : level = TIndex.INVALID ∨ level ≥ (t.SiblingsCount : Int)) :
    resolvePrefix t (level :: levels) = t := by
  unfold TIndex.INVALID at h
  rw [resolvePrefix]
  split_ifs with h0
  · have hn : t.Siblings.get? level.toNat = none := by
      rw [List.get?_eq_none]
      unfold SimpleTree.SiblingsCount at h
      omega
    rw [hn]
  · rfl

/-- One level of the walk: a level that is a position in range moves the walk
to that child. -/
theorem resolvePrefix_step {α : Type} (t : SimpleTree α) (level : Int) (levels : List Int)
    (hvalid : level = TIndex.INVALID ∨ 0 ≤ level)
    (h : ¬ (level = TIndex.INVALID ∨ level ≥ (t.SiblingsCount : Int))) :
    ∃ node, t.child level = some node ∧ t.Siblings.get? level.toNat = some node ∧
      resolvePrefix t (level :: levels) = resolvePrefix node levels := by
  have h0 : 0 ≤ level := by
    rcases hvalid with hv | hv
    · exact absurd (Or.inl hv) h
    · exact hv
  have hlt : level < (t.SiblingsCount : Int) := by
    by_contra hge
    exact h (Or.inr (not_lt.1 hge))
  obtain ⟨node, hnode⟩ := child_in_range t level h0 hlt
  have hget : t.Siblings.get? level.toNat = some node := by
    rw [← child_eq_get? t level h0]; exact hnode
  refine ⟨node, hnode, hget, ?_⟩
  rw [resolvePrefix, if_pos h0, hget]

/-! ## Lemmas about `FindIndexByName` -/

theorem regions_eq_find (name : String) (i j : Nat) (l : List CountriesContainerT) :
    ∀ k, FindIndexByName.regions name i j l k =
      ((regionEntries i j l k).find? (fun e => decide (e.2 = name))).map Prod.fst := by
  induction l with
  | nil => intro k; rfl
  | cons node rest ih =>
    intro k
    rw [FindIndexByName.regions, regionEntries, List.find?_cons]
    by_cases h : node.Value.m_name = name
    · simp [h]
    · simp [h, ih]

theorem countries_eq_find (name : String) (i : Nat) (l : List CountriesContainerT) :
    ∀ j, FindIndexByName.countries name i l j =
      ((countryEntries i l j).find? (fun e => decide (e.2 = name))).map Prod.fst := by
  induction l with
  | nil => intro j; rfl
  | cons node rest ih =>
    intro j
    rw [FindIndexByName.countries, countryEntries, List.find?_cons]
    by_cases h : node.Value.m_name = name
    · simp [h]
    · simp only [h, if_false, decide_False, List.find?_append]
      rw [regions_eq_find, ih]
      cases (regionEntries i j node.Siblings 0).find? (fun e => decide (e.2 = name)) with
      | none => simp
      | some e => simp

theorem groups_eq_find (name : String) (l : List CountriesContainerT) :
    ∀ i, FindIndexByName.groups name l i =
      ((groupEntries l i).find? (fun e => decide (e.2 = name))).map Prod.fst := by
  induction l with
  | nil => intro i; rfl
  | cons node rest ih =>
    intro i
    rw [FindIndexByName.groups, groupEntries, List.find?_cons]
    by_cases h : node.Value.m_name = name
    · simp [h]
    · simp only [h, if_false, decide_False, List.find?_append]
      rw [countries_eq_find, ih]
      cases (countryEntries i node.Siblings 0).find? (fun e => decide (e.2 = name)) with
      | none => simp
      | some e => simp

theorem regionEntries_group (i j : Nat) (l : List CountriesContainerT) :
    ∀ k, ∀ e ∈ regionEntries i j l k, e.1.m_group = (i : Int) := by
  induction l with
  | nil => intro k e he; simp [regionEntries] at he
  | cons node rest ih =>
    intro k e he
    rw [regionEntries, List.mem_cons] at he
    rcases he with rfl | he
    · rfl
    · exact ih (k + 1) e he

theorem countryEntries_group (i : Nat) (l : List CountriesContainerT) :
    ∀ j, ∀ e ∈ countryEntries i l j, e.1.m_group = (i : Int) := by
  induction l with
  | nil => intro j e he; simp [countryEntries] at he
  | cons node rest ih =>
    intro j e he
    rw [countryEntries, List.mem_cons, List.mem_append] at he
    rcases he with rfl | he | he
    · rfl
    · exact regionEntries_group i j _ 0 e he
    · exact ih (j + 1) e he

/-- Every key listed in pre-order has a group level that is a position. -/
theorem groupEntries_group (l : List CountriesContainerT) :
    ∀ i, ∀ e ∈ groupEntries l i, (0 : Int) ≤ e.1.m_group := by
  induction l with
  | nil => intro i e he; simp [groupEntries] at he
  | cons node rest ih =>
    intro i e he
    rw [groupEntries, List.mem_cons, List.mem_append] at he
    rcases he with rfl | he | he
    · exact Int.ofNat_nonneg i
    · rw [countryEntries_group i _ 0 e he]; exact Int.ofNat_nonneg i
    · exact ih (i + 1) e he

/-- The key returned for a name is the key of the first entry with that name
in pre-order. -/
theorem FindIndexByName_first (s : Storage) (name : String)
    (pre post : List (TIndex × String)) (e : TIndex × String)
    (hsplit : preorderEntries s.m_countries = pre ++ e :: post)
    (he : e.2 = name) (hpre : ∀ x ∈ pre, x.2 ≠ name) :
    FindIndexByName s name = e.1 := by
  have hfind : (preorderEntries s.m_countries).find? (fun x => decide (x.2 = name)) = some e := by
    rw [List.find?_eq_some]
    refine ⟨by simpa using he, pre, post, hsplit, ?_⟩
    intro a ha
    simpa using hpre a ha
  unfold FindIndexByName
  unfold preorderEntries at hfind
  rw [groups_eq_find, hfind]
  rfl

/-! ## Lemmas about the keys listed in pre-order -/

theorem regionEntries_mem (i j : Nat) (l : List CountriesContainerT) :
    ∀ k0, ∀ e ∈ regionEntries i j l k0, ∃ idx node, l.get? idx = some node ∧
      e = (⟨i, j, ((k0 + idx : Nat) : Int)⟩, node.Value.m_name) := by
  induction l with
  | nil => intro k0 e he; simp [regionEntries] at he
  | cons node rest ih =>
    intro k0 e he
    rw [regionEntries, List.mem_cons] at he
    rcases he with rfl | he
    · exact ⟨0, node, rfl, rfl⟩
    · obtain ⟨idx, n, hget, rfl⟩ := ih (k0 + 1) e he
      refine ⟨idx + 1, n, hget, ?_⟩
      have : k0 + 1 + idx = k0 + (idx + 1) := by omega
      rw [this]

theorem countryEntries_mem (i : Nat) (l : List CountriesContainerT) :
    ∀ j0, ∀ e ∈ countryEntries i l j0, ∃ idx c, l.get? idx = some c ∧
      (e = (⟨i, ((j0 + idx : Nat) : Int), TIndex.INVALID⟩, c.Value.m_name) ∨
        ∃ k r, c.Siblings.get? k = some r ∧
          e = (⟨i, ((j0 + idx : Nat) : Int), (k : Int)⟩, r.Value.m_name)) := by
  induction l with
  | nil => intro j0 e he; simp [countryEntries] at he
  | cons node rest ih =>
    intro j0 e he
    rw [countryEntries, List.mem_cons, List.mem_append] at he
    rcases he with rfl | he | he
    · exact ⟨0, node, rfl, Or.inl rfl⟩
    · obtain ⟨k, r, hget, rfl⟩ := regionEntries_mem i j0 node.Siblings 0 e he
      refine ⟨0, node, rfl, Or.inr ⟨k, r, hget, ?_⟩⟩
      simp
    · obtain ⟨idx, c, hget, hcase⟩ := ih (j0 + 1) e he
      have hnat : j0 + 1 + idx = j0 + (idx + 1) := by omega
      refine ⟨idx + 1, c, hget, ?_⟩
      rw [hnat] at hcase
      exact hcase

theorem groupEntries_mem (l : List CountriesContainerT) :
    ∀ i0, ∀ e ∈ groupEntries l i0, ∃ idx g, l.get? idx = some g ∧
      (e = (⟨((i0 + idx : Nat) : Int), TIndex.INVALID, TIndex.INVALID⟩, g.Value.m_name) ∨
        ∃ j c, g.Siblings.get? j = some c ∧
          (e = (⟨((i0 + idx : Nat) : Int), (j : Int), TIndex.INVALID⟩, c.Value.m_name) ∨
            ∃ k r, c.Siblings.get? k = some r ∧
              e = (⟨((i0 + idx : Nat) : Int), (j : Int), (k : Int)⟩, r.Value.m_name))) := by
  induction l with
  | nil => intro i0 e he; simp [groupEntries] at he
  | cons node rest ih =>
    intro i0 e he
    rw [groupEntries, List.mem_cons, List.mem_append] at he
    rcases he with rfl | he | he
    · exact ⟨0, node, rfl, Or.inl rfl⟩
    · obtain ⟨j, c, hget, hcase⟩ := countryEntries_mem i0 node.Siblings 0 e he
      refine ⟨0, node, rfl, Or.inr ⟨j, c, hget, ?_⟩⟩
      simpa using hcase
    · obtain ⟨idx, g, hget, hcase⟩ := ih (i0 + 1) e he
      have hnat : i0 + 1 + idx = i0 + (idx + 1) := by omega
      refine ⟨idx + 1, g, hget, ?_⟩
      rw [hnat] at hcase
      exact hcase

/-- A position taken from the list of children passes the guard of
`NodeFromIndex` and reaches that child. -/
theorem child_of_get? {α : Type} (t : SimpleTree α) (i : Nat) (node : SimpleTree α)
    (h : t.Siblings.get? i = some node) :
    ¬ (((i : Nat) : Int) = TIndex.INVALID ∨ ((i : Nat) : Int) ≥ (t.SiblingsCount : Int)) ∧
      t.child (i : Int) = some node := by
  have hlt : i < t.Siblings.length := by
    by_contra hge
    rw [List.get?_eq_none.2 (not_lt.1 hge)] at h
    exact absurd h (by simp)
  constructor
  · unfold TIndex.INVALID SimpleTree.SiblingsCount
    omega
  · rw [child_eq_get? t _ (Int.ofNat_nonneg i)]
    simpa using h

theorem NodeFromIndex_group (root g : CountriesContainerT) (i : Nat)
    (hg : root.Siblings.get? i = some g) :
    NodeFromIndex root ⟨(i : Int), TIndex.INVALID, TIndex.INVALID⟩ = some g := by
  obtain ⟨h1, hc1⟩ := child_of_get? root i g hg
  unfold NodeFromIndex
  simp only [if_neg h1, hc1, true_or, if_true]

theorem NodeFromIndex_country (root g c : CountriesContainerT) (i j : Nat)
    (hg : root.Siblings.get? i = some g) (hc : g.Siblings.get? j = some c) :
    NodeFromIndex root ⟨(i : Int), (j : Int), TIndex.INVALID⟩ = some c := by
  obtain ⟨h1, hc1⟩ := child_of_get? root i g hg
  obtain ⟨h2, hc2⟩ := child_of_get? g j c hc
  unfold NodeFromIndex
  simp only [if_neg h1, hc1, if_neg h2, hc2, true_or, if_true]

theorem NodeFromIndex_region (root g c r : CountriesContainerT) (i j k : Nat)
    (hg : root.Siblings.get? i = some g) (hc : g.Siblings.get? j = some c)
    (hr : c.Siblings.get? k = some r) :
    NodeFromIndex root ⟨(i : Int), (j : Int), (k : Int)⟩ = some r := by
  obtain ⟨h1, hc1⟩ := child_of_get? root i g hg
  obtain ⟨h2, hc2⟩ := child_of_get? g j c hc
  obtain ⟨h3, hc3⟩ := child_of_get? c k r hr
  unfold NodeFromIndex
  simp only [if_neg h1, hc1, if_neg h2, hc2, if_neg h3, hc3]

/-- Every key listed in pre-order resolves to a node that carries the listed
name. -/
theorem preorderEntries_resolve (root : CountriesContainerT) :
    ∀ e ∈ preorderEntries root, ∃ node, NodeFromIndex root e.1 = some node ∧
      node.Value.m_name = e.2 := by
  intro e he
  obtain ⟨i, g, hg, hcase⟩ := groupEntries_mem root.Siblings 0 e he
  rw [Nat.zero_add] at hcase
  rcases hcase with rfl | ⟨j, c, hc, rfl | ⟨k, r, hr, rfl⟩⟩
  · exact ⟨g, NodeFromIndex_group root g i hg, rfl⟩
  · exact ⟨c, NodeFromIndex_country root g c i j hg hc, rfl⟩
  · exact ⟨r, NodeFromIndex_region root g c r i j k hg hc hr, rfl⟩

theorem regionEntries_levels (i j : Nat) (l : List CountriesContainerT) (k0 : Nat) :
    ∀ e ∈ regionEntries i j l k0, e.1.m_country = (j : Int) ∧ (k0 : Int) ≤ e.1.m_region := by
  intro e he
  obtain ⟨idx, node, _, rfl⟩ := regionEntries_mem i j l k0 e he
  exact ⟨rfl, by simp⟩

theorem countryEntries_levels (i : Nat) (l : List CountriesContainerT) (j0 : Nat) :
    ∀ e ∈ countryEntries i l j0, (j0 : Int) ≤ e.1.m_country := by
  intro e he
  obtain ⟨idx, c, _, rfl | ⟨k, r, _, rfl⟩⟩ := countryEntries_mem i l j0 e he
  · simp
  · simp

theorem groupEntries_levels (l : List CountriesContainerT) (i0 : Nat) :
    ∀ e ∈ groupEntries l i0, (i0 : Int) ≤ e.1.m_group := by
  intro e he
  obtain ⟨idx, g, _, rfl | ⟨j, c, _, rfl | ⟨k, r, _, rfl⟩⟩⟩ := groupEntries_mem l i0 e he
  · simp
  · simp
  · simp

theorem regionEntries_keys_nodup (i j : Nat) (l : List CountriesContainerT) :
    ∀ k0, ((regionEntries i j l k0).map Prod.fst).Nodup := by
  induction l with
  | nil => intro k0; exact List.nodup_nil
  | cons node rest ih =>
    intro k0
    rw [regionEntries, List.map_cons, List.nodup_cons]
    refine ⟨?_, ih (k0 + 1)⟩
    intro hmem
    obtain ⟨e, he, hkey⟩ := List.mem_map.1 hmem
    have := (regionEntries_levels i j rest (k0 + 1) e he).2
    rw [hkey] at this
    simp only at this
    omega

theorem countryEntries_keys_nodup (i : Nat) (l : List CountriesContainerT) :
    ∀ j0, ((countryEntries i l j0).map Prod.fst).Nodup := by
  induction l with
  | nil => intro j0; exact List.nodup_nil
  | cons node rest ih =>
    intro j0
    rw [countryEntries, List.map_cons, List.map_append, List.nodup_cons, List.nodup_append]
    refine ⟨?_, regionEntries_keys_nodup i j0 node.Siblings 0, ih (j0 + 1), ?_⟩
    · intro hmem
      rcases List.mem_append.1 hmem with hmem | hmem
      · obtain ⟨e, he, hkey⟩ := List.mem_map.1 hmem
        have := (regionEntries_levels i j0 node.Siblings 0 e he).2
        rw [hkey] at this
        unfold TIndex.INVALID at this
        simp only at this
        omega
      · obtain ⟨e, he, hkey⟩ := List.mem_map.1 hmem
        have := countryEntries_levels i rest (j0 + 1) e he
        rw [hkey] at this
        simp only at this
        omega
    · intro key h1 h2
      obtain ⟨e1, he1, hk1⟩ := List.mem_map.1 h1
      obtain ⟨e2, he2, hk2⟩ := List.mem_map.1 h2
      have a1 := (regionEntries_levels i j0 node.Siblings 0 e1 he1).1
      have a2 := countryEntries_levels i rest (j0 + 1) e2 he2
      rw [hk1] at a1
      rw [hk2, a1] at a2
      omega

/-- The keys listed in pre-order are pairwise distinct. -/
theorem groupEntries_keys_nodup (l : List CountriesContainerT) :
    ∀ i0, ((groupEntries l i0).map Prod.fst).Nodup := by
  induction l with
  | nil => intro i0; exact List.nodup_nil
  | cons node rest ih =>
    intro i0
    rw [groupEntries, List.map_cons, List.map_append, List.nodup_cons, List.nodup_append]
    refine ⟨?_, countryEntries_keys_nodup i0 node.Siblings 0, ih (i0 + 1), ?_⟩
    · intro hmem
      rcases List.mem_append.1 hmem with hmem | hmem
      · obtain ⟨e, he, hkey⟩ := List.mem_map.1 hmem
        have := countryEntries_levels i0 node.Siblings 0 e he
        rw [hkey] at this
        unfold TIndex.INVALID at this
        simp only at this
        omega
      · obtain ⟨e, he, hkey⟩ := List.mem_map.1 hmem
        have := groupEntries_levels rest (i0 + 1) e he
        rw [hkey] at this
        simp only at this
        omega
    · intro key h1 h2
      obtain ⟨e1, he1, hk1⟩ := List.mem_map.1 h1
      obtain ⟨e2, he2, hk2⟩ := List.mem_map.1 h2
      have a1 := countryEntries_group i0 node.Siblings 0 e1 he1
      have a2 := groupEntries_levels rest (i0 + 1) e2 he2
      rw [hk1] at a1
      rw [hk2, a1] at a2
      omega

/-! ## Lemmas about the observer list -/

theorem Unsubscribe_loop_absent (slotId : Int) (l : List CountryObservers)
    (h : ∀ o ∈ l, o.m_slotId ≠ slotId) : Unsubscribe.loop slotId l = l := by
  induction l with
  | nil => rfl
  | cons it rest ih =>
    rw [Unsubscribe.loop, if_neg (h it (List.mem_cons_self _ _)),
      ih (fun o ho => h o (List.mem_cons_of_mem _ ho))]

theorem Unsubscribe_loop_split (slotId : Int) (pre post : List CountryObservers)
    (o : CountryObservers) (ho : o.m_slotId = slotId)
    (hpre : ∀ x ∈ pre, x.m_slotId ≠ slotId) :
    Unsubscribe.loop slotId (pre ++ o :: post) = pre ++ post := by
  induction pre with
  | nil => rw [List.nil_append, Unsubscribe.loop, if_pos ho]; rfl
  | cons it rest ih =>
    rw [List.cons_append, Unsubscribe.loop, if_neg (hpre it (List.mem_cons_self _ _)),
      ih (fun x hx => hpre x (List.mem_cons_of_mem _ hx))]
    rfl

/-- What is left after `Unsubscribe` was registered before. -/
theorem Unsubscribe_loop_subset (slotId : Int) (l : List CountryObservers) :
    ∀ x ∈ Unsubscribe.loop slotId l, x ∈ l := by
  induction l with
  | nil => intro x hx; exact hx
  | cons it rest ih =>
    intro x hx
    rw [Unsubscribe.loop] at hx
    split_ifs at hx with h
    · exact List.mem_cons_of_mem _ hx
    · rcases List.mem_cons.1 hx with rfl | hx
      · exact List.mem_cons_self _ _
      · exact List.mem_cons_of_mem _ (ih x hx)

/-- With pairwise distinct slot ids nothing registered under the slot id is
left after `Unsubscribe`. -/
theorem Unsubscribe_loop_removes (slotId : Int) (l : List CountryObservers)
    (hnodup : (l.map CountryObservers.m_slotId).Nodup) :
    ∀ x ∈ Unsubscribe.loop slotId l, x.m_slotId ≠ slotId := by
  induction l with
  | nil => intro x hx; simp [Unsubscribe.loop] at hx
  | cons it rest ih =>
    intro x hx
    rw [List.map_cons, List.nodup_cons] at hnodup
    rw [Unsubscribe.loop] at hx
    split_ifs at hx with h
    · intro hxs
      exact hnodup.1 (List.mem_map.2 ⟨x, hx, hxs.trans h.symm⟩)
    · rcases List.mem_cons.1 hx with rfl | hx
      · exact h
      · exact ih hnodup.2 x hx

/-! ## Lemmas about `DownloadNextCountryFromQueue` -/

/-- The first file of `files` that is not on disk, given a split of the list
at that file. -/
theorem find_first_missing (pl : Platform) (disk : List String)
    (files pre post : List CountryFile) (it : CountryFile)
    (hfiles : files = pre ++ it :: post)
    (hpre : ∀ g ∈ pre, IsFileDownloaded pl disk g = true)
    (hit : IsFileDownloaded pl disk it = false) :
    files.find? (fun f => !IsFileDownloaded pl disk f) = some it := by
  rw [List.find?_eq_some]
  refine ⟨by simp [hit], pre, post, hfiles, ?_⟩
  intro a ha
  simp [hpre a ha]

/-- No file is missing when all of them are on disk. -/
theorem find_none_missing (pl : Platform) (disk : List String) (files : List CountryFile)
    (hall : files.all (IsFileDownloaded pl disk) = true) :
    files.find? (fun f => !IsFileDownloaded pl disk f) = none := by
  rw [List.find?_eq_none]
  intro x hx
  have := List.all_eq_true.1 hall x hx
  simp [this]

/-- The loop stops at a head that has a file missing: it posts the name of the
first missing file and notifies the observers. -/
theorem loop_stop (pl : Platform) (s : Storage) (index : TIndex) (rest : List TIndex)
    (country : Country) (it : CountryFile)
    (hc : CountryByIndex s index = some country)
    (hfind : country.m_files.find? (fun f => !IsFileDownloaded pl s.disk f) = some it) :
    DownloadNextCountryFromQueue.loop pl (index :: rest) s =
      some (NotifyStatusChanged
        (emit { s with m_queue := index :: rest, m_request := some (PendingRequest.PostJson pl.MetaServerUrl it.m_fileName) }
          (Effect.PostJson pl.MetaServerUrl it.m_fileName)) index) := by
  rw [DownloadNextCountryFromQueue.loop]
  simp only [hc, hfind]

/-- The loop pops a head whose files are all on disk and, when it was the last
one, returns. -/
theorem loop_skip_last (pl : Platform) (s : Storage) (index : TIndex) (country : Country)
    (hc : CountryByIndex s index = some country)
    (hall : country.m_files.all (IsFileDownloaded pl s.disk) = true) :
    DownloadNextCountryFromQueue.loop pl [index] s =
      some { NotifyStatusChanged { s with m_queue := [] } index with m_queue := [] } := by
  rw [DownloadNextCountryFromQueue.loop]
  simp only [hc, find_none_missing pl s.disk _ hall]
  rw [DownloadNextCountryFromQueue.loop]

/-- The loop pops a head whose files are all on disk, resets the progress pair
for the new head and goes on with the rest. -/
theorem loop_skip_cons (pl : Platform) (s : Storage) (index front : TIndex)
    (rest : List TIndex) (country next : Country)
    (hc : CountryByIndex s index = some country)
    (hall : country.m_files.all (IsFileDownloaded pl s.disk) = true)
    (hn : CountryByIndex s front = some next) :
    DownloadNextCountryFromQueue.loop pl (index :: front :: rest) s =
      DownloadNextCountryFromQueue.loop pl (front :: rest)
        (NotifyStatusChanged
          { s with m_queue := front :: rest, m_countryProgress := (0, ((next.Size pl s.disk).2 : Int)) }
          index) := by
  rw [DownloadNextCountryFromQueue.loop]
  simp only [hc, find_none_missing pl s.disk _ hall]
  have : CountryByIndex { s with m_queue := front :: rest } front = some next := hn
  simp only [this, Option.map_some']

/-- Some file is missing exactly when the search for the first missing file
finds one. -/
theorem exists_first_missing (pl : Platform) (disk : List String) (files : List CountryFile)
    (h : ∃ f ∈ files, IsFileDownloaded pl disk f = false) :
    ∃ it, files.find? (fun f => !IsFileDownloaded pl disk f) = some it := by
  cases hfind : files.find? (fun f => !IsFileDownloaded pl disk f) with
  | some it => exact ⟨it, rfl⟩
  | none =>
    obtain ⟨f, hf, hfalse⟩ := h
    rw [List.find?_eq_none] at hfind
    have := hfind f hf
    simp [hfalse] at this

/-! ## Lemmas about `CountryStatus` and `DownloadCountry` -/

theorem CountryStatus_head (pl : Platform) (s : Storage) (k : TIndex) (rest : List TIndex)
    (hq : s.m_queue = k :: rest) : CountryStatus pl s k = some TStatus.EDownloading := by
  unfold CountryStatus
  simp [hq]

theorem CountryStatus_tail (pl : Platform) (s : Storage) (a k : TIndex) (rest : List TIndex)
    (hq : s.m_queue = a :: rest) (hk : k ∈ rest) (hne : a ≠ k) :
    CountryStatus pl s k = some TStatus.EInQueue := by
  unfold CountryStatus
  have hfound : s.m_queue.indexOf k ≠ s.m_queue.length :=
    (found_ne_end_iff _ _).2 (by rw [hq]; exact List.mem_cons_of_mem _ hk)
  have h0 : s.m_queue.indexOf k ≠ 0 := by
    rw [hq, Ne, found_eq_begin_iff]; exact hne
  exact (if_pos hfound).trans (if_neg h0)

/-- Only the head of the queue is reported Downloading. -/
theorem CountryStatus_downloading_iff (pl : Platform) (s : Storage) (k : TIndex) :
    CountryStatus pl s k = some TStatus.EDownloading ↔ s.m_queue.head? = some k := by
  constructor
  · intro h
    unfold CountryStatus at h
    cases hq : s.m_queue with
    | nil =>
      rw [hq] at h
      simp only [List.indexOf_nil, List.length_nil, ne_eq, not_true_eq_false, if_false] at h
      split_ifs at h
      all_goals first
        | exact absurd h (by simp)
        | (split at h
           · exact absurd h (by simp)
           · split_ifs at h <;> exact absurd h (by simp))
    | cons a q =>
      by_cases ha : a = k
      · simp [ha]
      · rw [hq] at h
        have h0 : (a :: q).indexOf k ≠ 0 := by rw [Ne, found_eq_begin_iff]; exact ha
        simp only [h0, if_false] at h
        split_ifs at h
        all_goals first
          | exact absurd h (by simp)
          | (split at h
             · exact absurd h (by simp)
             · split_ifs at h <;> exact absurd h (by simp))
  · intro h
    cases hq : s.m_queue with
    | nil => rw [hq] at h; simp at h
    | cons a q =>
      rw [hq] at h
      simp only [List.head?_cons, Option.some.injEq] at h
      exact CountryStatus_head pl s k q (h ▸ hq)

/-- What `DownloadCountry` does to a non-empty queue that lacks the key. -/
theorem DownloadCountry_on_nonempty (pl : Platform) (s : Storage) (key : TIndex)
    (hne : s.m_queue ≠ []) (hnot : key ∉ s.m_queue) :
    DownloadCountry pl s key = some (NotifyStatusChanged
      { s with m_failedCountries := s.m_failedCountries.erase key, m_queue := s.m_queue ++ [key] }
      key) := by
  have hfound : ¬ (s.m_queue.indexOf key ≠ s.m_queue.length) := by
    rw [found_ne_end_iff]; exact hnot
  have hlen : ¬ ((s.m_queue ++ [key]).length = 1) := by
    cases hq : s.m_queue with
    | nil => exact absurd hq hne
    | cons a q => simp
  unfold DownloadCountry
  exact (if_neg hfound).trans (if_neg hlen)

/-- What `DownloadCountry` does to an empty queue when the key has a file
missing. -/
theorem DownloadCountry_on_empty (pl : Platform) (s : Storage) (key : TIndex)
    (country : Country) (it : CountryFile)
    (hq : s.m_queue = [])
    (hc : CountryByIndex s key = some country)
    (hfind : country.m_files.find? (fun f => !IsFileDownloaded pl s.disk f) = some it) :
    DownloadCountry pl s key = some (NotifyStatusChanged
      (emit { s with m_failedCountries := s.m_failedCountries.erase key, m_queue := [key], m_countryProgress := (0, ((country.Size pl s.disk).2 : Int)), m_request := some (PendingRequest.PostJson pl.MetaServerUrl it.m_fileName) }
        (Effect.PostJson pl.MetaServerUrl it.m_fileName)) key) := by
  unfold DownloadCountry
  simp only [hq, List.indexOf_nil, List.length_nil, ne_eq, not_true_eq_false, if_false,
    List.nil_append, List.length_singleton, if_true]
  have hc1 : CountryByIndex { s with m_failedCountries := s.m_failedCountries.erase key, m_queue := [key] } key = some country := hc
  simp only [hc1, DownloadNextCountryFromQueue]
  exact loop_stop pl _ key [] country it hc hfind

/-- Calls for keys that are pairwise distinct and not yet queued append them to
a non-empty queue in call order. -/
theorem DownloadCountries_on_nonempty (pl : Platform) (keys : List TIndex) :
    ∀ s : Storage, s.m_queue ≠ [] → keys.Nodup → (∀ k ∈ keys, k ∉ s.m_queue) →
      ∃ s1, DownloadCountries pl s keys = some s1 ∧ s1.m_queue = s.m_queue ++ keys := by
  induction keys with
  | nil => intro s _ _ _; exact ⟨s, rfl, by simp⟩
  | cons k ks ih =>
    intro s hne hnodup hnot
    have hk : k ∉ s.m_queue := hnot k (List.mem_cons_self _ _)
    have hrun := DownloadCountry_on_nonempty pl s k hne hk
    have hnd := List.nodup_cons.1 hnodup
    obtain ⟨s1, h1, hq1⟩ := ih
      (NotifyStatusChanged
        { s with m_failedCountries := s.m_failedCountries.erase k, m_queue := s.m_queue ++ [k] } k)
      (by simp [NotifyStatusChanged])
      hnd.2
      (by
        intro x hx
        simp only [NotifyStatusChanged, List.mem_append, List.mem_singleton, not_or]
        exact ⟨hnot x (List.mem_cons_of_mem _ hx), fun hxk => hnd.1 (hxk ▸ hx)⟩)
    refine ⟨s1, ?_, ?_⟩
    · rw [DownloadCountries, hrun]; exact h1
    · rw [hq1]; simp [NotifyStatusChanged]

theorem CountryStatus_failed (pl : Platform) (s : Storage) (k : TIndex)
    (hq : k ∉ s.m_queue) (hf : k ∈ s.m_failedCountries) :
    CountryStatus pl s k = some TStatus.EDownloadFailed := by
  have hfound : ¬ (s.m_queue.indexOf k ≠ s.m_queue.length) := by
    rw [found_ne_end_iff]; exact hq
  unfold CountryStatus
  exact (if_neg hfound).trans (if_pos hf)

/-! ## Lemmas about `OnMapDownloadFinished` -/

/-- A failed completion pops the head, records it as failed, notifies, drops
the request and goes on with the queue. -/
theorem OnMapDownloadFinished_failed (pl : Platform) (s : Storage) (request : HttpRequest)
    (h : TIndex) (rs : List TIndex)
    (hq : s.m_queue = h :: rs) (hfail : request.Status = StatusT.EFailed) :
    OnMapDownloadFinished pl s request =
      DownloadNextCountryFromQueue pl
        { NotifyStatusChanged
            { s with m_queue := rs, m_failedCountries := insert h s.m_failedCountries } h
          with m_request := none } := by
  unfold OnMapDownloadFinished
  split
  · rename_i heq; rw [hq] at heq; exact absurd heq (by simp)
  · rename_i index rest heq
    rw [hq] at heq
    cases heq
    simp only [hfail, if_true]

/-- A completion that did not fail records the local size, activates the
file, drops the request and goes on with the queue. -/
theorem OnMapDownloadFinished_completed (pl : Platform) (s : Storage) (request : HttpRequest)
    (h : TIndex) (rs : List TIndex) (c : Country)
    (hq : s.m_queue = h :: rs) (hok : request.Status ≠ StatusT.EFailed)
    (hc : CountryByIndex s h = some c) :
    OnMapDownloadFinished pl s request =
      DownloadNextCountryFromQueue pl
        { UpdateAfterSearchIndex pl
            (if (c.Size pl s.disk).2 ≠ 0 then
              { s with m_countryProgress := (((c.Size pl s.disk).1 : Int), s.m_countryProgress.2) }
             else s)
            h (fileFromData request.Data)
          with m_request := none } := by
  unfold OnMapDownloadFinished
  split
  · rename_i heq; rw [hq] at heq; exact absurd heq (by simp)
  · rename_i index rest heq
    rw [hq] at heq
    cases heq
    simp only [hok, if_false, hc]

theorem CountryByIndex_of_countries (s1 s2 : Storage) (k : TIndex)
    (h : s1.m_countries = s2.m_countries) : CountryByIndex s1 k = CountryByIndex s2 k := by
  unfold CountryByIndex
  rw [h]

/-- What the queue loop leaves alone, for a queue whose keys all resolve: it
returns, the queue it leaves is a suffix of the one it was given, the failed
set, the indexing set, the disk, the catalog and the observers are unchanged,
and every call it makes is made with a suffix of the given queue and is not a
map activation. -/
theorem loop_frame (pl : Platform) (q : List TIndex) :
    ∀ s : Storage, (∀ k ∈ q, ∃ c, CountryByIndex s k = some c) →
      ∃ s1 tail, DownloadNextCountryFromQueue.loop pl q s = some s1 ∧
        s1.m_queue <:+ q ∧
        s1.m_failedCountries = s.m_failedCountries ∧
        s1.m_indexGeneration = s.m_indexGeneration ∧
        s1.disk = s.disk ∧
        s1.m_countries = s.m_countries ∧
        s1.m_observers = s.m_observers ∧
        s1.log = s.log ++ tail ∧
        ∀ e ∈ tail, e.queue <:+ q ∧ ∀ f, e.effect ≠ Effect.addMap f := by
  induction q with
  | nil =>
    intro s _
    exact ⟨{ s with m_queue := [] }, [], by rw [DownloadNextCountryFromQueue.loop],
      List.suffix_refl _, rfl, rfl, rfl, rfl, rfl, by simp, by simp⟩
  | cons index rest ih =>
    intro s hres
    obtain ⟨c, hc⟩ := hres index (List.mem_cons_self _ _)
    cases hfind : c.m_files.find? (fun f => !IsFileDownloaded pl s.disk f) with
    | some it =>
      refine ⟨_, [Event.mk (Effect.PostJson pl.MetaServerUrl it.m_fileName) (index :: rest)] ++
          changeCalls s.m_observers index (index :: rest),
        loop_stop pl s index rest c it hc hfind, List.suffix_refl _, rfl, rfl, rfl, rfl, rfl,
        ?_, ?_⟩
      · simp [NotifyStatusChanged, emit, changeCalls]
      · intro e he
        simp only [changeCalls, List.singleton_append, List.mem_cons, List.mem_map] at he
        rcases he with rfl | ⟨o, _, rfl⟩
        · exact ⟨List.suffix_refl _, by simp⟩
        · exact ⟨List.suffix_refl _, by simp⟩
    | none =>
      have hstep : ∃ progress, DownloadNextCountryFromQueue.loop pl (index :: rest) s =
          DownloadNextCountryFromQueue.loop pl rest
            (NotifyStatusChanged { s with m_queue := rest, m_countryProgress := progress } index) := by
        rw [DownloadNextCountryFromQueue.loop]
        simp only [hc, hfind]
        cases rest with
        | nil => exact ⟨s.m_countryProgress, rfl⟩
        | cons front more =>
          obtain ⟨n, hn⟩ := hres front (by simp)
          have : CountryByIndex { s with m_queue := front :: more } front = some n := hn
          simp only [this, Option.map_some']
          exact ⟨_, rfl⟩
      obtain ⟨progress, hstep⟩ := hstep
      obtain ⟨s1, tail, hrun, hsuf, hf, hi, hd, hcs, ho, hlog, htail⟩ := ih
        (NotifyStatusChanged { s with m_queue := rest, m_countryProgress := progress } index)
        (fun k hk => hres k (List.mem_cons_of_mem _ hk))
      refine ⟨s1, changeCalls s.m_observers index rest ++ tail, hstep.trans hrun,
        hsuf.trans (List.suffix_cons _ _), hf, hi, hd, hcs, ho, ?_, ?_⟩
      · rw [hlog]; simp [NotifyStatusChanged, changeCalls]
      · intro e he
        rcases List.mem_append.1 he with he | he
        · simp only [changeCalls, List.mem_map] at he
          obtain ⟨o, _, rfl⟩ := he
          exact ⟨List.suffix_cons _ _, by simp⟩
        · exact ⟨(htail e he).1.trans (List.suffix_cons _ _), (htail e he).2⟩

theorem CountryStatus_onDisk (pl : Platform) (s : Storage) (k : TIndex) (c : Country)
    (hq : k ∉ s.m_queue) (hf : k ∉ s.m_failedCountries) (hi : k ∉ s.m_indexGeneration)
    (hc : CountryByIndex s k = some c)
    (hall : c.m_files.all (IsFileDownloaded pl s.disk) = true)
    (hsize : c.RemoteSize ≠ 0) :
    CountryStatus pl s k = some TStatus.EOnDisk := by
  have hfound : ¬ (s.m_queue.indexOf k ≠ s.m_queue.length) := by
    rw [found_ne_end_iff]; exact hq
  unfold CountryStatus
  simp only [hfound, if_false, hf, hi, hc, Country.Size, hall, if_true, hsize]

/-- Activation of the head followed by the queue loop, when the head has all
its files on disk: the head is activated while still in front, then popped. -/
theorem activate_then_advance (pl : Platform) (s0 : Storage) (h : TIndex) (rs : List TIndex)
    (c : Country) (fName : String)
    (hq : s0.m_queue = h :: rs)
    (hc : CountryByIndex s0 h = some c)
    (hall : c.m_files.all (IsFileDownloaded pl s0.disk) = true)
    (hres : ∀ k ∈ rs, ∃ n, CountryByIndex s0 k = some n) :
    ∃ s1 tail, DownloadNextCountryFromQueue pl
        { UpdateAfterSearchIndex pl s0 h fName with m_request := none } = some s1 ∧
      s1.log = s0.log ++ changeCalls s0.m_observers h (h :: rs) ++
        [Event.mk (Effect.addMap fName) (h :: rs),
         Event.mk (Effect.updateRect (pl.LoadMapHeaderBounds fName)) (h :: rs)] ++ tail ∧
      (∀ e ∈ tail, e.queue <:+ rs ∧ ∀ f, e.effect ≠ Effect.addMap f) ∧
      s1.m_queue <:+ rs ∧
      s1.m_failedCountries = s0.m_failedCountries ∧
      s1.m_indexGeneration = s0.m_indexGeneration.erase h ∧
      s1.disk = s0.disk ∧
      s1.m_countries = s0.m_countries ∧
      (∀ r1 rest c1, rs = r1 :: rest → CountryByIndex s0 r1 = some c1 →
        (∃ f ∈ c1.m_files, IsFileDownloaded pl s0.disk f = false) →
        s1.m_queue = rs ∧ s1.m_countryProgress = (0, ((c1.Size pl s0.disk).2 : Int))) := by
  obtain ⟨countries, version, queue, failed, indexing, progress, req, observers, slot, disk,
    log⟩ := s0
  simp only at hq
  subst hq
  cases rs with
  | nil =>
    refine ⟨_, changeCalls observers h [],
      loop_skip_last pl _ h c hc hall, ?_, ?_, List.suffix_refl _, rfl, rfl, rfl, rfl, ?_⟩
    · simp [NotifyStatusChanged, UpdateAfterSearchIndex, emit, changeCalls]
    · intro e he
      simp only [changeCalls, List.mem_map] at he
      obtain ⟨o, _, rfl⟩ := he
      exact ⟨List.suffix_refl _, by simp⟩
    · intro r1 rest c1 heq; exact absurd heq (by simp)
  | cons r1 rest =>
    obtain ⟨n, hn⟩ := hres r1 (List.mem_cons_self _ _)
    have hstep := loop_skip_cons pl
      { UpdateAfterSearchIndex pl ⟨countries, version, h :: r1 :: rest, failed, indexing,
          progress, req, observers, slot, disk, log⟩ h fName with m_request := none }
      h r1 rest c n hc hall hn
    obtain ⟨s1, tail, hrun, hsuf, hf, hi, hd, hcs, _, hlog, htail⟩ := loop_frame pl (r1 :: rest)
      (NotifyStatusChanged
        { ({ UpdateAfterSearchIndex pl ⟨countries, version, h :: r1 :: rest, failed, indexing,
              progress, req, observers, slot, disk, log⟩ h fName with m_request := none } :
            Storage) with
          m_queue := r1 :: rest, m_countryProgress := (0, ((n.Size pl disk).2 : Int)) } h)
      hres
    refine ⟨s1, changeCalls observers h (r1 :: rest) ++ tail, hstep.trans hrun, ?_, ?_, hsuf,
      hf, hi, hd, hcs, ?_⟩
    · rw [hlog]
      simp [NotifyStatusChanged, UpdateAfterSearchIndex, emit, changeCalls]
    · intro e he
      rcases List.mem_append.1 he with he | he
      · simp only [changeCalls, List.mem_map] at he
        obtain ⟨o, _, rfl⟩ := he
        exact ⟨List.suffix_refl _, by simp⟩
      · exact htail e he
    · intro r1' rest' c1 heq hc1 hmiss
      cases heq
      have hcn : c1 = n := Option.some.inj (hc1.symm.trans hn)
      subst hcn
      obtain ⟨it, hfind⟩ := exists_first_missing pl disk _ hmiss
      have hstop := loop_stop pl
        (NotifyStatusChanged
          { ({ UpdateAfterSearchIndex pl ⟨countries, version, h :: r1 :: rest, failed, indexing,
                progress, req, observers, slot, disk, log⟩ h fName with m_request := none } :
              Storage) with
            m_queue := r1 :: rest, m_countryProgress := (0, ((c1.Size pl disk).2 : Int)) } h)
        r1 rest c1 it hc1 hfind
      have hs1 := Option.some.inj (hrun.symm.trans hstop)
      rw [hs1]
      exact ⟨rfl, rfl⟩

/-! ## Lemmas about `DeleteCountry` -/

theorem DeactivateMap_eq (pl : Platform) (files : List CountryFile) :
    ∀ s : Storage, DeactivateMap pl s files =
      { s with log := s.log ++ removeCalls pl files s.m_queue } := by
  induction files with
  | nil => intro s; simp [DeactivateMap, removeCalls]
  | cons file files ih =>
    intro s
    have hstep : DeactivateMap pl s (file :: files) =
        DeactivateMap pl (emit s (Effect.removeMap (file.GetFileWithExt pl))) files := rfl
    rw [hstep, ih]
    simp [emit, removeCalls]

theorem DeleteMap_eq (pl : Platform) (files : List CountryFile) :
    ∀ s : Storage, DeleteMap pl s files =
      { s with disk := (DeleteMap pl s files).disk,
               log := s.log ++ deleteCalls pl files s.m_queue } := by
  induction files with
  | nil => intro s; simp [DeleteMap, deleteCalls]
  | cons file files ih =>
    intro s
    have hstep : DeleteMap pl s (file :: files) =
        DeleteMap pl
          (DeleteFileX
            (DeleteFileX
              (DeleteFileX s (pl.WritableDir ++ file.m_fileName ++ DOWNLOADING_FILE_EXTENSION))
              (pl.WritableDir ++ file.m_fileName ++ RESUME_FILE_EXTENSION))
            (pl.WritableDir ++ file.GetFileWithExt pl)) files := rfl
    rw [hstep, ih]
    simp [DeleteFileX, emit, deleteCalls]

/-- Deactivation and deletion touch only the disk and the log. -/
theorem DeactivateAndDeleteCountry_eq (pl : Platform) (s : Storage) (country : Country) :
    DeactivateAndDeleteCountry pl s country =
      { s with disk := (DeactivateAndDeleteCountry pl s country).disk,
               log := s.log ++ removeCalls pl country.m_files s.m_queue ++
                 deleteCalls pl country.m_files s.m_queue } := by
  unfold DeactivateAndDeleteCountry
  rw [DeleteMap_eq, DeactivateMap_eq]

/-- The position found for a key whose first occurrence follows `pre`. -/
theorem found_of_split (pre post : List TIndex) (key : TIndex) (hpre : key ∉ pre) :
    (pre ++ key :: post).indexOf key = pre.length := by
  rw [List.indexOf_append_of_not_mem hpre, List.indexOf_cons_self]
  rfl

theorem eraseIdx_of_split (pre post : List TIndex) (key : TIndex) :
    (pre ++ key :: post).eraseIdx pre.length = pre ++ post := by
  rw [List.eraseIdx_append_of_length_le (Nat.le_refl _)]
  simp

/-- Deleting a queued key that is not at the head. -/
theorem DeleteCountry_interior (pl : Platform) (s : Storage) (key : TIndex) (c : Country)
    (pre post : List TIndex)
    (hq : s.m_queue = pre ++ key :: post) (hpre : key ∉ pre) (hne : pre ≠ [])
    (hc : CountryByIndex s key = some c) :
    DeleteCountry pl s key = some (NotifyStatusChanged
      (DeactivateAndDeleteCountry pl { s with m_queue := pre ++ post } c) key) := by
  have hfound : s.m_queue.indexOf key = pre.length := by
    rw [hq]; exact found_of_split pre post key hpre
  have hlen : pre.length ≠ s.m_queue.length := by
    rw [hq]; simp
  have h0 : pre.length ≠ 0 := fun h => hne (List.length_eq_zero.1 h)
  have herase : s.m_queue.eraseIdx pre.length = pre ++ post := by
    rw [hq]; exact eraseIdx_of_split pre post key
  unfold DeleteCountry
  simp only [hc, hfound, hlen, h0, herase, ne_eq, not_false_eq_true, if_true, if_false,
    not_true_eq_false]

/-- Deleting the head of the queue when the next key has a file missing. -/
theorem DeleteCountry_head (pl : Platform) (s : Storage) (a b : TIndex) (rest : List TIndex)
    (ca cb : Country) (it : CountryFile)
    (hq : s.m_queue = a :: b :: rest)
    (hca : CountryByIndex s a = some ca) (hcb : CountryByIndex s b = some cb)
    (hfind : cb.m_files.find? (fun f => !IsFileDownloaded pl s.disk f) = some it) :
    DeleteCountry pl s a = some (NotifyStatusChanged
      (DeactivateAndDeleteCountry pl
        (NotifyStatusChanged
          (emit { s with m_request := some (PendingRequest.PostJson pl.MetaServerUrl it.m_fileName), m_queue := b :: rest, m_countryProgress := (0, ((cb.Size pl s.disk).2 : Int)) }
            (Effect.PostJson pl.MetaServerUrl it.m_fileName)) b)
        ca) a) := by
  have hfound : s.m_queue.indexOf a = 0 := by rw [hq]; exact List.indexOf_cons_self _ _
  have hlen : (0 : Nat) ≠ s.m_queue.length := by rw [hq]; simp
  have herase : s.m_queue.eraseIdx 0 = b :: rest := by rw [hq]; rfl
  have hcb1 : CountryByIndex { s with m_request := none, m_queue := b :: rest } b = some cb := hcb
  have hloop := loop_stop pl
    { s with m_request := none, m_queue := b :: rest, m_countryProgress := (0, ((cb.Size pl s.disk).2 : Int)) }
    b rest cb it hcb hfind
  unfold DeleteCountry
  simp only [hca, hfound, hlen, herase, ne_eq, not_false_eq_true, if_true, hcb1,
    Option.map_some', DownloadNextCountryFromQueue, hloop, not_true_eq_false, if_false]

/-! ## Lemmas about the calls recorded in the log -/

theorem changeSlotsFor_append (key : TIndex) (l1 l2 : List Event) :
    changeSlotsFor key (l1 ++ l2) = changeSlotsFor key l1 ++ changeSlotsFor key l2 := by
  unfold changeSlotsFor
  rw [List.filterMap_append]

theorem changeSlotsFor_changeCalls_self (observers : List CountryObservers) (key : TIndex)
    (queue : List TIndex) :
    changeSlotsFor key (changeCalls observers key queue) =
      observers.map CountryObservers.m_slotId := by
  induction observers with
  | nil => rfl
  | cons o rest ih =>
    have : changeSlotsFor key (changeCalls (o :: rest) key queue) =
        o.m_slotId :: changeSlotsFor key (changeCalls rest key queue) := by
      simp [changeSlotsFor, changeCalls]
    rw [this, ih]
    rfl

/-- Events none of which is a status-change call for `key`. -/
theorem changeSlotsFor_none (key : TIndex) (l : List Event)
    (h : ∀ e ∈ l, ∀ slotId, e.effect ≠ Effect.changeCountryFn slotId key) :
    changeSlotsFor key l = [] := by
  unfold changeSlotsFor
  rw [List.filterMap_eq_nil_iff]
  intro e he
  have := h e he
  split
  · rename_i slotId index heq
    by_cases hk : index = key
    · subst hk; exact absurd heq (this slotId)
    · rw [if_neg hk]
  · rfl

theorem removeCalls_effect (pl : Platform) (files : List CountryFile) (queue : List TIndex) :
    ∀ e ∈ removeCalls pl files queue, ∃ f, e.effect = Effect.removeMap f := by
  intro e he
  simp only [removeCalls, List.mem_map] at he
  obtain ⟨f, _, rfl⟩ := he
  exact ⟨_, rfl⟩

theorem deleteCalls_effect (pl : Platform) (files : List CountryFile) (queue : List TIndex) :
    ∀ e ∈ deleteCalls pl files queue, ∃ path, e.effect = Effect.DeleteFileX path := by
  induction files with
  | nil => intro e he; simp [deleteCalls] at he
  | cons f rest ih =>
    intro e he
    simp only [deleteCalls, List.mem_cons] at he
    rcases he with rfl | rfl | rfl | he
    · exact ⟨_, rfl⟩
    · exact ⟨_, rfl⟩
    · exact ⟨_, rfl⟩
    · exact ih e he

/-- One iteration of the queue loop that pops a head whose files are all on
disk. -/
theorem loop_skip (pl : Platform) (s : Storage) (index : TIndex) (rest : List TIndex)
    (c : Country)
    (hc : CountryByIndex s index = some c)
    (hall : c.m_files.all (IsFileDownloaded pl s.disk) = true)
    (hfront : ∀ front more, rest = front :: more → ∃ n, CountryByIndex s front = some n) :
    ∃ progress, DownloadNextCountryFromQueue.loop pl (index :: rest) s =
      DownloadNextCountryFromQueue.loop pl rest
        (NotifyStatusChanged { s with m_queue := rest, m_countryProgress := progress } index) := by
  rw [DownloadNextCountryFromQueue.loop]
  simp only [hc, find_none_missing pl s.disk _ hall]
  cases rest with
  | nil => exact ⟨s.m_countryProgress, rfl⟩
  | cons front more =>
    obtain ⟨n, hn⟩ := hfront front more rfl
    have : CountryByIndex { s with m_queue := front :: more } front = some n := hn
    simp only [this, Option.map_some']
    exact ⟨_, rfl⟩

/-- The calls made by the queue loop, for a queue whose keys all resolve: each
is a server-list request or a status-change call for a key of the queue; the
observers, the failed set and the indexing set are untouched. -/
theorem loop_calls (pl : Platform) (q : List TIndex) :
    ∀ s : Storage, (∀ k ∈ q, ∃ c, CountryByIndex s k = some c) →
      ∃ s1 tail, DownloadNextCountryFromQueue.loop pl q s = some s1 ∧
        s1.log = s.log ++ tail ∧
        s1.m_observers = s.m_observers ∧
        s1.m_queue <:+ q ∧
        s1.m_failedCountries = s.m_failedCountries ∧
        s1.m_indexGeneration = s.m_indexGeneration ∧
        ∀ e ∈ tail, (∃ url body, e.effect = Effect.PostJson url body) ∨
          ∃ slotId k, k ∈ q ∧ e.effect = Effect.changeCountryFn slotId k := by
  induction q with
  | nil =>
    intro s _
    exact ⟨{ s with m_queue := [] }, [], by rw [DownloadNextCountryFromQueue.loop],
      by simp, rfl, List.suffix_refl _, rfl, rfl, by simp⟩
  | cons index rest ih =>
    intro s hres
    obtain ⟨c, hc⟩ := hres index (List.mem_cons_self _ _)
    cases hfind : c.m_files.find? (fun f => !IsFileDownloaded pl s.disk f) with
    | some it =>
      refine ⟨_, [Event.mk (Effect.PostJson pl.MetaServerUrl it.m_fileName) (index :: rest)] ++
          changeCalls s.m_observers index (index :: rest),
        loop_stop pl s index rest c it hc hfind, ?_, rfl, List.suffix_refl _, rfl, rfl, ?_⟩
      · simp [NotifyStatusChanged, emit, changeCalls]
      · intro e he
        simp only [changeCalls, List.singleton_append, List.mem_cons, List.mem_map] at he
        rcases he with rfl | ⟨o, _, rfl⟩
        · exact Or.inl ⟨_, _, rfl⟩
        · exact Or.inr ⟨_, index, List.mem_cons_self _ _, rfl⟩
    | none =>
      have hall : c.m_files.all (IsFileDownloaded pl s.disk) = true := by
        rw [List.all_eq_true]
        intro f hf
        have := (List.find?_eq_none.1 hfind) f hf
        simpa using this
      obtain ⟨progress, hstep⟩ := loop_skip pl s index rest c hc hall
        (fun front more heq => hres front (by rw [heq]; simp))
      obtain ⟨s1, tail, hrun, hlog, ho, hsuf, hf, hi, htail⟩ := ih
        (NotifyStatusChanged { s with m_queue := rest, m_countryProgress := progress } index)
        (fun k hk => hres k (List.mem_cons_of_mem _ hk))
      refine ⟨s1, changeCalls s.m_observers index rest ++ tail, hstep.trans hrun, ?_, ho,
        hsuf.trans (List.suffix_cons _ _), hf, hi, ?_⟩
      · rw [hlog]; simp [NotifyStatusChanged, changeCalls]
      · intro e he
        rcases List.mem_append.1 he with he | he
        · simp only [changeCalls, List.mem_map] at he
          obtain ⟨o, _, rfl⟩ := he
          exact Or.inr ⟨_, index, List.mem_cons_self _ _, rfl⟩
        · rcases htail e he with hp | ⟨slotId, k, hk, hke⟩
          · exact Or.inl hp
          · exact Or.inr ⟨slotId, k, List.mem_cons_of_mem _ hk, hke⟩

/-- The queue loop makes no status-change call for a key that is not in the
queue it is given. -/
theorem loop_calls_other (pl : Platform) (q : List TIndex) (s : Storage) (key : TIndex)
    (hres : ∀ k ∈ q, ∃ c, CountryByIndex s k = some c) (hkey : key ∉ q) :
    ∃ s1 tail, DownloadNextCountryFromQueue.loop pl q s = some s1 ∧
      s1.log = s.log ++ tail ∧
      s1.m_observers = s.m_observers ∧
      s1.m_queue <:+ q ∧
      s1.m_failedCountries = s.m_failedCountries ∧
      s1.m_indexGeneration = s.m_indexGeneration ∧
      (∀ e ∈ tail, (∃ url body, e.effect = Effect.PostJson url body) ∨
        ∃ slotId k, k ≠ key ∧ e.effect = Effect.changeCountryFn slotId k) ∧
      changeSlotsFor key tail = [] := by
  obtain ⟨s1, tail, hrun, hlog, ho, hsuf, hf, hi, htail⟩ := loop_calls pl q s hres
  have hother : ∀ e ∈ tail, (∃ url body, e.effect = Effect.PostJson url body) ∨
      ∃ slotId k, k ≠ key ∧ e.effect = Effect.changeCountryFn slotId k := by
    intro e he
    rcases htail e he with hp | ⟨slotId, k, hk, hke⟩
    · exact Or.inl hp
    · exact Or.inr ⟨slotId, k, fun h => hkey (h ▸ hk), hke⟩
  refine ⟨s1, tail, hrun, hlog, ho, hsuf, hf, hi, hother, ?_⟩
  apply changeSlotsFor_none
  intro e he slotId heq
  rcases hother e he with ⟨url, body, hp⟩ | ⟨sl, k, hk, hke⟩
  · rw [hp] at heq; exact absurd heq (by simp)
  · rw [hke] at heq
    injection heq with _ h2
    exact hk h2

/-- Deleting a key that is not queued. -/
theorem DeleteCountry_not_queued (pl : Platform) (s : Storage) (key : TIndex) (c : Country)
    (hq : key ∉ s.m_queue) (hc : CountryByIndex s key = some c) :
    DeleteCountry pl s key =
      some (if c.m_bounds ≠ RectD.GetEmptyRect then
          emit (NotifyStatusChanged (DeactivateAndDeleteCountry pl s c) key)
            (Effect.updateRect c.m_bounds)
        else NotifyStatusChanged (DeactivateAndDeleteCountry pl s c) key) := by
  have hfound : ¬ (s.m_queue.indexOf key ≠ s.m_queue.length) := by
    rw [found_ne_end_iff]; exact hq
  unfold DeleteCountry
  simp only [hc, hfound, if_false]
  split_ifs <;> rfl

/-- Deleting the head of the queue: the request is dropped, the head erased,
the progress pair reset for the new head if there is one, the queue loop run,
and then the country is deactivated, deleted and notified. -/
theorem DeleteCountry_head_run (pl : Platform) (s : Storage) (key : TIndex)
    (rest : List TIndex) (c : Country)
    (hq : s.m_queue = key :: rest) (hc : CountryByIndex s key = some c)
    (hfront : ∀ front more, rest = front :: more → ∃ n, CountryByIndex s front = some n) :
    ∃ progress, DeleteCountry pl s key =
      (DownloadNextCountryFromQueue.loop pl rest
        { s with m_request := none, m_queue := rest, m_countryProgress := progress }).map
        (fun s3 => NotifyStatusChanged (DeactivateAndDeleteCountry pl s3 c) key) := by
  have hfound : s.m_queue.indexOf key = 0 := by rw [hq]; exact List.indexOf_cons_self _ _
  have hlen : (0 : Nat) ≠ s.m_queue.length := by rw [hq]; simp
  have herase : s.m_queue.eraseIdx 0 = rest := by rw [hq]; rfl
  unfold DeleteCountry
  simp only [hc, hfound, hlen, herase, ne_eq, not_false_eq_true, if_true,
    DownloadNextCountryFromQueue]
  cases rest with
  | nil =>
    refine ⟨s.m_countryProgress, ?_⟩
    simp only [DownloadNextCountryFromQueue.loop, Option.map_some', not_true_eq_false, if_false]
  | cons front more =>
    obtain ⟨n, hn⟩ := hfront front more rfl
    have hn1 : CountryByIndex { s with m_request := none, m_queue := front :: more } front
        = some n := hn
    refine ⟨(0, ((n.Size pl s.disk).2 : Int)), ?_⟩
    simp only [hn1, Option.map_some']
    cases DownloadNextCountryFromQueue.loop pl (front :: more)
        { s with m_request := none, m_queue := front :: more, m_countryProgress := (0, ((n.Size pl s.disk).2 : Int)) } with
    | none => rfl
    | some s3 => simp

/-- The calls made by `DeleteCountry` in every case, for a duplicate-free
queue whose keys resolve: first the calls of the queue loop (none when the key
was not at the head), none of them for the key; then one deactivation per file
in file order; then the three deletions per file; then one status-change call
per observer; then at most a bounds update.  The failed set and the indexing
set are untouched. -/
theorem DeleteCountry_calls (pl : Platform) (s : Storage) (key : TIndex) (c : Country)
    (hc : CountryByIndex s key = some c)
    (hnodup : s.m_queue.Nodup)
    (hres : ∀ k ∈ s.m_queue, ∃ n, CountryByIndex s k = some n) :
    ∃ s1 before after, DeleteCountry pl s key = some s1 ∧
      s1.log = s.log ++ before ++ removeCalls pl c.m_files s1.m_queue ++
        deleteCalls pl c.m_files s1.m_queue ++ changeCalls s.m_observers key s1.m_queue ++
        after ∧
      (∀ e ∈ before, (∃ url body, e.effect = Effect.PostJson url body) ∨
        ∃ slotId k, k ≠ key ∧ e.effect = Effect.changeCountryFn slotId k) ∧
      (∀ e ∈ after, ∃ r, e.effect = Effect.updateRect r) ∧
      s1.m_failedCountries = s.m_failedCountries ∧
      s1.m_indexGeneration = s.m_indexGeneration ∧
      s1.m_observers = s.m_observers ∧
      key ∉ s1.m_queue ∧
      (key ∉ s.m_queue → before = [] ∧ s1.m_queue = s.m_queue ∧
        s1.m_countryProgress = s.m_countryProgress ∧ s1.m_request = s.m_request ∧
        after = if c.m_bounds ≠ RectD.GetEmptyRect
          then [Event.mk (Effect.updateRect c.m_bounds) s.m_queue] else []) ∧
      (key ∈ s.m_queue → after = []) := by
  by_cases hmem : key ∈ s.m_queue
  · obtain ⟨pre, post, hq, hpre⟩ := List.eq_append_cons_of_mem hmem
    have hpost : key ∉ post := by
      rw [hq] at hnodup
      have := (List.nodup_append.1 hnodup).2.1
      exact (List.nodup_cons.1 this).1
    cases pre with
    | nil =>
      rw [List.nil_append] at hq
      obtain ⟨progress, hrun⟩ := DeleteCountry_head_run pl s key post c hq hc
        (fun front more heq => hres front (by rw [hq, heq]; simp))
      obtain ⟨s3, tail, hloop, hlog, ho, hsuf, hf, hi, htail, _⟩ := loop_calls_other pl post
        { s with m_request := none, m_queue := post, m_countryProgress := progress } key
        (fun k hk => hres k (by rw [hq]; exact List.mem_cons_of_mem _ hk)) hpost
      rw [hloop, Option.map_some'] at hrun
      refine ⟨_, tail, [], hrun, ?_, htail, by simp, ?_, ?_, ?_, ?_, ?_, fun _ => rfl⟩
      · rw [DeactivateAndDeleteCountry_eq]
        simp only [NotifyStatusChanged, hlog, ho, changeCalls]
        simp
      · rw [DeactivateAndDeleteCountry_eq]; exact hf
      · rw [DeactivateAndDeleteCountry_eq]; exact hi
      · rw [DeactivateAndDeleteCountry_eq]; exact ho
      · rw [DeactivateAndDeleteCountry_eq]
        exact fun h => hpost (hsuf.subset h)
      · intro h; exact absurd hmem h
    | cons x xs =>
      have hrun := DeleteCountry_interior pl s key c (x :: xs) post hq hpre (by simp) hc
      refine ⟨_, [], [], hrun, ?_, by simp, by simp, ?_, ?_, ?_, ?_, ?_, fun _ => rfl⟩
      · rw [DeactivateAndDeleteCountry_eq]
        simp [NotifyStatusChanged, changeCalls]
      · rw [DeactivateAndDeleteCountry_eq]; rfl
      · rw [DeactivateAndDeleteCountry_eq]; rfl
      · rw [DeactivateAndDeleteCountry_eq]; rfl
      · rw [DeactivateAndDeleteCountry_eq]
        intro h
        rcases List.mem_append.1 h with h | h
        · exact hpre h
        · exact hpost h
      · intro h; exact absurd hmem h
  · have hrun := DeleteCountry_not_queued pl s key c hmem hc
    by_cases hb : c.m_bounds ≠ RectD.GetEmptyRect
    · rw [if_pos hb] at hrun
      refine ⟨_, [], [Event.mk (Effect.updateRect c.m_bounds) s.m_queue], hrun, ?_, by simp,
        ?_, ?_, ?_, ?_, ?_, ?_, fun h => absurd h hmem⟩
      · simp only [emit, NotifyStatusChanged]
        rw [DeactivateAndDeleteCountry_eq]
        simp [changeCalls]
      · intro e he
        rw [List.mem_singleton] at he
        exact ⟨_, by rw [he]⟩
      · simp only [emit, NotifyStatusChanged]; rw [DeactivateAndDeleteCountry_eq]
      · simp only [emit, NotifyStatusChanged]; rw [DeactivateAndDeleteCountry_eq]
      · simp only [emit, NotifyStatusChanged]; rw [DeactivateAndDeleteCountry_eq]
      · simp only [emit, NotifyStatusChanged]; rw [DeactivateAndDeleteCountry_eq]; exact hmem
      · intro _
        refine ⟨rfl, ?_, ?_, ?_, by rw [if_pos hb]⟩
        · simp only [emit, NotifyStatusChanged]; rw [DeactivateAndDeleteCountry_eq]
        · simp only [emit, NotifyStatusChanged]; rw [DeactivateAndDeleteCountry_eq]
        · simp only [emit, NotifyStatusChanged]; rw [DeactivateAndDeleteCountry_eq]
    · rw [if_neg hb] at hrun
      refine ⟨_, [], [], hrun, ?_, by simp, by simp, ?_, ?_, ?_, ?_, ?_,
        fun h => absurd h hmem⟩
      · simp only [NotifyStatusChanged]
        rw [DeactivateAndDeleteCountry_eq]
        simp [changeCalls]
      · simp only [NotifyStatusChanged]; rw [DeactivateAndDeleteCountry_eq]
      · simp only [NotifyStatusChanged]; rw [DeactivateAndDeleteCountry_eq]
      · simp only [NotifyStatusChanged]; rw [DeactivateAndDeleteCountry_eq]
      · simp only [NotifyStatusChanged]; rw [DeactivateAndDeleteCountry_eq]; exact hmem
      · intro _
        refine ⟨rfl, ?_, ?_, ?_, by rw [if_neg hb]⟩
        · simp only [NotifyStatusChanged]; rw [DeactivateAndDeleteCountry_eq]
        · simp only [NotifyStatusChanged]; rw [DeactivateAndDeleteCountry_eq]
        · simp only [NotifyStatusChanged]; rw [DeactivateAndDeleteCountry_eq]

/-- The queue loop makes exactly one status-change call per observer for the
head of the queue it is given, whether it stops there or pops it. -/
theorem loop_head_calls (pl : Platform) (s : Storage) (k : TIndex) (rest : List TIndex)
    (hnot : k ∉ rest)
    (hres : ∀ x ∈ k :: rest, ∃ c, CountryByIndex s x = some c) :
    ∃ s1 tail, DownloadNextCountryFromQueue.loop pl (k :: rest) s = some s1 ∧
      s1.log = s.log ++ tail ∧
      changeSlotsFor k tail = s.m_observers.map CountryObservers.m_slotId := by
  obtain ⟨c, hc⟩ := hres k (List.mem_cons_self _ _)
  cases hfind : c.m_files.find? (fun f => !IsFileDownloaded pl s.disk f) with
  | some it =>
    refine ⟨_, [Event.mk (Effect.PostJson pl.MetaServerUrl it.m_fileName) (k :: rest)] ++
        changeCalls s.m_observers k (k :: rest), loop_stop pl s k rest c it hc hfind, ?_, ?_⟩
    · simp [NotifyStatusChanged, emit, changeCalls]
    · rw [changeSlotsFor_append, changeSlotsFor_changeCalls_self]
      rfl
  | none =>
    have hall : c.m_files.all (IsFileDownloaded pl s.disk) = true := by
      rw [List.all_eq_true]
      intro f hf
      have := (List.find?_eq_none.1 hfind) f hf
      simpa using this
    obtain ⟨progress, hstep⟩ := loop_skip pl s k rest c hc hall
      (fun front more heq => hres front (by rw [heq]; simp))
    obtain ⟨s1, tail, hrun, hlog, _, _, _, _, _, hnone⟩ := loop_calls_other pl rest
      (NotifyStatusChanged { s with m_queue := rest, m_countryProgress := progress } k) k
      (fun x hx => hres x (List.mem_cons_of_mem _ hx)) hnot
    refine ⟨s1, changeCalls s.m_observers k rest ++ tail, hstep.trans hrun, ?_, ?_⟩
    · rw [hlog]; simp [NotifyStatusChanged, changeCalls]
    · rw [changeSlotsFor_append, changeSlotsFor_changeCalls_self, hnone, List.append_nil]

/-- Activation of the head followed by the queue loop makes two status-change
calls per observer for the head: one on activation, one from the loop. -/
theorem activate_then_advance_calls (pl : Platform) (s0 : Storage) (h : TIndex)
    (rs : List TIndex) (fName : String)
    (hq : s0.m_queue = h :: rs) (hnot : h ∉ rs)
    (hres : ∀ k ∈ h :: rs, ∃ n, CountryByIndex s0 k = some n) :
    ∃ s1 new, DownloadNextCountryFromQueue pl
        { UpdateAfterSearchIndex pl s0 h fName with m_request := none } = some s1 ∧
      s1.log = s0.log ++ new ∧
      changeSlotsFor h new = s0.m_observers.map CountryObservers.m_slotId ++
        s0.m_observers.map CountryObservers.m_slotId := by
  obtain ⟨countries, version, queue, failed, indexing, progress, req, observers, slot, disk,
    log⟩ := s0
  simp only at hq
  subst hq
  obtain ⟨s1, tail, hrun, hlog, hcount⟩ := loop_head_calls pl
    { UpdateAfterSearchIndex pl ⟨countries, version, h :: rs, failed, indexing, progress, req,
        observers, slot, disk, log⟩ h fName with m_request := none } h rs hnot hres
  refine ⟨s1, changeCalls observers h (h :: rs) ++
      [Event.mk (Effect.addMap fName) (h :: rs),
       Event.mk (Effect.updateRect (pl.LoadMapHeaderBounds fName)) (h :: rs)] ++ tail,
    hrun, ?_, ?_⟩
  · rw [hlog]
    simp [NotifyStatusChanged, UpdateAfterSearchIndex, emit, changeCalls]
  · rw [changeSlotsFor_append, changeSlotsFor_append, changeSlotsFor_changeCalls_self, hcount]
    have : changeSlotsFor h [Event.mk (Effect.addMap fName) (h :: rs),
        Event.mk (Effect.updateRect (pl.LoadMapHeaderBounds fName)) (h :: rs)] = [] := rfl
    rw [this, List.append_nil]
    rfl

/-- What `DownloadCountry` does to an empty queue: the key is taken out of the
failed set, becomes the queue, the progress pair is reset and the queue loop
is run. -/
theorem DownloadCountry_on_empty_run (pl : Platform) (s : Storage) (key : TIndex)
    (country : Country)
    (hq : s.m_queue = []) (hc : CountryByIndex s key = some country) :
    DownloadCountry pl s key = DownloadNextCountryFromQueue.loop pl [key]
      { s with m_failedCountries := s.m_failedCountries.erase key, m_queue := [key], m_countryProgress := (0, ((country.Size pl s.disk).2 : Int)) } := by
  unfold DownloadCountry
  simp only [hq, List.indexOf_nil, List.length_nil, ne_eq, not_true_eq_false, if_false,
    List.nil_append, List.length_singleton, if_true]
  have hc1 : CountryByIndex { s with m_failedCountries := s.m_failedCountries.erase key, m_queue := [key] } key = some country := hc
  simp only [hc1, DownloadNextCountryFromQueue]

/-! ## Lemmas about what leaves the observer list alone -/

theorem loop_observers (pl : Platform) (q : List TIndex) :
    ∀ s s1 : Storage, DownloadNextCountryFromQueue.loop pl q s = some s1 → SameObservers s s1 := by
  induction q with
  | nil =>
    intro s s1 h
    rw [DownloadNextCountryFromQueue.loop] at h
    cases Option.some.inj h
    exact ⟨rfl, rfl⟩
  | cons index rest ih =>
    intro s s1 h
    rw [DownloadNextCountryFromQueue.loop] at h
    cases hc : CountryByIndex s index with
    | none => rw [hc] at h; exact absurd h (by simp)
    | some c =>
      rw [hc] at h
      simp only at h
      cases hfind : c.m_files.find? (fun it => !IsFileDownloaded pl s.disk it) with
      | some it =>
        rw [hfind] at h
        cases Option.some.inj h
        exact ⟨rfl, rfl⟩
      | none =>
        rw [hfind] at h
        simp only at h
        cases rest with
        | nil =>
          simp only at h
          have := ih _ _ h
          exact ⟨this.1, this.2⟩
        | cons front more =>
          simp only at h
          cases hn : CountryByIndex { s with m_queue := front :: more } front with
          | none => rw [hn] at h; exact absurd h (by simp)
          | some n =>
            rw [hn] at h
            simp only [Option.map_some'] at h
            have := ih _ _ h
            exact ⟨this.1, this.2⟩

theorem DownloadNextCountryFromQueue_observers (pl : Platform) (s s1 : Storage)
    (h : DownloadNextCountryFromQueue pl s = some s1) : SameObservers s s1 :=
  loop_observers pl _ _ _ h

theorem DownloadCountry_observers (pl : Platform) (s s1 : Storage) (key : TIndex)
    (h : DownloadCountry pl s key = some s1) : SameObservers s s1 := by
  unfold DownloadCountry at h
  simp only at h
  split_ifs at h with h1 h2
  · cases Option.some.inj h; exact ⟨rfl, rfl⟩
  · split at h
    · exact absurd h (by simp)
    · have := DownloadNextCountryFromQueue_observers pl _ _ h
      exact ⟨this.1, this.2⟩
  · cases Option.some.inj h; exact ⟨rfl, rfl⟩

theorem OnMapDownloadFinished_observers (pl : Platform) (s s1 : Storage)
    (request : HttpRequest)
    (h : OnMapDownloadFinished pl s request = some s1) : SameObservers s s1 := by
  unfold OnMapDownloadFinished at h
  split at h
  · cases Option.some.inj h; exact ⟨rfl, rfl⟩
  · simp only at h
    split at h
    · exact absurd h (by simp)
    · rename_i s2 heq
      have h2 := DownloadNextCountryFromQueue_observers pl _ _ h
      have h3 : s2.m_observers = s.m_observers ∧ s2.m_currentSlotId = s.m_currentSlotId := by
        split_ifs at heq with hf
        · cases Option.some.inj heq; exact ⟨rfl, rfl⟩
        · split at heq
          · exact absurd heq (by simp)
          · cases Option.some.inj heq
            split_ifs
            · exact ⟨rfl, rfl⟩
            · exact ⟨rfl, rfl⟩
      exact ⟨h2.1.trans h3.1, h2.2.trans h3.2⟩

theorem DeleteCountry_observers (pl : Platform) (s s1 : Storage) (key : TIndex)
    (h : DeleteCountry pl s key = some s1) : SameObservers s s1 := by
  unfold DeleteCountry at h
  split at h
  · exact absurd h (by simp)
  · rename_i c hc
    simp only at h
    split at h
    · exact absurd h (by simp)
    · rename_i s4 bounds hr
      have h4 : s4.m_observers = s.m_observers ∧ s4.m_currentSlotId = s.m_currentSlotId := by
        split_ifs at hr with h1 h2
        · split at hr
          · exact absurd hr (by simp)
          · rename_i s2 hs2
            cases hl : DownloadNextCountryFromQueue pl s2 with
            | none => rw [hl] at hr; exact absurd hr (by simp)
            | some s3 =>
              rw [hl] at hr
              simp only [Option.map_some', Option.some.injEq, Prod.mk.injEq] at hr
              obtain ⟨rfl, _⟩ := hr
              have h3 := DownloadNextCountryFromQueue_observers pl _ _ hl
              have h2' : s2.m_observers = s.m_observers ∧
                  s2.m_currentSlotId = s.m_currentSlotId := by
                split at hs2
                · cases Option.some.inj hs2; exact ⟨rfl, rfl⟩
                · rw [Option.map_eq_some'] at hs2
                  obtain ⟨n, _, hn⟩ := hs2
                  rw [← hn]
                  exact ⟨rfl, rfl⟩
              exact ⟨h3.1.trans h2'.1, h3.2.trans h2'.2⟩
        · simp only [Option.some.injEq, Prod.mk.injEq] at hr
          obtain ⟨rfl, _⟩ := hr
          exact ⟨rfl, rfl⟩
        · simp only [Option.some.injEq, Prod.mk.injEq] at hr
          obtain ⟨rfl, _⟩ := hr
          exact ⟨rfl, rfl⟩
      have h5 : (NotifyStatusChanged (DeactivateAndDeleteCountry pl s4 c) key).m_observers =
            s4.m_observers ∧
          (NotifyStatusChanged (DeactivateAndDeleteCountry pl s4 c) key).m_currentSlotId =
            s4.m_currentSlotId := by
        rw [DeactivateAndDeleteCountry_eq]
        exact ⟨rfl, rfl⟩
      split_ifs at h
      · cases Option.some.inj h
        exact ⟨h5.1.trans h4.1, h5.2.trans h4.2⟩
      · cases Option.some.inj h
        exact ⟨h5.1.trans h4.1, h5.2.trans h4.2⟩

theorem OnServerListDownloaded_observers (pl : Platform) (s s1 : Storage)
    (request : HttpRequest)
    (h : OnServerListDownloaded pl s request = some s1) : SameObservers s s1 := by
  unfold OnServerListDownloaded at h
  split at h
  · cases Option.some.inj h; exact ⟨rfl, rfl⟩
  · split at h
    · exact absurd h (by simp)
    · split at h
      · exact absurd h (by simp)
      · cases Option.some.inj h; exact ⟨rfl, rfl⟩

theorem OnMapDownloadProgress_observers (s : Storage) (request : HttpRequest) :
    SameObservers s (OnMapDownloadProgress s request) := by
  unfold OnMapDownloadProgress
  split
  · exact ⟨rfl, rfl⟩
  · split_ifs
    · exact ⟨rfl, rfl⟩
    · exact ⟨rfl, rfl⟩

theorem Unsubscribe_loop_sublist (slotId : Int) (l : List CountryObservers) :
    (Unsubscribe.loop slotId l).Sublist l := by
  induction l with
  | nil => exact List.Sublist.refl _
  | cons it rest ih =>
    rw [Unsubscribe.loop]
    split_ifs
    · exact List.sublist_cons_self _ _
    · exact ih.cons₂ _

/-- Every step other than `Subscribe` and `Unsubscribe` leaves the observer
list and the slot counter alone. -/
theorem Call.apply_observers (pl : Platform) (s s1 : Storage) (call : Call)
    (h : call.apply pl s = some s1)
    (hsub : call ≠ Call.subscribe) (hunsub : ∀ slotId, call ≠ Call.unsubscribe slotId) :
    SameObservers s s1 := by
  cases call with
  | download index => exact DownloadCountry_observers pl s s1 index h
  | delete index => exact DeleteCountry_observers pl s s1 index h
  | subscribe => exact absurd rfl hsub
  | unsubscribe slotId => exact absurd rfl (hunsub slotId)
  | serverList request => exact OnServerListDownloaded_observers pl s s1 request h
  | progress request =>
    cases Option.some.inj h
    exact OnMapDownloadProgress_observers s request
  | finished request => exact OnMapDownloadFinished_observers pl s s1 request h
  | arrives path =>
    cases Option.some.inj h
    exact ⟨rfl, rfl⟩

/-- One step moves the slot counter by one if it is a `Subscribe` and not at
all otherwise, and keeps the registered slot ids distinct and below the
counter. -/
theorem Call.apply_slots (pl : Platform) (s s1 : Storage) (call : Call)
    (h : call.apply pl s = some s1) :
    s1.m_currentSlotId = s.m_currentSlotId + (subscribeCount [call] : Int) ∧
      (SlotsInOrder s → SlotsInOrder s1) := by
  by_cases hsub : call = Call.subscribe
  · subst hsub
    cases Option.some.inj h
    refine ⟨rfl, ?_⟩
    intro hinv
    constructor
    · simp only [Subscribe, List.map_append, List.map_cons, List.map_nil]
      rw [List.nodup_append]
      refine ⟨hinv.1, List.nodup_singleton _, ?_⟩
      intro a ha hb
      rw [List.mem_singleton] at hb
      obtain ⟨o, ho, hoa⟩ := List.mem_map.1 ha
      have := hinv.2 o ho
      omega
    · intro o ho
      simp only [Subscribe, List.mem_append, List.mem_singleton] at ho ⊢
      rcases ho with ho | rfl
      · have := hinv.2 o ho
        omega
      · exact le_refl _
  · have hcount : (subscribeCount [call] : Int) = 0 := by
      unfold subscribeCount
      rw [List.count_eq_zero_of_not_mem (by simpa using Ne.symm hsub)]
      rfl
    rw [hcount, add_zero]
    by_cases hunsub : ∃ slotId, call = Call.unsubscribe slotId
    · obtain ⟨slotId, rfl⟩ := hunsub
      cases Option.some.inj h
      refine ⟨rfl, ?_⟩
      intro hinv
      constructor
      · exact List.Nodup.sublist ((Unsubscribe_loop_sublist slotId _).map _) hinv.1
      · intro o ho
        exact hinv.2 o (Unsubscribe_loop_subset slotId _ o ho)
    · have hsame := Call.apply_observers pl s s1 call h hsub
        (fun slotId heq => hunsub ⟨slotId, heq⟩)
      refine ⟨hsame.2, ?_⟩
      intro hinv
      unfold SlotsInOrder
      rw [hsame.1, hsame.2]
      exact hinv

/-- A sequence of steps moves the slot counter by the number of `Subscribe`
calls in it and keeps the registered slot ids distinct and below the
counter. -/
theorem run_slots (pl : Platform) (calls : List Call) :
    ∀ s s1 : Storage, run pl s calls = some s1 →
      s1.m_currentSlotId = s.m_currentSlotId + (subscribeCount calls : Int) ∧
        (SlotsInOrder s → SlotsInOrder s1) := by
  induction calls with
  | nil =>
    intro s s1 h
    cases Option.some.inj h
    exact ⟨by simp [subscribeCount], fun hinv => hinv⟩
  | cons call rest ih =>
    intro s s1 h
    rw [run] at h
    cases hstep : call.apply pl s with
    | none => rw [hstep] at h; exact absurd h (by simp)
    | some s2 =>
      rw [hstep] at h
      simp only at h
      obtain ⟨h1, hi1⟩ := Call.apply_slots pl s s2 call hstep
      obtain ⟨h2, hi2⟩ := ih s2 s1 h
      refine ⟨?_, fun hinv => hi2 (hi1 hinv)⟩
      rw [h2, h1]
      have : (subscribeCount (call :: rest) : Int) =
          (subscribeCount [call] : Int) + (subscribeCount rest : Int) := by
        unfold subscribeCount
        rw [← Nat.cast_add, ← List.count_append]
        rfl
      rw [this, add_assoc]

theorem SlotsInOrder_initial (countries : CountriesContainerT) (version : Int)
    (disk : List String) : SlotsInOrder (Storage.initial countries version disk) := by
  constructor
  · exact List.nodup_nil
  · intro o ho
    exact absurd ho (List.not_mem_nil o)

/-! ## Lemmas about what each step leaves of the queue, the sets and the request -/

/-- What the queue loop leaves, whenever it returns: a suffix of the queue, the
failed set and the indexing set as they were, and either a non-empty queue
with a request outstanding or an empty queue with the request slot untouched. -/
theorem loop_some (pl : Platform) (q : List TIndex) :
    ∀ s s1 : Storage, DownloadNextCountryFromQueue.loop pl q s = some s1 →
      s1.m_queue <:+ q ∧
      s1.m_failedCountries = s.m_failedCountries ∧
      s1.m_indexGeneration = s.m_indexGeneration ∧
      ((s1.m_queue ≠ [] ∧ s1.m_request.isSome = true) ∨
        (s1.m_queue = [] ∧ s1.m_request = s.m_request)) := by
  induction q with
  | nil =>
    intro s s1 h
    rw [DownloadNextCountryFromQueue.loop] at h
    cases Option.some.inj h
    exact ⟨List.suffix_refl _, rfl, rfl, Or.inr ⟨rfl, rfl⟩⟩
  | cons index rest ih =>
    intro s s1 h
    rw [DownloadNextCountryFromQueue.loop] at h
    cases hc : CountryByIndex s index with
    | none => rw [hc] at h; exact absurd h (by simp)
    | some c =>
      rw [hc] at h
      simp only at h
      cases hfind : c.m_files.find? (fun it => !IsFileDownloaded pl s.disk it) with
      | some it =>
        rw [hfind] at h
        cases Option.some.inj h
        exact ⟨List.suffix_refl _, rfl, rfl, Or.inl ⟨by simp [NotifyStatusChanged, emit], rfl⟩⟩
      | none =>
        rw [hfind] at h
        simp only at h
        cases rest with
        | nil =>
          simp only at h
          have := ih _ _ h
          exact ⟨this.1.trans (List.suffix_cons _ _), this.2.1, this.2.2.1, this.2.2.2⟩
        | cons front more =>
          simp only at h
          cases hn : CountryByIndex { s with m_queue := front :: more } front with
          | none => rw [hn] at h; exact absurd h (by simp)
          | some n =>
            rw [hn] at h
            simp only [Option.map_some'] at h
            have := ih _ _ h
            exact ⟨this.1.trans (List.suffix_cons _ _), this.2.1, this.2.2.1, this.2.2.2⟩

theorem eraseIdx_ne_nil_of_pos (q : List TIndex) (n : Nat) (hn : n ≠ 0) (hq : q ≠ []) :
    q.eraseIdx n ≠ [] := by
  cases q with
  | nil => exact absurd rfl hq
  | cons a rest =>
    cases n with
    | zero => exact absurd rfl hn
    | succ m => simp

/-- What `DeleteCountry` leaves, whenever it returns. -/
theorem DeleteCountry_some (pl : Platform) (s s1 : Storage) (key : TIndex)
    (h : DeleteCountry pl s key = some s1) :
    s1.m_queue.Sublist s.m_queue ∧
      s1.m_failedCountries = s.m_failedCountries ∧
      s1.m_indexGeneration = s.m_indexGeneration ∧
      ((s1.m_queue ≠ [] ∧ s1.m_request.isSome = true) ∨
        (s1.m_queue = [] ∧ s1.m_request = none) ∨
        (s1.m_request = s.m_request ∧ (s1.m_queue = [] ↔ s.m_queue = []))) ∧
      (key ∉ s.m_queue → s1.m_queue = s.m_queue) := by
  unfold DeleteCountry at h
  split at h
  · exact absurd h (by simp)
  · rename_i c hc
    simp only at h
    split at h
    · exact absurd h (by simp)
    · rename_i s4 bounds hr
      have h4 : s4.m_queue.Sublist s.m_queue ∧
          s4.m_failedCountries = s.m_failedCountries ∧
          s4.m_indexGeneration = s.m_indexGeneration ∧
          ((s4.m_queue ≠ [] ∧ s4.m_request.isSome = true) ∨
            (s4.m_queue = [] ∧ s4.m_request = none) ∨
            (s4.m_request = s.m_request ∧ (s4.m_queue = [] ↔ s.m_queue = []))) ∧
          (key ∉ s.m_queue → s4.m_queue = s.m_queue) := by
        split_ifs at hr with h1 h2
        · split at hr
          · exact absurd hr (by simp)
          · rename_i s2 hs2
            cases hl : DownloadNextCountryFromQueue pl s2 with
            | none => rw [hl] at hr; exact absurd hr (by simp)
            | some s3 =>
              rw [hl] at hr
              simp only [Option.map_some', Option.some.injEq, Prod.mk.injEq] at hr
              obtain ⟨rfl, _⟩ := hr
              have h3 := loop_some pl _ _ _ hl
              have h2' : s2.m_queue = s.m_queue.eraseIdx (s.m_queue.indexOf key) ∧
                  s2.m_failedCountries = s.m_failedCountries ∧
                  s2.m_indexGeneration = s.m_indexGeneration ∧ s2.m_request = none := by
                split at hs2
                · cases Option.some.inj hs2; exact ⟨rfl, rfl, rfl, rfl⟩
                · rw [Option.map_eq_some'] at hs2
                  obtain ⟨n, _, hn⟩ := hs2
                  rw [← hn]
                  exact ⟨rfl, rfl, rfl, rfl⟩
              refine ⟨?_, h3.2.1.trans h2'.2.1, h3.2.2.1.trans h2'.2.2.1, ?_, ?_⟩
              · have := h3.1.sublist
                rw [h2'.1] at this
                exact this.trans (List.eraseIdx_sublist _ _)
              · rcases h3.2.2.2 with hne | ⟨he, hreq⟩
                · exact Or.inl hne
                · exact Or.inr (Or.inl ⟨he, hreq.trans h2'.2.2.2⟩)
              · intro hk
                exact absurd ((found_ne_end_iff _ _).1 h1) hk
        · simp only [Option.some.injEq, Prod.mk.injEq] at hr
          obtain ⟨rfl, _⟩ := hr
          refine ⟨List.eraseIdx_sublist _ _, rfl, rfl, Or.inr (Or.inr ⟨rfl, ?_⟩), ?_⟩
          · have hq : s.m_queue ≠ [] := by
              intro hq
              rw [hq] at h1
              exact h1 rfl
            constructor
            · intro he; exact absurd he (eraseIdx_ne_nil_of_pos _ _ h2 hq)
            · intro he; exact absurd he hq
          · intro hk
            exact absurd ((found_ne_end_iff _ _).1 h1) hk
        · simp only [Option.some.injEq, Prod.mk.injEq] at hr
          obtain ⟨rfl, _⟩ := hr
          exact ⟨List.Sublist.refl _, rfl, rfl, Or.inr (Or.inr ⟨rfl, Iff.rfl⟩), fun _ => rfl⟩
      have h5 : (NotifyStatusChanged (DeactivateAndDeleteCountry pl s4 c) key).m_queue =
            s4.m_queue ∧
          (NotifyStatusChanged (DeactivateAndDeleteCountry pl s4 c) key).m_failedCountries =
            s4.m_failedCountries ∧
          (NotifyStatusChanged (DeactivateAndDeleteCountry pl s4 c) key).m_indexGeneration =
            s4.m_indexGeneration ∧
          (NotifyStatusChanged (DeactivateAndDeleteCountry pl s4 c) key).m_request =
            s4.m_request := by
        rw [DeactivateAndDeleteCountry_eq]
        exact ⟨rfl, rfl, rfl, rfl⟩
      have h6 : s1.m_queue = s4.m_queue ∧ s1.m_failedCountries = s4.m_failedCountries ∧
          s1.m_indexGeneration = s4.m_indexGeneration ∧ s1.m_request = s4.m_request := by
        split_ifs at h
        · cases Option.some.inj h
          exact h5
        · cases Option.some.inj h
          exact h5
      rw [h6.1, h6.2.1, h6.2.2.1, h6.2.2.2]
      exact h4

/-- What `DownloadCountry` leaves, whenever it returns. -/
theorem DownloadCountry_some (pl : Platform) (s s1 : Storage) (key : TIndex)
    (h : DownloadCountry pl s key = some s1) :
    (key ∈ s.m_queue ∧ s1 = s) ∨
      (key ∉ s.m_queue ∧
        s1.m_queue <:+ s.m_queue ++ [key] ∧
        s1.m_failedCountries = s.m_failedCountries.erase key ∧
        s1.m_indexGeneration = s.m_indexGeneration ∧
        ((s.m_queue ≠ [] ∧ s1.m_queue = s.m_queue ++ [key] ∧ s1.m_request = s.m_request) ∨
          (s.m_queue = [] ∧ ((s1.m_queue ≠ [] ∧ s1.m_request.isSome = true) ∨
            (s1.m_queue = [] ∧ s1.m_request = s.m_request))))) := by
  unfold DownloadCountry at h
  simp only at h
  split_ifs at h with h1 h2
  · cases Option.some.inj h
    exact Or.inl ⟨(found_ne_end_iff _ _).1 h1, rfl⟩
  · have hk : key ∉ s.m_queue := fun hk => h1 ((found_ne_end_iff _ _).2 hk)
    have hq : s.m_queue = [] := by
      cases hq : s.m_queue with
      | nil => rfl
      | cons a q => rw [hq] at h2; simp at h2
    split at h
    · exact absurd h (by simp)
    · have := loop_some pl _ _ _ h
      exact Or.inr ⟨hk, this.1, this.2.1, this.2.2.1, Or.inr ⟨hq, this.2.2.2⟩⟩
  · have hk : key ∉ s.m_queue := fun hk => h1 ((found_ne_end_iff _ _).2 hk)
    have hq : s.m_queue ≠ [] := by
      intro hq
      rw [hq] at h2
      exact h2 rfl
    cases Option.some.inj h
    exact Or.inr ⟨hk, List.suffix_refl _, rfl, rfl, Or.inl ⟨hq, rfl, rfl⟩⟩

/-- What `OnMapDownloadFinished` leaves, whenever it returns. -/
theorem OnMapDownloadFinished_some (pl : Platform) (s s1 : Storage) (request : HttpRequest)
    (h : OnMapDownloadFinished pl s request = some s1) :
    (s.m_queue = [] ∧ s1 = s) ∨
      ∃ front rest, s.m_queue = front :: rest ∧
        ((s1.m_queue <:+ rest ∧ s1.m_failedCountries = insert front s.m_failedCountries ∧
            s1.m_indexGeneration = s.m_indexGeneration) ∨
          (s1.m_queue <:+ front :: rest ∧ s1.m_failedCountries = s.m_failedCountries ∧
            s1.m_indexGeneration = s.m_indexGeneration.erase front)) ∧
        ((s1.m_queue ≠ [] ∧ s1.m_request.isSome = true) ∨
          (s1.m_queue = [] ∧ s1.m_request = none)) := by
  unfold OnMapDownloadFinished at h
  split at h
  · rename_i hq
    cases Option.some.inj h
    exact Or.inl ⟨hq, rfl⟩
  · rename_i front rest hq
    simp only at h
    split at h
    · exact absurd h (by simp)
    · rename_i s2 heq
      have h2 := loop_some pl _ _ _ h
      refine Or.inr ⟨front, rest, hq, ?_, h2.2.2.2⟩
      split_ifs at heq with hf
      · cases Option.some.inj heq
        exact Or.inl ⟨h2.1, h2.2.1, h2.2.2.1⟩
      · split at heq
        · exact absurd heq (by simp)
        · cases Option.some.inj heq
          refine Or.inr ⟨?_, ?_, ?_⟩
          · have := h2.1
            split_ifs at this
            · simpa [UpdateAfterSearchIndex, NotifyStatusChanged, emit, hq] using this
            · simpa [UpdateAfterSearchIndex, NotifyStatusChanged, emit, hq] using this
          · have := h2.2.1
            split_ifs at this
            · exact this
            · exact this
          · have := h2.2.2.1
            split_ifs at this
            · exact this
            · exact this

/-- What `OnServerListDownloaded` leaves, whenever it returns. -/
theorem OnServerListDownloaded_some (pl : Platform) (s s1 : Storage) (request : HttpRequest)
    (h : OnServerListDownloaded pl s request = some s1) :
    s1.m_queue = s.m_queue ∧
      s1.m_failedCountries = s.m_failedCountries ∧
      s1.m_indexGeneration = s.m_indexGeneration ∧
      ((s.m_queue = [] ∧ s1.m_request = s.m_request) ∨
        (s.m_queue ≠ [] ∧ s1.m_request.isSome = true)) := by
  unfold OnServerListDownloaded at h
  split at h
  · rename_i hq
    cases Option.some.inj h
    exact ⟨rfl, rfl, rfl, Or.inl ⟨hq, rfl⟩⟩
  · rename_i front rest hq
    split at h
    · exact absurd h (by simp)
    · split at h
      · exact absurd h (by simp)
      · cases Option.some.inj h
        exact ⟨rfl, rfl, rfl, Or.inr ⟨by rw [hq]; simp, rfl⟩⟩

theorem OnMapDownloadProgress_same (s : Storage) (request : HttpRequest) :
    (OnMapDownloadProgress s request).m_queue = s.m_queue ∧
      (OnMapDownloadProgress s request).m_failedCountries = s.m_failedCountries ∧
      (OnMapDownloadProgress s request).m_indexGeneration = s.m_indexGeneration ∧
      (OnMapDownloadProgress s request).m_request = s.m_request := by
  unfold OnMapDownloadProgress
  split
  · exact ⟨rfl, rfl, rfl, rfl⟩
  · split_ifs
    · exact ⟨rfl, rfl, rfl, rfl⟩
    · exact ⟨rfl, rfl, rfl, rfl⟩

/-! ## Lemmas about the invariants of the queue, the sets and the request slot -/

theorem Consistent_initial (countries : CountriesContainerT) (version : Int)
    (disk : List String) : Consistent (Storage.initial countries version disk) := by
  refine ⟨List.nodup_nil, ?_, rfl, ?_⟩
  · intro k hk
    exact absurd hk (List.not_mem_nil k)
  · simp [Storage.initial]

/-- A state with the same queue, sets and request slot is consistent too. -/
theorem Consistent_of_same (s s1 : Storage) (hs : Consistent s)
    (hq : s1.m_queue = s.m_queue) (hf : s1.m_failedCountries = s.m_failedCountries)
    (hi : s1.m_indexGeneration = s.m_indexGeneration) (hr : s1.m_request = s.m_request) :
    Consistent s1 := by
  unfold Consistent
  rw [hq, hf, hi, hr]
  exact hs

theorem request_iff_of_cases (s1 : Storage)
    (h : (s1.m_queue ≠ [] ∧ s1.m_request.isSome = true) ∨
      (s1.m_queue = [] ∧ s1.m_request = none)) :
    (s1.m_request.isSome = true ↔ s1.m_queue ≠ []) := by
  rcases h with ⟨hq, hr⟩ | ⟨hq, hr⟩
  · exact ⟨fun _ => hq, fun _ => hr⟩
  · rw [hq, hr]
    simp

/-- Every step keeps the queue duplicate-free and disjoint from the failed
set, the indexing set empty, and a request outstanding exactly when the queue
is not empty. -/
theorem Call.apply_consistent (pl : Platform) (s s1 : Storage) (call : Call)
    (h : call.apply pl s = some s1) (hs : Consistent s) : Consistent s1 := by
  obtain ⟨hnodup, hdisj, hindex, hreq⟩ := hs
  have hnone : s.m_queue = [] → s.m_request = none := by
    intro hq
    cases hr : s.m_request with
    | none => rfl
    | some r =>
      have := hreq.1 (by rw [hr]; rfl)
      exact absurd hq this
  cases call with
  | download key =>
    rcases DownloadCountry_some pl s s1 key h with ⟨_, rfl⟩ | ⟨hk, hsuf, hf, hi, hcases⟩
    · exact ⟨hnodup, hdisj, hindex, hreq⟩
    · have hnd : (s.m_queue ++ [key]).Nodup := by
        rw [List.nodup_append]
        refine ⟨hnodup, List.nodup_singleton _, ?_⟩
        intro a ha hb
        rw [List.mem_singleton] at hb
        exact hk (hb ▸ ha)
      refine ⟨List.Nodup.sublist hsuf.sublist hnd, ?_, hi.trans hindex, ?_⟩
      · intro k hkq
        rw [hf]
        have := hsuf.subset hkq
        rcases List.mem_append.1 this with hin | hin
        · exact fun hmem => hdisj k hin (Finset.mem_of_mem_erase hmem)
        · rw [List.mem_singleton] at hin
          rw [hin]
          exact Finset.not_mem_erase _ _
      · rcases hcases with ⟨hq, hq1, hr1⟩ | ⟨hq, hc⟩
        · rw [hq1, hr1]
          exact ⟨fun _ => by simp, fun _ => hreq.2 hq⟩
        · rcases hc with hc | ⟨hq1, hr1⟩
          · exact request_iff_of_cases s1 (Or.inl hc)
          · exact request_iff_of_cases s1 (Or.inr ⟨hq1, hr1.trans (hnone hq)⟩)
  | delete key =>
    obtain ⟨hsub, hf, hi, hcases, _⟩ := DeleteCountry_some pl s s1 key h
    refine ⟨List.Nodup.sublist hsub hnodup, ?_, hi.trans hindex, ?_⟩
    · intro k hk
      rw [hf]
      exact hdisj k (hsub.subset hk)
    · rcases hcases with hc | hc | ⟨hr1, hq1⟩
      · exact request_iff_of_cases s1 (Or.inl hc)
      · exact request_iff_of_cases s1 (Or.inr hc)
      · rw [hr1]
        constructor
        · intro hsome hq
          exact hreq.1 hsome (hq1.1 hq)
        · intro hq
          exact hreq.2 (fun hq0 => hq (hq1.2 hq0))
  | subscribe =>
    cases Option.some.inj h
    exact ⟨hnodup, hdisj, hindex, hreq⟩
  | unsubscribe slotId =>
    cases Option.some.inj h
    exact ⟨hnodup, hdisj, hindex, hreq⟩
  | serverList request =>
    obtain ⟨hq1, hf, hi, hcases⟩ := OnServerListDownloaded_some pl s s1 request h
    refine ⟨by rw [hq1]; exact hnodup, by rw [hq1, hf]; exact hdisj, hi.trans hindex, ?_⟩
    rw [hq1]
    rcases hcases with ⟨_, hr1⟩ | ⟨hq, hr1⟩
    · rw [hr1]; exact hreq
    · exact ⟨fun _ => hq, fun _ => hr1⟩
  | progress request =>
    cases Option.some.inj h
    obtain ⟨hq1, hf, hi, hr1⟩ := OnMapDownloadProgress_same s request
    exact Consistent_of_same s _ ⟨hnodup, hdisj, hindex, hreq⟩ hq1 hf hi hr1
  | finished request =>
    rcases OnMapDownloadFinished_some pl s s1 request h with ⟨_, rfl⟩ |
      ⟨front, rest, hq, hsets, hcases⟩
    · exact ⟨hnodup, hdisj, hindex, hreq⟩
    · rw [hq] at hnodup hdisj
      have hnd := List.nodup_cons.1 hnodup
      rcases hsets with ⟨hsuf, hf, hi⟩ | ⟨hsuf, hf, hi⟩
      · refine ⟨List.Nodup.sublist hsuf.sublist hnd.2, ?_, hi.trans hindex,
          request_iff_of_cases s1 hcases⟩
        intro k hk
        rw [hf]
        have hkr := hsuf.subset hk
        intro hmem
        rcases Finset.mem_insert.1 hmem with heq | hin
        · exact hnd.1 (heq ▸ hkr)
        · exact hdisj k (List.mem_cons_of_mem _ hkr) hin
      · refine ⟨List.Nodup.sublist hsuf.sublist hnodup, ?_, ?_,
          request_iff_of_cases s1 hcases⟩
        · intro k hk
          rw [hf]
          exact hdisj k (hsuf.subset hk)
        · rw [hi, hindex]
          rfl
  | arrives path =>
    cases Option.some.inj h
    exact ⟨hnodup, hdisj, hindex, hreq⟩

/-- Every state reached from a consistent state is consistent. -/
theorem run_consistent (pl : Platform) (calls : List Call) :
    ∀ s s1 : Storage, run pl s calls = some s1 → Consistent s → Consistent s1 := by
  induction calls with
  | nil =>
    intro s s1 h hs
    cases Option.some.inj h
    exact hs
  | cons call rest ih =>
    intro s s1 h hs
    rw [run] at h
    cases hstep : call.apply pl s with
    | none => rw [hstep] at h; exact absurd h (by simp)
    | some s2 =>
      rw [hstep] at h
      exact ih s2 s1 h (Call.apply_consistent pl s s2 call hstep hs)

/-- A key reported DownloadFailed is in the failed set and not queued. -/
theorem CountryStatus_failed_imp (pl : Platform) (s : Storage) (k : TIndex)
    (h : CountryStatus pl s k = some TStatus.EDownloadFailed) :
    k ∉ s.m_queue ∧ k ∈ s.m_failedCountries := by
  unfold CountryStatus at h
  simp only at h
  split_ifs at h with h1 h2 h3 h4
  · exact absurd h (by simp)
  · exact absurd h (by simp)
  · exact ⟨fun hk => h1 ((found_ne_end_iff _ _).2 hk), h3⟩
  · exact absurd h (by simp)
  · split at h
    · exact absurd h (by simp)
    · split_ifs at h <;> exact absurd h (by simp)

/-- A key reported GeneratingIndex is in the indexing set. -/
theorem CountryStatus_generating_imp (pl : Platform) (s : Storage) (k : TIndex)
    (h : CountryStatus pl s k = some TStatus.EGeneratingIndex) :
    k ∈ s.m_indexGeneration := by
  unfold CountryStatus at h
  simp only at h
  split_ifs at h with h1 h2 h3 h4
  · exact absurd h (by simp)
  · exact absurd h (by simp)
  · exact absurd h (by simp)
  · exact h4
  · split at h
    · exact absurd h (by simp)
    · split_ifs at h <;> exact absurd h (by simp)

/-! ## Lemmas about steps that issue no request -/

theorem changeCalls_quiet (observers : List CountryObservers) (index : TIndex)
    (queue : List TIndex) :
    ∀ e ∈ changeCalls observers index queue, e.effect.isRequest = false := by
  intro e he
  simp only [changeCalls, List.mem_map] at he
  obtain ⟨o, _, rfl⟩ := he
  rfl

theorem removeCalls_quiet (pl : Platform) (files : List CountryFile) (queue : List TIndex) :
    ∀ e ∈ removeCalls pl files queue, e.effect.isRequest = false := by
  intro e he
  obtain ⟨f, hf⟩ := removeCalls_effect pl files queue e he
  rw [hf]; rfl

theorem deleteCalls_quiet (pl : Platform) (files : List CountryFile) (queue : List TIndex) :
    ∀ e ∈ deleteCalls pl files queue, e.effect.isRequest = false := by
  intro e he
  obtain ⟨f, hf⟩ := deleteCalls_effect pl files queue e he
  rw [hf]; rfl

/-- When the queue loop returns with an empty queue it has issued no request. -/
theorem loop_quiet (pl : Platform) (q : List TIndex) :
    ∀ s s1 : Storage, DownloadNextCountryFromQueue.loop pl q s = some s1 →
      ∃ tail, s1.log = s.log ++ tail ∧
        (s1.m_queue = [] → ∀ e ∈ tail, e.effect.isRequest = false) := by
  induction q with
  | nil =>
    intro s s1 h
    rw [DownloadNextCountryFromQueue.loop] at h
    cases Option.some.inj h
    exact ⟨[], by simp, fun _ e he => absurd he (List.not_mem_nil e)⟩
  | cons index rest ih =>
    intro s s1 h
    rw [DownloadNextCountryFromQueue.loop] at h
    cases hc : CountryByIndex s index with
    | none => rw [hc] at h; exact absurd h (by simp)
    | some c =>
      rw [hc] at h
      simp only at h
      cases hfind : c.m_files.find? (fun it => !IsFileDownloaded pl s.disk it) with
      | some it =>
        rw [hfind] at h
        cases Option.some.inj h
        refine ⟨[Event.mk (Effect.PostJson pl.MetaServerUrl it.m_fileName) (index :: rest)] ++
          changeCalls s.m_observers index (index :: rest), ?_, ?_⟩
        · simp [NotifyStatusChanged, emit, changeCalls]
        · intro hq
          exact absurd hq (by simp [NotifyStatusChanged, emit])
      | none =>
        rw [hfind] at h
        simp only at h
        have hstep : ∃ progress, DownloadNextCountryFromQueue.loop pl rest
            (NotifyStatusChanged { s with m_queue := rest, m_countryProgress := progress }
              index) = some s1 := by
          cases rest with
          | nil => exact ⟨_, h⟩
          | cons front more =>
            simp only at h
            cases hn : CountryByIndex { s with m_queue := front :: more } front with
            | none => rw [hn] at h; exact absurd h (by simp)
            | some n =>
              rw [hn] at h
              simp only [Option.map_some'] at h
              exact ⟨_, h⟩
        obtain ⟨progress, hstep⟩ := hstep
        obtain ⟨tail, hlog, hquiet⟩ := ih _ _ hstep
        refine ⟨changeCalls s.m_observers index rest ++ tail, ?_, ?_⟩
        · rw [hlog]; simp [NotifyStatusChanged, changeCalls]
        · intro hq e he
          rcases List.mem_append.1 he with he | he
          · exact changeCalls_quiet _ _ _ e he
          · exact hquiet hq e he

/-- When `OnMapDownloadFinished` returns with an empty queue it has issued no
request. -/
theorem OnMapDownloadFinished_quiet (pl : Platform) (s s1 : Storage) (request : HttpRequest)
    (h : OnMapDownloadFinished pl s request = some s1) (hq1 : s1.m_queue = []) :
    ∃ new, s1.log = s.log ++ new ∧ ∀ e ∈ new, e.effect.isRequest = false := by
  unfold OnMapDownloadFinished at h
  split at h
  · cases Option.some.inj h
    exact ⟨[], by simp, fun e he => absurd he (List.not_mem_nil e)⟩
  · rename_i front rest hq
    simp only at h
    split at h
    · exact absurd h (by simp)
    · rename_i s2 heq
      obtain ⟨tail, hlog, hquiet⟩ := loop_quiet pl _ _ _ h
      have h2 : ∃ pre, s2.log = s.log ++ pre ∧ ∀ e ∈ pre, e.effect.isRequest = false := by
        split_ifs at heq with hf
        · cases Option.some.inj heq
          exact ⟨changeCalls s.m_observers front rest, by simp [NotifyStatusChanged, changeCalls],
            changeCalls_quiet _ _ _⟩
        · split at heq
          · exact absurd heq (by simp)
          · cases Option.some.inj heq
            refine ⟨changeCalls s.m_observers front s.m_queue ++
              [Event.mk (Effect.addMap (fileFromData request.Data)) s.m_queue,
               Event.mk (Effect.updateRect (pl.LoadMapHeaderBounds (fileFromData request.Data)))
                 s.m_queue], ?_, ?_⟩
            · split_ifs <;> simp [UpdateAfterSearchIndex, NotifyStatusChanged, emit, changeCalls]
            · intro e he
              rcases List.mem_append.1 he with he | he
              · exact changeCalls_quiet _ _ _ e he
              · simp only [List.mem_cons, List.mem_singleton, List.not_mem_nil, or_false] at he
                rcases he with rfl | rfl <;> rfl
      obtain ⟨pre, hpre, hpq⟩ := h2
      refine ⟨pre ++ tail, ?_, ?_⟩
      · rw [hlog]
        show s2.log ++ tail = _
        rw [hpre, List.append_assoc]
      · intro e he
        rcases List.mem_append.1 he with he | he
        · exact hpq e he
        · exact hquiet hq1 e he

/-- When `DeleteCountry` returns with an empty queue it has issued no request. -/
theorem DeleteCountry_quiet (pl : Platform) (s s1 : Storage) (key : TIndex)
    (h : DeleteCountry pl s key = some s1) (hq1 : s1.m_queue = []) :
    ∃ new, s1.log = s.log ++ new ∧ ∀ e ∈ new, e.effect.isRequest = false := by
  unfold DeleteCountry at h
  split at h
  · exact absurd h (by simp)
  · rename_i c hc
    simp only at h
    split at h
    · exact absurd h (by simp)
    · rename_i s4 bounds hr
      have h4 : ∃ pre, s4.log = s.log ++ pre ∧
          (s4.m_queue = [] → ∀ e ∈ pre, e.effect.isRequest = false) := by
        split_ifs at hr with h1 h2
        · split at hr
          · exact absurd hr (by simp)
          · rename_i s2 hs2
            cases hl : DownloadNextCountryFromQueue pl s2 with
            | none => rw [hl] at hr; exact absurd hr (by simp)
            | some s3 =>
              rw [hl] at hr
              simp only [Option.map_some', Option.some.injEq, Prod.mk.injEq] at hr
              obtain ⟨rfl, _⟩ := hr
              obtain ⟨tail, hlog, hquiet⟩ := loop_quiet pl _ _ _ hl
              have h2' : s2.log = s.log := by
                split at hs2
                · cases Option.some.inj hs2; rfl
                · rw [Option.map_eq_some'] at hs2
                  obtain ⟨n, _, hn⟩ := hs2
                  rw [← hn]
              exact ⟨tail, by rw [hlog, h2'], hquiet⟩
        · simp only [Option.some.injEq, Prod.mk.injEq] at hr
          obtain ⟨rfl, _⟩ := hr
          exact ⟨[], by simp, fun _ e he => absurd he (List.not_mem_nil e)⟩
        · simp only [Option.some.injEq, Prod.mk.injEq] at hr
          obtain ⟨rfl, _⟩ := hr
          exact ⟨[], by simp, fun _ e he => absurd he (List.not_mem_nil e)⟩
      obtain ⟨pre, hpre, hpq⟩ := h4
      have h5 : (NotifyStatusChanged (DeactivateAndDeleteCountry pl s4 c) key).m_queue =
            s4.m_queue ∧
          (NotifyStatusChanged (DeactivateAndDeleteCountry pl s4 c) key).log =
            s4.log ++ (removeCalls pl c.m_files s4.m_queue ++
              deleteCalls pl c.m_files s4.m_queue ++
              changeCalls s4.m_observers key s4.m_queue) := by
        rw [DeactivateAndDeleteCountry_eq]
        refine ⟨rfl, ?_⟩
        simp [NotifyStatusChanged, changeCalls]
      have hmid : ∀ e ∈ removeCalls pl c.m_files s4.m_queue ++
          deleteCalls pl c.m_files s4.m_queue ++
          changeCalls s4.m_observers key s4.m_queue, e.effect.isRequest = false := by
        intro e he
        rcases List.mem_append.1 he with he | he
        · rcases List.mem_append.1 he with he | he
          · exact removeCalls_quiet _ _ _ e he
          · exact deleteCalls_quiet _ _ _ e he
        · exact changeCalls_quiet _ _ _ e he
      split_ifs at h
      · cases Option.some.inj h
        have hq4 : s4.m_queue = [] := h5.1.symm.trans hq1
        refine ⟨pre ++ (removeCalls pl c.m_files s4.m_queue ++
          deleteCalls pl c.m_files s4.m_queue ++
          changeCalls s4.m_observers key s4.m_queue) ++
          [Event.mk (Effect.updateRect bounds) s4.m_queue], ?_, ?_⟩
        · show (NotifyStatusChanged (DeactivateAndDeleteCountry pl s4 c) key).log ++
            [Event.mk (Effect.updateRect bounds)
              (NotifyStatusChanged (DeactivateAndDeleteCountry pl s4 c) key).m_queue] = _
          rw [h5.2, h5.1, hpre]
          simp
        · intro e he
          rcases List.mem_append.1 he with he | he
          · rcases List.mem_append.1 he with he | he
            · exact hpq hq4 e he
            · exact hmid e he
          · rw [List.mem_singleton] at he
            rw [he]; rfl
      · cases Option.some.inj h
        have hq4 : s4.m_queue = [] := h5.1.symm.trans hq1
        refine ⟨pre ++ (removeCalls pl c.m_files s4.m_queue ++
          deleteCalls pl c.m_files s4.m_queue ++
          changeCalls s4.m_observers key s4.m_queue), ?_, ?_⟩
        · rw [h5.2, hpre]
          simp
        · intro e he
          rcases List.mem_append.1 he with he | he
          · exact hpq hq4 e he
          · exact hmid e he

/-! ## Lemmas about the bounds update of `DeleteCountry` -/

theorem updateRectsOf_append (l1 l2 : List Event) :
    updateRectsOf (l1 ++ l2) = updateRectsOf l1 ++ updateRectsOf l2 := by
  unfold updateRectsOf
  rw [List.filterMap_append]

theorem updateRectsOf_none (l : List Event)
    (h : ∀ e ∈ l, ∀ r, e.effect ≠ Effect.updateRect r) : updateRectsOf l = [] := by
  unfold updateRectsOf
  rw [List.filterMap_eq_nil_iff]
  intro e he
  have := h e he
  split
  · rename_i r heq
    exact absurd heq (this r)
  · rfl

/-- The calls made by `DeleteCountry` in every case, for a queue whose keys
resolve: the calls of the queue loop, the deactivations, the deletions, the
status-change calls for the key, and a bounds update exactly when the key was
not queued and the rectangle of the country is not the empty one.  The failed
set is untouched. -/
theorem DeleteCountry_log (pl : Platform) (s : Storage) (key : TIndex) (c : Country)
    (hc : CountryByIndex s key = some c)
    (hres : ∀ k ∈ s.m_queue, ∃ n, CountryByIndex s k = some n) :
    ∃ s1 before, DeleteCountry pl s key = some s1 ∧
      s1.log = s.log ++ before ++ removeCalls pl c.m_files s1.m_queue ++
        deleteCalls pl c.m_files s1.m_queue ++ changeCalls s.m_observers key s1.m_queue ++
        (if key ∉ s.m_queue ∧ c.m_bounds ≠ RectD.GetEmptyRect
          then [Event.mk (Effect.updateRect c.m_bounds) s.m_queue] else []) ∧
      (∀ e ∈ before, (∃ url body, e.effect = Effect.PostJson url body) ∨
        ∃ slotId k, e.effect = Effect.changeCountryFn slotId k) ∧
      s1.m_failedCountries = s.m_failedCountries ∧
      (key ∉ s.m_queue → s1.m_queue = s.m_queue) := by
  by_cases hmem : key ∈ s.m_queue
  · have hif : ¬ (key ∉ s.m_queue ∧ c.m_bounds ≠ RectD.GetEmptyRect) := fun h => h.1 hmem
    rw [if_neg hif]
    obtain ⟨pre, post, hq, hpre⟩ := List.eq_append_cons_of_mem hmem
    cases pre with
    | nil =>
      rw [List.nil_append] at hq
      obtain ⟨progress, hrun⟩ := DeleteCountry_head_run pl s key post c hq hc
        (fun front more heq => hres front (by rw [hq, heq]; simp))
      obtain ⟨s3, tail, hloop, hlog, ho, _, hf, _, htail⟩ := loop_calls pl post
        { s with m_request := none, m_queue := post, m_countryProgress := progress }
        (fun k hk => hres k (by rw [hq]; exact List.mem_cons_of_mem _ hk))
      rw [hloop, Option.map_some'] at hrun
      refine ⟨_, tail, hrun, ?_, ?_, ?_, fun h => absurd hmem h⟩
      · rw [DeactivateAndDeleteCountry_eq]
        simp only [NotifyStatusChanged, hlog, ho, changeCalls]
        simp
      · intro e he
        rcases htail e he with hp | ⟨slotId, k, _, hke⟩
        · exact Or.inl hp
        · exact Or.inr ⟨slotId, k, hke⟩
      · rw [DeactivateAndDeleteCountry_eq]; exact hf
    | cons x xs =>
      have hrun := DeleteCountry_interior pl s key c (x :: xs) post hq hpre (by simp) hc
      refine ⟨_, [], hrun, ?_, by simp, ?_, fun h => absurd hmem h⟩
      · rw [DeactivateAndDeleteCountry_eq]
        simp [NotifyStatusChanged, changeCalls]
      · rw [DeactivateAndDeleteCountry_eq]; rfl
  · have hrun := DeleteCountry_not_queued pl s key c hmem hc
    by_cases hb : c.m_bounds ≠ RectD.GetEmptyRect
    · rw [if_pos hb] at hrun
      rw [if_pos ⟨hmem, hb⟩]
      refine ⟨_, [], hrun, ?_, by simp, ?_, fun _ => ?_⟩
      · simp only [emit, NotifyStatusChanged]
        rw [DeactivateAndDeleteCountry_eq]
        simp [changeCalls]
      · simp only [emit, NotifyStatusChanged]; rw [DeactivateAndDeleteCountry_eq]
      · simp only [emit, NotifyStatusChanged]; rw [DeactivateAndDeleteCountry_eq]
    · rw [if_neg hb] at hrun
      rw [if_neg (fun h => hb h.2)]
      refine ⟨_, [], hrun, ?_, by simp, ?_, fun _ => ?_⟩
      · simp only [NotifyStatusChanged]
        rw [DeactivateAndDeleteCountry_eq]
        simp [changeCalls]
      · simp only [NotifyStatusChanged]; rw [DeactivateAndDeleteCountry_eq]
      · simp only [NotifyStatusChanged]; rw [DeactivateAndDeleteCountry_eq]

/-! ## Lemmas about the exact outcome of the queue loop -/

/-- The queue loop, for a queue whose keys all resolve: it returns; the queue
it was given splits into the keys it removed, each with all its files on disk,
and the queue it leaves; for each removed key it made one round of
status-change calls; it then either left the queue empty and the request slot
alone, or stopped at a head with a missing file, posted the name of the first
such file and made one round of status-change calls for that head. -/
theorem loop_exact (pl : Platform) (q : List TIndex) :
    ∀ s : Storage, (∀ k ∈ q, ∃ c, CountryByIndex s k = some c) →
      ∃ s1 removed, DownloadNextCountryFromQueue.loop pl q s = some s1 ∧
        q = removed ++ s1.m_queue ∧
        (∀ k ∈ removed, ∃ c, CountryByIndex s k = some c ∧
          c.m_files.all (IsFileDownloaded pl s.disk) = true) ∧
        ((s1.m_queue = [] ∧ s1.m_request = s.m_request ∧
            s1.log = s.log ++ removedCalls s.m_observers removed []) ∨
          ∃ h rest c it, s1.m_queue = h :: rest ∧ CountryByIndex s h = some c ∧
            c.m_files.find? (fun f => !IsFileDownloaded pl s.disk f) = some it ∧
            s1.m_request = some (PendingRequest.PostJson pl.MetaServerUrl it.m_fileName) ∧
            s1.log = s.log ++ removedCalls s.m_observers removed (h :: rest) ++
              Event.mk (Effect.PostJson pl.MetaServerUrl it.m_fileName) (h :: rest) ::
                changeCalls s.m_observers h (h :: rest)) := by
  induction q with
  | nil =>
    intro s _
    refine ⟨{ s with m_queue := [] }, [], by rw [DownloadNextCountryFromQueue.loop], rfl,
      fun k hk => absurd hk (List.not_mem_nil k), Or.inl ⟨rfl, rfl, ?_⟩⟩
    simp [removedCalls]
  | cons index rest ih =>
    intro s hres
    obtain ⟨c, hc⟩ := hres index (List.mem_cons_self _ _)
    cases hfind : c.m_files.find? (fun f => !IsFileDownloaded pl s.disk f) with
    | some it =>
      refine ⟨_, [], loop_stop pl s index rest c it hc hfind, rfl,
        fun k hk => absurd hk (List.not_mem_nil k),
        Or.inr ⟨index, rest, c, it, rfl, hc, hfind, rfl, ?_⟩⟩
      simp [NotifyStatusChanged, emit, changeCalls, removedCalls]
    | none =>
      have hall : c.m_files.all (IsFileDownloaded pl s.disk) = true := by
        rw [List.all_eq_true]
        intro f hf
        have := (List.find?_eq_none.1 hfind) f hf
        simpa using this
      obtain ⟨progress, hstep⟩ := loop_skip pl s index rest c hc hall
        (fun front more heq => hres front (by rw [heq]; simp))
      obtain ⟨s1, removed, hrun, hsplit, hremoved, hend⟩ := ih
        (NotifyStatusChanged { s with m_queue := rest, m_countryProgress := progress } index)
        (fun k hk => hres k (List.mem_cons_of_mem _ hk))
      refine ⟨s1, index :: removed, hstep.trans hrun, by rw [hsplit]; rfl, ?_, ?_⟩
      · intro k hk
        rcases List.mem_cons.1 hk with rfl | hk
        · exact ⟨c, hc, hall⟩
        · exact hremoved k hk
      · rcases hend with ⟨hq, hr, hlog⟩ | ⟨h, rest1, c1, it, hq, hc1, hfind1, hr, hlog⟩
        · refine Or.inl ⟨hq, hr, ?_⟩
          rw [hlog]
          have hrest : rest = removed ++ [] := by rw [hsplit, hq]
          simp only [NotifyStatusChanged, removedCalls, changeCalls, hrest]
          simp
        · refine Or.inr ⟨h, rest1, c1, it, hq, hc1, hfind1, hr, ?_⟩
          rw [hlog]
          have hrest : rest = removed ++ h :: rest1 := by rw [hsplit, hq]
          simp only [NotifyStatusChanged, removedCalls, changeCalls, hrest]
          simp

/-! ## Lemmas about the file name taken from the request data -/

theorem find_last_of_none (set : List Char) (file : List Char)
    (h : ∀ ch ∈ file, ch ∉ set) : find_last_of file set = none := by
  induction file with
  | nil => rfl
  | cons ch rest ih =>
    rw [find_last_of, ih (fun x hx => h x (List.mem_cons_of_mem _ hx))]
    simp [h ch (List.mem_cons_self _ _)]

theorem find_last_of_split (set : List Char) (pre post : List Char) (sep : Char)
    (hsep : sep ∈ set) (hpost : ∀ ch ∈ post, ch ∉ set) :
    find_last_of (pre ++ sep :: post) set = some pre.length := by
  induction pre with
  | nil =>
    rw [List.nil_append, find_last_of, find_last_of_none set post hpost]
    simp [hsep]
  | cons ch rest ih =>
    rw [List.cons_append, find_last_of, ih]
    rfl

/-- The file name is the whole text when it has no separator. -/
theorem fileFromData_whole (data : String)
    (h : ∀ ch ∈ data.toList, ch ∉ ['/', '\\']) : fileFromData data = data := by
  unfold fileFromData
  rw [find_last_of_none _ _ h]

/-- The file name is what follows the last separator. -/
theorem fileFromData_after_last (data : String) (pre post : List Char) (sep : Char)
    (hdata : data.toList = pre ++ sep :: post)
    (hsep : sep ∈ ['/', '\\']) (hpost : ∀ ch ∈ post, ch ∉ ['/', '\\']) :
    fileFromData data = String.mk post := by
  unfold fileFromData
  rw [hdata, find_last_of_split _ pre post sep hsep hpost]
  simp

/-! ## Lemmas about a completion that arrives after a cancellation -/

/-- C1: for every state and key, `CountryStatus` equals the first matching case
of the precedence list: Downloading at the head of the queue, InQueue elsewhere
in the queue, DownloadFailed in the failed set, GeneratingIndex in the indexing
set, and otherwise the class of the size pair of the country resolved for the
key (OnDisk, Unknown, NotDownloaded). -/
theorem C1_CountryStatus_precedence (pl : Platform) (s : Storage) (key : TIndex) :
    CountryStatus pl s key = StatusResolver pl s key := by
  unfold CountryStatus StatusResolver
  cases hq : s.m_queue with
  | nil =>
    simp only [List.indexOf_nil, List.length_nil, ne_eq, not_true_eq_false, if_false,
      List.head?_nil, List.tail_nil, List.not_mem_nil]
    by_cases hf : key ∈ s.m_failedCountries
    · simp [hf]
    · by_cases hi : key ∈ s.m_indexGeneration
      · simp [hf, hi]
      · simp only [hf, hi, if_false, CountrySizeInBytes, reduceCtorEq]
        cases CountryByIndex s key with
        | none => rfl
        | some c =>
          simp only [Option.map_some', statusOfSizes]
          by_cases h1 : (c.Size pl s.disk).1 = (c.Size pl s.disk).2
          · by_cases h2 : (c.Size pl s.disk).2 = 0
            · simp [h1, h2]
            · simp [h1, h2]
          · have : ¬ ((c.Size pl s.disk).1 = 0 ∧ (c.Size pl s.disk).2 = 0) := by
              rintro ⟨a, b⟩; exact h1 (a.trans b.symm)
            simp [h1, this]
  | cons a q =>
    by_cases ha : a = key
    · subst ha
      simp
    · have hne : (a :: q).indexOf key ≠ 0 := by
        rw [Ne, found_eq_begin_iff]; exact ha
      have hhead : ¬ ((a :: q).head? = some key) := by simpa using ha
      by_cases hmem : key ∈ q
      · have hfound : (a :: q).indexOf key ≠ (a :: q).length :=
          (found_ne_end_iff _ _).2 (List.mem_cons_of_mem _ hmem)
        rw [if_pos hfound, if_neg hne, if_neg hhead, if_pos (by simpa using hmem)]
      · have hfound : ¬ ((a :: q).indexOf key ≠ (a :: q).length) := by
          rw [found_ne_end_iff]; simp [hmem, Ne.symm ha]
        simp only [hfound, if_false, hhead, List.tail_cons, hmem]
        by_cases hf : key ∈ s.m_failedCountries
        · simp [hf]
        · by_cases hi : key ∈ s.m_indexGeneration
          · simp [hf, hi]
          · simp only [hf, hi, if_false, CountrySizeInBytes]
            cases CountryByIndex s key with
            | none => rfl
            | some c =>
              simp only [Option.map_some', statusOfSizes]
              by_cases h1 : (c.Size pl s.disk).1 = (c.Size pl s.disk).2
              · by_cases h2 : (c.Size pl s.disk).2 = 0
                · simp [h1, h2]
                · simp [h1, h2]
              · have : ¬ ((c.Size pl s.disk).1 = 0 ∧ (c.Size pl s.disk).2 = 0) := by
                  rintro ⟨a, b⟩; exact h1 (a.trans b.symm)
                simp [h1, this]

/-! ## Enqueue (C2, C3, C4) -/

/-- C2: enqueue is idempotent on queued keys.  For a key already in the queue
(head or not) `DownloadCountry` returns the state it was given: queue, failed
set, progress pair, outstanding request and the log of notifications are all
unchanged. -/
theorem C2_DownloadCountry_queued_noop (pl : Platform) (s : Storage) (key : TIndex)
    (hmem : key ∈ s.m_queue) :
    DownloadCountry pl s key = some s := by
  unfold DownloadCountry
  exact if_pos ((found_ne_end_iff s.m_queue key).2 hmem)

theorem C2_DownloadCountry_queued_noop_witness :
    Example.Balkans ∈ Example.twoQueued.m_queue ∧
      DownloadCountry Example.platform Example.twoQueued Example.Balkans =
        some Example.twoQueued :=
  ⟨by decide, C2_DownloadCountry_queued_noop Example.platform Example.twoQueued
    Example.Balkans (by decide)⟩

/-- C3: with a non-empty queue and a key that is not queued, `DownloadCountry`
removes the key from the failed set, appends it at the tail of the queue (the
earlier elements stay, in order), leaves the progress pair and the outstanding
request as they were, makes exactly one status-change call for the key per
observer (made when the key is already at the tail), and afterwards
`CountryStatus key` is InQueue. -/
theorem C3_DownloadCountry_appends (pl : Platform) (s : Storage) (key : TIndex)
    (hne : s.m_queue ≠ []) (hnot : key ∉ s.m_queue) :
    ∃ s1, DownloadCountry pl s key = some s1 ∧
      s1.m_failedCountries = s.m_failedCountries.erase key ∧
      key ∉ s1.m_failedCountries ∧
      s1.m_queue = s.m_queue ++ [key] ∧
      s1.m_countryProgress = s.m_countryProgress ∧
      s1.m_request = s.m_request ∧
      s1.log = s.log ++ changeCalls s.m_observers key (s.m_queue ++ [key]) ∧
      CountryStatus pl s1 key = some TStatus.EInQueue := by
  have hrun := DownloadCountry_on_nonempty pl s key hne hnot
  refine ⟨_, hrun, rfl, ?_, rfl, rfl, rfl, rfl, ?_⟩
  · simp [NotifyStatusChanged]
  · have hidx : (s.m_queue ++ [key]).indexOf key = s.m_queue.length := by
      rw [List.indexOf_append_of_not_mem hnot]; simp
    have hpos : s.m_queue.length ≠ 0 := by
      intro h0; exact hne (List.length_eq_zero.1 h0)
    unfold CountryStatus
    simp only [NotifyStatusChanged, hidx, List.length_append, List.length_singleton]
    rw [if_pos (by omega), if_neg hpos]

theorem C3_DownloadCountry_appends_witness :
    Example.twoQueued.m_queue ≠ [] ∧ Example.Carpathians ∉ Example.twoQueued.m_queue ∧
    ∃ s1, DownloadCountry Example.platform Example.twoQueued Example.Carpathians = some s1 ∧
      s1.m_failedCountries = Example.twoQueued.m_failedCountries.erase Example.Carpathians ∧
      Example.Carpathians ∉ s1.m_failedCountries ∧
      s1.m_queue = Example.twoQueued.m_queue ++ [Example.Carpathians] ∧
      s1.m_countryProgress = Example.twoQueued.m_countryProgress ∧
      s1.m_request = Example.twoQueued.m_request ∧
      s1.log = Example.twoQueued.log ++ changeCalls Example.twoQueued.m_observers
        Example.Carpathians (Example.twoQueued.m_queue ++ [Example.Carpathians]) ∧
      CountryStatus Example.platform s1 Example.Carpathians = some TStatus.EInQueue :=
  ⟨by decide, by decide, C3_DownloadCountry_appends Example.platform Example.twoQueued
    Example.Carpathians (by decide) (by decide)⟩

/-- C4: with an empty queue and a key whose country has a file that is not yet
downloaded (`it` being the first such file), `DownloadCountry` yields queue
`[key]`, progress `(0, remoteSize key)`, one outstanding server-list request
whose body is the name of `it` (and it is the only request issued), and
`CountryStatus key` is Downloading. -/
theorem C4_DownloadCountry_starts (pl : Platform) (s : Storage) (key : TIndex)
    (country : Country) (pre post : List CountryFile) (it : CountryFile)
    (hq : s.m_queue = [])
    (hc : CountryByIndex s key = some country)
    (hfiles : country.m_files = pre ++ it :: post)
    (hpre : ∀ g ∈ pre, IsFileDownloaded pl s.disk g = true)
    (hit : IsFileDownloaded pl s.disk it = false) :
    ∃ s1, DownloadCountry pl s key = some s1 ∧
      s1.m_queue = [key] ∧
      s1.m_countryProgress = (0, ((country.Size pl s.disk).2 : Int)) ∧
      s1.m_request = some (PendingRequest.PostJson pl.MetaServerUrl it.m_fileName) ∧
      s1.log = s.log ++ Event.mk (Effect.PostJson pl.MetaServerUrl it.m_fileName) [key] ::
        changeCalls s.m_observers key [key] ∧
      CountryStatus pl s1 key = some TStatus.EDownloading := by
  have hfind := find_first_missing pl s.disk _ pre post it hfiles hpre hit
  have hrun := DownloadCountry_on_empty pl s key country it hq hc hfind
  refine ⟨_, hrun, rfl, rfl, rfl, ?_, ?_⟩
  · simp [NotifyStatusChanged, emit, changeCalls]
  · unfold CountryStatus
    simp [NotifyStatusChanged, emit]

theorem C4_DownloadCountry_starts_witness :
    ∃ s1, DownloadCountry Example.platform (Example.fresh []) Example.Alps = some s1 ∧
      s1.m_queue = [Example.Alps] ∧
      s1.m_countryProgress = (0, 1000) ∧
      s1.m_request = some (PendingRequest.PostJson "http://meta/" "Alps") ∧
      s1.log = [Event.mk (Effect.PostJson "http://meta/" "Alps") [Example.Alps],
        Event.mk (Effect.changeCountryFn 1 Example.Alps) [Example.Alps]] ∧
      CountryStatus Example.platform s1 Example.Alps = some TStatus.EDownloading :=
  C4_DownloadCountry_starts Example.platform (Example.fresh []) Example.Alps
    ⟨"Alps", "", [⟨"Alps", 1000⟩], RectD.rect 0 0 1 1⟩ [] [] ⟨"Alps", 1000⟩
    rfl rfl rfl (by decide) (by decide)

/-! ## FIFO order of the queue (C5) -/

/-- C5, as stated, fails: from the initial state with the Alps file already on
disk, the calls `DownloadCountry Alps`, `DownloadCountry Balkans` leave the
queue `[Balkans]`; Alps is reported OnDisk and Balkans, the second key, is
reported Downloading instead of InQueue. -/
theorem C5_counterexample :
    ∃ s1, DownloadCountries Example.platform
        (Storage.initial Example.countries 1 ["/w/Alps.mwm"])
        [Example.Alps, Example.Balkans] = some s1 ∧
      s1.m_queue = [Example.Balkans] ∧
      s1.m_queue ≠ [Example.Alps, Example.Balkans] ∧
      CountryStatus Example.platform s1 Example.Alps = some TStatus.EOnDisk ∧
      CountryStatus Example.platform s1 Example.Balkans = some TStatus.EDownloading := by
  decide

/-- C5 (amended): starting from the initial state, for pairwise distinct keys
`k1, ks` where `k1` has at least one backing file not yet downloaded, the
calls `DownloadCountry k1, ...` with no callback in between leave the queue
`k1 :: ks` in call order; `k1` is reported Downloading, every later key
InQueue, and no key other than `k1` is reported Downloading. -/
theorem C5_queue_fifo (pl : Platform) (countries : CountriesContainerT) (version : Int)
    (disk : List String) (k1 : TIndex) (ks : List TIndex) (country : Country)
    (hnodup : (k1 :: ks).Nodup)
    (hc : CountryByIndex (Storage.initial countries version disk) k1 = some country)
    (hmissing : ∃ f ∈ country.m_files, IsFileDownloaded pl disk f = false) :
    ∃ s1, DownloadCountries pl (Storage.initial countries version disk) (k1 :: ks) = some s1 ∧
      s1.m_queue = k1 :: ks ∧
      CountryStatus pl s1 k1 = some TStatus.EDownloading ∧
      (∀ k ∈ ks, CountryStatus pl s1 k = some TStatus.EInQueue) ∧
      (∀ k, CountryStatus pl s1 k = some TStatus.EDownloading ↔ k = k1) := by
  obtain ⟨it, hfind⟩ := exists_first_missing pl disk _ hmissing
  have hrun := DownloadCountry_on_empty pl (Storage.initial countries version disk) k1
    country it rfl hc hfind
  have hnd := List.nodup_cons.1 hnodup
  obtain ⟨s0, hs0, hq0⟩ : ∃ s0, DownloadCountry pl (Storage.initial countries version disk) k1
      = some s0 ∧ s0.m_queue = [k1] := ⟨_, hrun, rfl⟩
  obtain ⟨s1, h1, hq1⟩ := DownloadCountries_on_nonempty pl ks s0
    (by rw [hq0]; simp) hnd.2
    (by
      intro x hx
      rw [hq0, List.mem_singleton]
      exact fun hxk => hnd.1 (hxk ▸ hx))
  have hq : s1.m_queue = k1 :: ks := by
    rw [hq1, hq0]; rfl
  refine ⟨s1, ?_, hq, CountryStatus_head pl s1 k1 ks hq, ?_, ?_⟩
  · rw [DownloadCountries, hs0]; exact h1
  · intro k hk
    exact CountryStatus_tail pl s1 k1 k ks hq hk (fun h => hnd.1 (h ▸ hk))
  · intro k
    rw [CountryStatus_downloading_iff, hq]
    simp [eq_comm]

theorem C5_queue_fifo_witness :
    ∃ s1, DownloadCountries Example.platform (Storage.initial Example.countries 1 [])
        [Example.Alps, Example.Balkans, Example.Carpathians] = some s1 ∧
      s1.m_queue = [Example.Alps, Example.Balkans, Example.Carpathians] ∧
      CountryStatus Example.platform s1 Example.Alps = some TStatus.EDownloading ∧
      (∀ k ∈ [Example.Balkans, Example.Carpathians],
        CountryStatus Example.platform s1 k = some TStatus.EInQueue) ∧
      (∀ k, CountryStatus Example.platform s1 k = some TStatus.EDownloading ↔
        k = Example.Alps) :=
  C5_queue_fifo Example.platform Example.countries 1 [] Example.Alps
    [Example.Balkans, Example.Carpathians]
    ⟨"Alps", "", [⟨"Alps", 1000⟩], RectD.rect 0 0 1 1⟩
    (by decide) rfl ⟨⟨"Alps", 1000⟩, by decide, by decide⟩

/-! ## Failed completion (C6, C7) -/

/-- C6: in a state with queue `h :: rs` (no duplicates, so `h` is not among
`rs`) where no queued key has all its files on disk, a completion with status
EFailed removes `h` from the queue, inserts it into the failed set and leaves
`rs` in order; `h` is then reported DownloadFailed and, when `rs` is not empty,
its first element is reported Downloading; a following `DownloadCountry h`
then reports `h` InQueue and takes it out of the failed set. -/
theorem C6_failed_completion_then_retry (pl : Platform) (s : Storage) (request : HttpRequest)
    (h : TIndex) (rs : List TIndex)
    (hq : s.m_queue = h :: rs)
    (hnodup : h ∉ rs)
    (hmissing : ∀ k ∈ h :: rs, ∃ c, CountryByIndex s k = some c ∧
      ∃ f ∈ c.m_files, IsFileDownloaded pl s.disk f = false)
    (hfail : request.Status = StatusT.EFailed) :
    ∃ s1, OnMapDownloadFinished pl s request = some s1 ∧
      s1.m_queue = rs ∧
      s1.m_failedCountries = insert h s.m_failedCountries ∧
      CountryStatus pl s1 h = some TStatus.EDownloadFailed ∧
      (∀ r1 rest, rs = r1 :: rest →
        CountryStatus pl s1 r1 = some TStatus.EDownloading ∧
        ∃ s2, DownloadCountry pl s1 h = some s2 ∧
          CountryStatus pl s2 h = some TStatus.EInQueue ∧
          h ∉ s2.m_failedCountries) := by
  have hrun := OnMapDownloadFinished_failed pl s request h rs hq hfail
  cases hrs : rs with
  | nil =>
    subst hrs
    have hloop : DownloadNextCountryFromQueue pl
        { NotifyStatusChanged
            { s with m_queue := [], m_failedCountries := insert h s.m_failedCountries } h
          with m_request := none } =
        some { NotifyStatusChanged
            { s with m_queue := [], m_failedCountries := insert h s.m_failedCountries } h
          with m_request := none, m_queue := [] } := by
      simp only [DownloadNextCountryFromQueue, NotifyStatusChanged,
        DownloadNextCountryFromQueue.loop]
    refine ⟨_, hrun.trans hloop, rfl, rfl, ?_, ?_⟩
    · exact CountryStatus_failed pl _ h (by simp) (by simp [NotifyStatusChanged])
    · intro r1 rest hne; exact absurd hne (by simp)
  | cons r1 rest =>
    subst hrs
    obtain ⟨c, hc, hmiss⟩ := hmissing r1 (by simp)
    obtain ⟨it, hfind⟩ := exists_first_missing pl s.disk _ hmiss
    have hloop := loop_stop pl
      { NotifyStatusChanged
          { s with m_queue := r1 :: rest, m_failedCountries := insert h s.m_failedCountries } h
        with m_request := none } r1 rest c it hc hfind
    have hne : h ≠ r1 := fun e => hnodup (e ▸ List.mem_cons_self _ _)
    refine ⟨_, hrun.trans hloop, rfl, rfl, ?_, ?_⟩
    · exact CountryStatus_failed pl _ h hnodup (by simp [NotifyStatusChanged, emit])
    · intro r1' rest' heq
      cases heq
      refine ⟨CountryStatus_head pl _ r1 rest rfl, ?_⟩
      refine ⟨_, DownloadCountry_on_nonempty pl _ h (by simp [NotifyStatusChanged, emit]) hnodup,
        ?_, ?_⟩
      · exact CountryStatus_tail pl _ r1 h (rest ++ [h]) rfl (by simp) (Ne.symm hne)
      · simp [NotifyStatusChanged, emit]

theorem C6_failed_completion_then_retry_witness :
    ∃ s1, OnMapDownloadFinished Example.platform Example.twoQueued
        ⟨StatusT.EFailed, "", (0, 0)⟩ = some s1 ∧
      s1.m_queue = [Example.Balkans] ∧
      s1.m_failedCountries = insert Example.Alps Example.twoQueued.m_failedCountries ∧
      CountryStatus Example.platform s1 Example.Alps = some TStatus.EDownloadFailed ∧
      (∀ r1 rest, [Example.Balkans] = r1 :: rest →
        CountryStatus Example.platform s1 r1 = some TStatus.EDownloading ∧
        ∃ s2, DownloadCountry Example.platform s1 Example.Alps = some s2 ∧
          CountryStatus Example.platform s2 Example.Alps = some TStatus.EInQueue ∧
          Example.Alps ∉ s2.m_failedCountries) :=
  C6_failed_completion_then_retry Example.platform Example.twoQueued
    ⟨StatusT.EFailed, "", (0, 0)⟩ Example.Alps [Example.Balkans] rfl (by decide)
    (by decide) rfl

/-- C7: the code at the failing input.  Alps (1000 bytes) and Balkans (2000
bytes) are enqueued on a fresh object, then the download of Alps fails.
Balkans is the new head and is reported Downloading, its remote size is 2000,
yet the stored progress pair is still `(0, 1000)`, the pair of Alps. -/
theorem C7_failed_completion_keeps_progress :
    ∃ s0 s1, DownloadCountries Example.platform (Example.fresh [])
        [Example.Alps, Example.Balkans] = some s0 ∧
      s0.m_countryProgress = (0, 1000) ∧
      OnMapDownloadFinished Example.platform s0 ⟨StatusT.EFailed, "", (0, 0)⟩ = some s1 ∧
      s1.m_queue = [Example.Balkans] ∧
      CountryStatus Example.platform s1 Example.Balkans = some TStatus.EDownloading ∧
      CountrySizeInBytes Example.platform s1 Example.Balkans = some (0, 2000) ∧
      s1.m_countryProgress = (0, 1000) ∧
      s1.m_countryProgress ≠ (0, 2000) := by
  refine ⟨_, _, rfl, by decide, rfl, ?_⟩
  decide

/-! ## Successful completion (C8) -/

/-- C8, as stated, fails in its last part: Alps, Balkans and Carpathians are
enqueued on a fresh object that already has the Balkans file on disk, the Alps
file arrives and its download completes.  The queue before the completion is
`[Alps, Balkans, Carpathians]`, so `r1` is Balkans with remote size 2000, but
the loop also pops Balkans and the progress pair ends as `(0, 3000)`. -/
theorem C8_counterexample :
    ∃ s0 s1, DownloadCountries Example.platform (Example.fresh ["/w/Balkans.mwm"])
        [Example.Alps, Example.Balkans, Example.Carpathians] = some s0 ∧
      s0.m_queue = [Example.Alps, Example.Balkans, Example.Carpathians] ∧
      OnMapDownloadFinished Example.platform (fileArrives s0 "/w/Alps.mwm")
        ⟨StatusT.ECompleted, "/w/Alps.mwm", (1000, 1000)⟩ = some s1 ∧
      CountrySizeInBytes Example.platform s1 Example.Alps = some (1000, 1000) ∧
      CountrySizeInBytes Example.platform s1 Example.Balkans = some (2000, 2000) ∧
      s1.m_countryProgress = (0, 3000) ∧
      s1.m_countryProgress ≠ (0, 2000) := by
  refine ⟨_, _, rfl, by decide, rfl, ?_⟩
  decide

/-- C8 (amended): in a state with queue `h :: rs` (no duplicates, disjoint from
the failed set, every queued key resolving in the catalog), a successful
completion after which all files of `h` are on disk calls the activation
callback exactly once, with the file name taken from the request data (the
text after its last slash or backslash, or the whole text if it has neither),
while `h` is still the queue head; every later call is made with `h` already
popped.  On return `h` is not in the queue, the failed set or the indexing
set, `CountryStatus h` is OnDisk when the remote size of `h` is non-zero, the
queue is empty when `rs` is, and when the first element `r1` of `rs` has a
file not yet downloaded the queue is `rs` and the progress pair is
`(0, remoteSize r1)`. -/
theorem C8_successful_completion (pl : Platform) (s : Storage) (request : HttpRequest)
    (h : TIndex) (rs : List TIndex) (c : Country)
    (hq : s.m_queue = h :: rs)
    (hnodup : h ∉ rs)
    (hfailed : h ∉ s.m_failedCountries)
    (hc : CountryByIndex s h = some c)
    (hall : c.m_files.all (IsFileDownloaded pl s.disk) = true)
    (hres : ∀ k ∈ rs, ∃ n, CountryByIndex s k = some n)
    (hok : request.Status = StatusT.ECompleted) :
    ∃ s1 tail, OnMapDownloadFinished pl s request = some s1 ∧
      s1.log = s.log ++ changeCalls s.m_observers h (h :: rs) ++
        [Event.mk (Effect.addMap (fileFromData request.Data)) (h :: rs),
         Event.mk (Effect.updateRect (pl.LoadMapHeaderBounds (fileFromData request.Data)))
           (h :: rs)] ++ tail ∧
      (∀ e ∈ tail, e.queue <:+ rs ∧ ∀ f, e.effect ≠ Effect.addMap f) ∧
      ((∀ ch ∈ request.Data.toList, ch ∉ ['/', '\\']) →
        fileFromData request.Data = request.Data) ∧
      (∀ pre post sep, request.Data.toList = pre ++ sep :: post → sep ∈ ['/', '\\'] →
        (∀ ch ∈ post, ch ∉ ['/', '\\']) → fileFromData request.Data = String.mk post) ∧
      h ∉ s1.m_queue ∧
      h ∉ s1.m_failedCountries ∧
      h ∉ s1.m_indexGeneration ∧
      (c.RemoteSize ≠ 0 → CountryStatus pl s1 h = some TStatus.EOnDisk) ∧
      (rs = [] → s1.m_queue = []) ∧
      (∀ r1 rest c1, rs = r1 :: rest → CountryByIndex s r1 = some c1 →
        (∃ f ∈ c1.m_files, IsFileDownloaded pl s.disk f = false) →
        s1.m_queue = rs ∧ s1.m_countryProgress = (0, ((c1.Size pl s.disk).2 : Int))) := by
  have hrun := OnMapDownloadFinished_completed pl s request h rs c hq (by simp [hok]) hc
  obtain ⟨s0, hs0, h0q, h0c, h0d, h0f, h0i, h0o, h0l⟩ : ∃ s0 : Storage,
      (if (c.Size pl s.disk).2 ≠ 0 then
        { s with m_countryProgress := (((c.Size pl s.disk).1 : Int), s.m_countryProgress.2) }
       else s) = s0 ∧ s0.m_queue = s.m_queue ∧ s0.m_countries = s.m_countries ∧
      s0.disk = s.disk ∧ s0.m_failedCountries = s.m_failedCountries ∧
      s0.m_indexGeneration = s.m_indexGeneration ∧ s0.m_observers = s.m_observers ∧
      s0.log = s.log := by
    split_ifs
    · exact ⟨_, rfl, rfl, rfl, rfl, rfl, rfl, rfl, rfl⟩
    · exact ⟨_, rfl, rfl, rfl, rfl, rfl, rfl, rfl, rfl⟩
  rw [hs0] at hrun
  have hby : ∀ k, CountryByIndex s0 k = CountryByIndex s k :=
    fun k => CountryByIndex_of_countries s0 s k h0c
  obtain ⟨s1, tail, hadv, hlog, htail, hsuf, hf, hi, hd, hcs, hnext⟩ :=
    activate_then_advance pl s0 h rs c (fileFromData request.Data) (h0q.trans hq)
      ((hby h).trans hc) (by rw [h0d]; exact hall) (fun k hk => by rw [hby k]; exact hres k hk)
  have hnotq : h ∉ s1.m_queue := fun hmem => hnodup (hsuf.subset hmem)
  have hnotf : h ∉ s1.m_failedCountries := by rw [hf, h0f]; exact hfailed
  have hnoti : h ∉ s1.m_indexGeneration := by rw [hi]; simp
  refine ⟨s1, tail, hrun.trans hadv, ?_, htail,
    fileFromData_whole request.Data,
    fun pre post sep => fileFromData_after_last request.Data pre post sep,
    hnotq, hnotf, hnoti, ?_, ?_, ?_⟩
  · rw [hlog, h0l, h0o]
  · intro hsize
    refine CountryStatus_onDisk pl s1 h c hnotq hnotf hnoti ?_ ?_ hsize
    · rw [CountryByIndex_of_countries s1 s h (hcs.trans h0c)]; exact hc
    · rw [hd, h0d]; exact hall
  · intro hrs
    rw [hrs] at hsuf
    exact List.eq_nil_of_suffix_nil hsuf
  · intro r1 rest c1 heq hc1 hmiss
    have := hnext r1 rest c1 heq ((hby r1).trans hc1) (by rw [h0d]; exact hmiss)
    rw [h0d] at this
    exact this

theorem C8_successful_completion_witness :
    ∃ s1 tail, OnMapDownloadFinished Example.platform
        (fileArrives Example.twoQueued "/w/Alps.mwm")
        ⟨StatusT.ECompleted, "/w/Alps.mwm", (1000, 1000)⟩ = some s1 ∧
      s1.log = [] ++ changeCalls [⟨1⟩] Example.Alps [Example.Alps, Example.Balkans] ++
        [Event.mk (Effect.addMap (fileFromData "/w/Alps.mwm")) [Example.Alps, Example.Balkans],
         Event.mk (Effect.updateRect (Example.platform.LoadMapHeaderBounds
           (fileFromData "/w/Alps.mwm"))) [Example.Alps, Example.Balkans]] ++ tail ∧
      (∀ e ∈ tail, e.queue <:+ [Example.Balkans] ∧ ∀ f, e.effect ≠ Effect.addMap f) ∧
      ((∀ ch ∈ "/w/Alps.mwm".toList, ch ∉ ['/', '\\']) →
        fileFromData "/w/Alps.mwm" = "/w/Alps.mwm") ∧
      (∀ pre post sep, "/w/Alps.mwm".toList = pre ++ sep :: post → sep ∈ ['/', '\\'] →
        (∀ ch ∈ post, ch ∉ ['/', '\\']) → fileFromData "/w/Alps.mwm" = String.mk post) ∧
      Example.Alps ∉ s1.m_queue ∧
      Example.Alps ∉ s1.m_failedCountries ∧
      Example.Alps ∉ s1.m_indexGeneration ∧
      ((1000 : Nat) ≠ 0 → CountryStatus Example.platform s1 Example.Alps = some TStatus.EOnDisk) ∧
      ([Example.Balkans] = [] → s1.m_queue = []) ∧
      (∀ r1 rest c1, [Example.Balkans] = r1 :: rest →
        CountryByIndex (fileArrives Example.twoQueued "/w/Alps.mwm") r1 = some c1 →
        (∃ f ∈ c1.m_files, IsFileDownloaded Example.platform ["/w/Alps.mwm"] f = false) →
        s1.m_queue = [Example.Balkans] ∧ s1.m_countryProgress =
          (0, ((c1.Size Example.platform ["/w/Alps.mwm"]).2 : Int))) :=
  C8_successful_completion Example.platform
    (fileArrives Example.twoQueued "/w/Alps.mwm")
    ⟨StatusT.ECompleted, "/w/Alps.mwm", (1000, 1000)⟩ Example.Alps [Example.Balkans]
    ⟨"Alps", "", [⟨"Alps", 1000⟩], RectD.rect 0 0 1 1⟩
    rfl (by decide) (by decide) rfl (by decide)
    (fun k hk => by
      rw [List.mem_singleton] at hk
      subst hk
      exact ⟨⟨"Balkans", "", [⟨"Balkans", 2000⟩], RectD.rect 0 0 1 1⟩, rfl⟩)
    rfl

/-! ## Cancellation (C9, C10) -/

/-- C9: in a state with queue `a :: b :: rest` (no duplicates) where `b` has a
file not yet downloaded, `DeleteCountry a` removes `a` from the queue, sets the
progress pair to `(0, remoteSize b)`, replaces the outstanding request by a
request for a missing file of `b` (the only request issued), calls the
deactivation callback for each file of `a` in order, deletes the files and
notifies; afterwards `b` is reported Downloading and `a` is not queued. -/
theorem C9_cancel_head_advances (pl : Platform) (s : Storage) (a b : TIndex)
    (rest : List TIndex) (ca cb : Country)
    (hq : s.m_queue = a :: b :: rest)
    (hnodup : a ∉ b :: rest)
    (hca : CountryByIndex s a = some ca) (hcb : CountryByIndex s b = some cb)
    (hmiss : ∃ f ∈ cb.m_files, IsFileDownloaded pl s.disk f = false) :
    ∃ s1 it, DeleteCountry pl s a = some s1 ∧
      it ∈ cb.m_files ∧ IsFileDownloaded pl s.disk it = false ∧
      s1.m_request = some (PendingRequest.PostJson pl.MetaServerUrl it.m_fileName) ∧
      s1.m_queue = b :: rest ∧
      a ∉ s1.m_queue ∧
      s1.m_countryProgress = (0, ((cb.Size pl s.disk).2 : Int)) ∧
      s1.log = s.log ++
        Event.mk (Effect.PostJson pl.MetaServerUrl it.m_fileName) (b :: rest) ::
          changeCalls s.m_observers b (b :: rest) ++
        removeCalls pl ca.m_files (b :: rest) ++
        deleteCalls pl ca.m_files (b :: rest) ++
        changeCalls s.m_observers a (b :: rest) ∧
      CountryStatus pl s1 b = some TStatus.EDownloading := by
  obtain ⟨it, hfind⟩ := exists_first_missing pl s.disk _ hmiss
  have hrun := DeleteCountry_head pl s a b rest ca cb it hq hca hcb hfind
  have hit : IsFileDownloaded pl s.disk it = false := by
    have := List.find?_some hfind
    simpa using this
  refine ⟨_, it, hrun, List.mem_of_find?_eq_some hfind, hit, ?_, ?_, ?_, ?_, ?_, ?_⟩
  · rw [DeactivateAndDeleteCountry_eq]; rfl
  · rw [DeactivateAndDeleteCountry_eq]; rfl
  · rw [DeactivateAndDeleteCountry_eq]; exact hnodup
  · rw [DeactivateAndDeleteCountry_eq]; rfl
  · rw [DeactivateAndDeleteCountry_eq]
    simp [NotifyStatusChanged, emit, changeCalls]
  · refine CountryStatus_head pl _ b rest ?_
    rw [DeactivateAndDeleteCountry_eq]; rfl

theorem C9_cancel_head_advances_witness :
    ∃ s1 it, DeleteCountry Example.platform Example.twoQueued Example.Alps = some s1 ∧
      it ∈ [(⟨"Balkans", 2000⟩ : CountryFile)] ∧
      IsFileDownloaded Example.platform [] it = false ∧
      s1.m_request = some (PendingRequest.PostJson "http://meta/" it.m_fileName) ∧
      s1.m_queue = [Example.Balkans] ∧
      Example.Alps ∉ s1.m_queue ∧
      s1.m_countryProgress = (0, 2000) ∧
      s1.log = [] ++
        Event.mk (Effect.PostJson "http://meta/" it.m_fileName) [Example.Balkans] ::
          changeCalls [⟨1⟩] Example.Balkans [Example.Balkans] ++
        removeCalls Example.platform [⟨"Alps", 1000⟩] [Example.Balkans] ++
        deleteCalls Example.platform [⟨"Alps", 1000⟩] [Example.Balkans] ++
        changeCalls [⟨1⟩] Example.Alps [Example.Balkans] ∧
      CountryStatus Example.platform s1 Example.Balkans = some TStatus.EDownloading :=
  C9_cancel_head_advances Example.platform Example.twoQueued Example.Alps Example.Balkans []
    ⟨"Alps", "", [⟨"Alps", 1000⟩], RectD.rect 0 0 1 1⟩
    ⟨"Balkans", "", [⟨"Balkans", 2000⟩], RectD.rect 0 0 1 1⟩
    rfl (by decide) rfl rfl ⟨⟨"Balkans", 2000⟩, by decide, by decide⟩

/-- C10: for a key that is in the queue but not at its head (and resolves in
the catalog), `DeleteCountry` removes exactly the first occurrence of that key
from the queue, keeps the head and the order of all other keys, leaves the
progress pair, the outstanding request and the failed set unchanged, and makes
no call other than the deactivation and deletion of the country's files and
the status-change notification for the key. -/
theorem C10_cancel_interior_frame (pl : Platform) (s : Storage) (key : TIndex) (c : Country)
    (hmem : key ∈ s.m_queue) (hhead : s.m_queue.head? ≠ some key)
    (hc : CountryByIndex s key = some c) :
    ∃ s1 pre post, DeleteCountry pl s key = some s1 ∧
      s.m_queue = pre ++ key :: post ∧ key ∉ pre ∧
      s1.m_queue = pre ++ post ∧
      s1.m_queue.head? = s.m_queue.head? ∧
      s1.m_countryProgress = s.m_countryProgress ∧
      s1.m_request = s.m_request ∧
      s1.m_failedCountries = s.m_failedCountries ∧
      s1.log = s.log ++ removeCalls pl c.m_files (pre ++ post) ++
        deleteCalls pl c.m_files (pre ++ post) ++
        changeCalls s.m_observers key (pre ++ post) := by
  obtain ⟨pre, post, hq, hpre⟩ := List.eq_append_cons_of_mem hmem
  have hne : pre ≠ [] := by
    intro hnil
    apply hhead
    rw [hq, hnil]; rfl
  have hrun := DeleteCountry_interior pl s key c pre post hq hpre hne hc
  refine ⟨_, pre, post, hrun, hq, hpre, ?_, ?_, ?_, ?_, ?_, ?_⟩
  · rw [DeactivateAndDeleteCountry_eq]; rfl
  · rw [DeactivateAndDeleteCountry_eq, hq]
    cases pre with
    | nil => exact absurd rfl hne
    | cons x xs => rfl
  · rw [DeactivateAndDeleteCountry_eq]; rfl
  · rw [DeactivateAndDeleteCountry_eq]; rfl
  · rw [DeactivateAndDeleteCountry_eq]; rfl
  · rw [DeactivateAndDeleteCountry_eq]
    simp [NotifyStatusChanged, changeCalls]

theorem C10_cancel_interior_frame_witness :
    ∃ s1 pre post, DeleteCountry Example.platform Example.twoQueued Example.Balkans = some s1 ∧
      Example.twoQueued.m_queue = pre ++ Example.Balkans :: post ∧ Example.Balkans ∉ pre ∧
      s1.m_queue = pre ++ post ∧
      s1.m_queue.head? = Example.twoQueued.m_queue.head? ∧
      s1.m_countryProgress = Example.twoQueued.m_countryProgress ∧
      s1.m_request = Example.twoQueued.m_request ∧
      s1.m_failedCountries = Example.twoQueued.m_failedCountries ∧
      s1.log = Example.twoQueued.log ++
        removeCalls Example.platform [⟨"Balkans", 2000⟩] (pre ++ post) ++
        deleteCalls Example.platform [⟨"Balkans", 2000⟩] (pre ++ post) ++
        changeCalls Example.twoQueued.m_observers Example.Balkans (pre ++ post) :=
  C10_cancel_interior_frame Example.platform Example.twoQueued Example.Balkans
    ⟨"Balkans", "", [⟨"Balkans", 2000⟩], RectD.rect 0 0 1 1⟩ (by decide) (by decide) rfl

/-! ## Index resolution (C12, C13) -/

/-- C12: for every tree and every key whose levels are each INVALID or
non-negative, `NodeFromIndex` returns the node addressed by the longest prefix
of (group, country, region) whose levels are all valid and in range: the root
if the group is INVALID or past the end; else the group node if the country is
INVALID or past the end of that group; else the (group, country) node if the
region is INVALID or past the end of that country; else the leaf. -/
theorem C12_NodeFromIndex_deepest_ancestor (root : CountriesContainerT) (index : TIndex)
    (hg : index.m_group = TIndex.INVALID ∨ 0 ≤ index.m_group)
    (hc : index.m_country = TIndex.INVALID ∨ 0 ≤ index.m_country)
    (hr : index.m_region = TIndex.INVALID ∨ 0 ≤ index.m_region) :
    NodeFromIndex root index =
        some (resolvePrefix root [index.m_group, index.m_country, index.m_region]) ∧
      ((index.m_group = TIndex.INVALID ∨ index.m_group ≥ (root.SiblingsCount : Int)) →
        NodeFromIndex root index = some root) ∧
      (∀ g, ¬ (index.m_group = TIndex.INVALID ∨ index.m_group ≥ (root.SiblingsCount : Int)) →
        root.Siblings.get? index.m_group.toNat = some g →
        (index.m_country = TIndex.INVALID ∨ index.m_country ≥ (g.SiblingsCount : Int)) →
        NodeFromIndex root index = some g) ∧
      (∀ g c, ¬ (index.m_group = TIndex.INVALID ∨ index.m_group ≥ (root.SiblingsCount : Int)) →
        root.Siblings.get? index.m_group.toNat = some g →
        ¬ (index.m_country = TIndex.INVALID ∨ index.m_country ≥ (g.SiblingsCount : Int)) →
        g.Siblings.get? index.m_country.toNat = some c →
        (index.m_region = TIndex.INVALID ∨ index.m_region ≥ (c.SiblingsCount : Int)) →
        NodeFromIndex root index = some c) ∧
      (∀ g c r, ¬ (index.m_group = TIndex.INVALID ∨ index.m_group ≥ (root.SiblingsCount : Int)) →
        root.Siblings.get? index.m_group.toNat = some g →
        ¬ (index.m_country = TIndex.INVALID ∨ index.m_country ≥ (g.SiblingsCount : Int)) →
        g.Siblings.get? index.m_country.toNat = some c →
        ¬ (index.m_region = TIndex.INVALID ∨ index.m_region ≥ (c.SiblingsCount : Int)) →
        c.Siblings.get? index.m_region.toNat = some r →
        NodeFromIndex root index = some r) := by
  refine ⟨?_, ?_, ?_, ?_, ?_⟩
  · unfold NodeFromIndex
    split_ifs with h1
    · rw [resolvePrefix_stop root _ _ h1]
    · obtain ⟨g, hgc, _, hgp⟩ := resolvePrefix_step root index.m_group
        [index.m_country, index.m_region] hg h1
      rw [hgc, hgp]
      simp only
      split_ifs with h2
      · rw [resolvePrefix_stop g _ _ h2]
      · obtain ⟨c, hcc, _, hcp⟩ := resolvePrefix_step g index.m_country [index.m_region] hc h2
        rw [hcc, hcp]
        simp only
        split_ifs with h3
        · rw [resolvePrefix_stop c _ _ h3]
        · obtain ⟨r, hrc, _, hrp⟩ := resolvePrefix_step c index.m_region [] hr h3
          rw [hrc, hrp]
          rfl
  · intro h1
    unfold NodeFromIndex
    rw [if_pos h1]
  · intro g h1 hget h2
    obtain ⟨g1, hgc, hgg, _⟩ := resolvePrefix_step root index.m_group [] hg h1
    have hgeq : g1 = g := Option.some.inj (hgg.symm.trans hget)
    subst hgeq
    unfold NodeFromIndex
    rw [if_neg h1, hgc]
    simp only
    rw [if_pos h2]
  · intro g c h1 hget h2 hget2 h3
    obtain ⟨g1, hgc, hgg, _⟩ := resolvePrefix_step root index.m_group [] hg h1
    have hgeq : g1 = g := Option.some.inj (hgg.symm.trans hget)
    subst hgeq
    obtain ⟨c1, hcc, hcg, _⟩ := resolvePrefix_step g1 index.m_country [] hc h2
    have hceq : c1 = c := Option.some.inj (hcg.symm.trans hget2)
    subst hceq
    unfold NodeFromIndex
    rw [if_neg h1, hgc]
    simp only
    rw [if_neg h2, hcc]
    simp only
    rw [if_pos h3]
  · intro g c r h1 hget h2 hget2 h3 hget3
    obtain ⟨g1, hgc, hgg, _⟩ := resolvePrefix_step root index.m_group [] hg h1
    have hgeq : g1 = g := Option.some.inj (hgg.symm.trans hget)
    subst hgeq
    obtain ⟨c1, hcc, hcg, _⟩ := resolvePrefix_step g1 index.m_country [] hc h2
    have hceq : c1 = c := Option.some.inj (hcg.symm.trans hget2)
    subst hceq
    obtain ⟨r1, hrc, hrg, _⟩ := resolvePrefix_step c1 index.m_region [] hr h3
    have hreq : r1 = r := Option.some.inj (hrg.symm.trans hget3)
    subst hreq
    unfold NodeFromIndex
    rw [if_neg h1, hgc]
    simp only
    rw [if_neg h2, hcc]
    simp only
    rw [if_neg h3, hrc]

theorem C12_NodeFromIndex_deepest_ancestor_witness :
    NodeFromIndex Example.countries ⟨0, 0, 5⟩ =
        some (resolvePrefix Example.countries [0, 0, 5]) ∧
      (resolvePrefix Example.countries [0, 0, 5]).Value.m_name = "Mountains" :=
  ⟨(C12_NodeFromIndex_deepest_ancestor Example.countries ⟨0, 0, 5⟩
      (by decide) (by decide) (by decide)).1, by decide⟩

/-- C13: the code at the failing input.  With the group level -2 the first
guard of `NodeFromIndex` lets the key through (it is neither INVALID nor past
the end), and the child access `root[-2]` that follows is outside
`[0, SiblingsCount)`: the lookup has no result, and neither has any operation
that resolves the key. -/
theorem C13_negative_level_out_of_bounds :
    ¬ ((-2 : Int) = TIndex.INVALID ∨ (-2 : Int) ≥ (Example.countries.SiblingsCount : Int)) ∧
      ¬ ((0 : Int) ≤ -2 ∧ (-2 : Int) < (Example.countries.SiblingsCount : Int)) ∧
      (Example.countries.child (-2)).isSome = false ∧
      (NodeFromIndex Example.countries ⟨-2, 0, 0⟩).isSome = false ∧
      CountryByIndex (Example.fresh []) ⟨-2, 0, 0⟩ = none ∧
      CountryStatus Example.platform (Example.fresh []) ⟨-2, 0, 0⟩ = none := by
  decide

/-! ## Lookup by name (C14) -/

/-- C14: for every tree and name, `FindIndexByName` returns the key of the
first node in depth-first pre-order (groups, each group's countries, each
country's regions) whose name equals the name, with the levels below the node
INVALID, and it returns the key with all three levels INVALID if and only if
no node at depth 1 to 3 has that name. -/
theorem C14_FindIndexByName_first_match (s : Storage) (name : String) :
    FindIndexByName s name =
        (match (preorderEntries s.m_countries).find? (fun e => decide (e.2 = name)) with
         | some e => e.1
         | none => ⟨TIndex.INVALID, TIndex.INVALID, TIndex.INVALID⟩) ∧
      (FindIndexByName s name = ⟨TIndex.INVALID, TIndex.INVALID, TIndex.INVALID⟩ ↔
        ∀ e ∈ preorderEntries s.m_countries, e.2 ≠ name) := by
  have hfind : FindIndexByName s name =
      (match (preorderEntries s.m_countries).find? (fun e => decide (e.2 = name)) with
       | some e => e.1
       | none => ⟨TIndex.INVALID, TIndex.INVALID, TIndex.INVALID⟩) := by
    unfold FindIndexByName preorderEntries
    rw [groups_eq_find]
    cases (groupEntries s.m_countries.Siblings 0).find? (fun e => decide (e.2 = name)) with
    | none => rfl
    | some e => rfl
  refine ⟨hfind, ?_⟩
  rw [hfind]
  cases hres : (preorderEntries s.m_countries).find? (fun e => decide (e.2 = name)) with
  | none =>
    rw [List.find?_eq_none] at hres
    simp only [true_iff]
    intro e he
    simpa using hres e he
  | some e =>
    have hmem := List.mem_of_find?_eq_some hres
    have hname : e.2 = name := by simpa using List.find?_some hres
    have hgroup := groupEntries_group _ 0 e hmem
    constructor
    · intro heq
      simp only at heq
      rw [heq] at hgroup
      exact absurd hgroup (by decide)
    · intro hall
      exact absurd hname (hall e hmem)

/-! ## Observers (C16, C18) -/

/-- C16: `Unsubscribe` removes the registration with the given slot id (the
first one in the list) and leaves all other registrations present and in the
same order, so that a later notification makes the same calls, in the same
order, to the remaining observers; when no registration has that slot id the
list is unchanged; with pairwise distinct slot ids no registration with that
slot id is left; the queue, the failed set and the progress pair are
unchanged in every case. -/
theorem C16_Unsubscribe_frame (s : Storage) (slotId : Int) :
    ((∀ o ∈ s.m_observers, o.m_slotId ≠ slotId) →
        (Unsubscribe s slotId).m_observers = s.m_observers) ∧
      (∀ pre o post, s.m_observers = pre ++ o :: post → o.m_slotId = slotId →
        (∀ x ∈ pre, x.m_slotId ≠ slotId) →
        (Unsubscribe s slotId).m_observers = pre ++ post ∧
        ∀ index, (NotifyStatusChanged (Unsubscribe s slotId) index).log =
          s.log ++ changeCalls pre index s.m_queue ++ changeCalls post index s.m_queue) ∧
      ((s.m_observers.map CountryObservers.m_slotId).Nodup →
        ∀ x ∈ (Unsubscribe s slotId).m_observers, x.m_slotId ≠ slotId) ∧
      (∀ x ∈ (Unsubscribe s slotId).m_observers, x ∈ s.m_observers) ∧
      (Unsubscribe s slotId).m_queue = s.m_queue ∧
      (Unsubscribe s slotId).m_failedCountries = s.m_failedCountries ∧
      (Unsubscribe s slotId).m_countryProgress = s.m_countryProgress := by
  refine ⟨?_, ?_, ?_, ?_, rfl, rfl, rfl⟩
  · intro h
    exact Unsubscribe_loop_absent slotId _ h
  · intro pre o post hobs ho hpre
    have hl : (Unsubscribe s slotId).m_observers = pre ++ post := by
      unfold Unsubscribe
      simp only [hobs]
      exact Unsubscribe_loop_split slotId pre post o ho hpre
    refine ⟨hl, ?_⟩
    intro index
    unfold NotifyStatusChanged
    simp only [hl]
    simp [Unsubscribe, changeCalls]
  · intro hnodup
    exact Unsubscribe_loop_removes slotId _ hnodup
  · exact Unsubscribe_loop_subset slotId _

theorem C16_Unsubscribe_frame_witness :
    (Unsubscribe { Example.twoQueued with m_observers := [⟨1⟩, ⟨2⟩, ⟨3⟩] } 2).m_observers =
        [⟨1⟩] ++ [⟨3⟩] ∧
      ∀ index, (NotifyStatusChanged
          (Unsubscribe { Example.twoQueued with m_observers := [⟨1⟩, ⟨2⟩, ⟨3⟩] } 2) index).log =
        [] ++ changeCalls [⟨1⟩] index [Example.Alps, Example.Balkans] ++
          changeCalls [⟨3⟩] index [Example.Alps, Example.Balkans] :=
  (C16_Unsubscribe_frame { Example.twoQueued with m_observers := [⟨1⟩, ⟨2⟩, ⟨3⟩] } 2).2.1
    [⟨1⟩] ⟨2⟩ [⟨3⟩] rfl rfl (by decide)

/-- C18: in a state with a non-empty queue and at least one observer, a
progress callback carrying `bytesSoFar` calls the progress function of each
registered observer exactly once, in list order, with the queue head and the
pair `(bytesSoFar + progress.done, progress.total)`, and changes neither the
queue, the failed set, the indexing set, the observer list, the stored
progress pair nor the outstanding request. -/
theorem C18_OnMapDownloadProgress_reports (s : Storage) (request : HttpRequest)
    (front : TIndex) (rest : List TIndex)
    (hq : s.m_queue = front :: rest) (hobs : s.m_observers ≠ []) :
    (OnMapDownloadProgress s request).log = s.log ++
        progressCalls s.m_observers front
          (request.Progress.1 + s.m_countryProgress.1, s.m_countryProgress.2) s.m_queue ∧
      (OnMapDownloadProgress s request).m_queue = s.m_queue ∧
      (OnMapDownloadProgress s request).m_failedCountries = s.m_failedCountries ∧
      (OnMapDownloadProgress s request).m_indexGeneration = s.m_indexGeneration ∧
      (OnMapDownloadProgress s request).m_observers = s.m_observers ∧
      (OnMapDownloadProgress s request).m_countryProgress = s.m_countryProgress ∧
      (OnMapDownloadProgress s request).m_request = s.m_request := by
  have hrun : OnMapDownloadProgress s request = ReportProgress s front
      (request.Progress.1 + s.m_countryProgress.1, s.m_countryProgress.2) := by
    unfold OnMapDownloadProgress
    split
    · rename_i heq; rw [hq] at heq; exact absurd heq (by simp)
    · rename_i f r heq
      rw [hq] at heq
      cases heq
      rw [if_pos hobs]
  rw [hrun]
  exact ⟨rfl, rfl, rfl, rfl, rfl, rfl, rfl⟩

theorem C18_OnMapDownloadProgress_reports_witness :
    (OnMapDownloadProgress Example.twoQueued ⟨StatusT.EInProgress, "", (500, 1000)⟩).log =
      [Event.mk (Effect.progressFn 1 Example.Alps (500, 1000))
        [Example.Alps, Example.Balkans]] :=
  (C18_OnMapDownloadProgress_reports Example.twoQueued ⟨StatusT.EInProgress, "", (500, 1000)⟩
    Example.Alps [Example.Balkans] rfl (by decide)).1

/-! ## Deletion in every case (C11) -/

/-- C11: for a key that resolves in the catalog and a duplicate-free queue
whose keys resolve, `DeleteCountry` calls the deactivation callback exactly
once per backing file of the country, in file order, then deletes for each
file its partial download, its resume sidecar and the file itself, then makes
exactly one status-change call for the key per observer; whatever it calls
before that is a server-list request or a status-change call for another key,
whatever it calls after is a bounds update.  When the key is not in the queue
it calls nothing before and leaves the queue, the failed set, the indexing
set, the progress pair and the outstanding request unchanged. -/
theorem C11_DeleteCountry_effects (pl : Platform) (s : Storage) (key : TIndex) (c : Country)
    (hc : CountryByIndex s key = some c)
    (hnodup : s.m_queue.Nodup)
    (hres : ∀ k ∈ s.m_queue, ∃ n, CountryByIndex s k = some n) :
    ∃ s1 before after, DeleteCountry pl s key = some s1 ∧
      s1.log = s.log ++ before ++ removeCalls pl c.m_files s1.m_queue ++
        deleteCalls pl c.m_files s1.m_queue ++ changeCalls s.m_observers key s1.m_queue ++
        after ∧
      (∀ e ∈ before, (∃ url body, e.effect = Effect.PostJson url body) ∨
        ∃ slotId k, k ≠ key ∧ e.effect = Effect.changeCountryFn slotId k) ∧
      (∀ e ∈ after, ∃ r, e.effect = Effect.updateRect r) ∧
      (key ∉ s.m_queue →
        before = [] ∧
        s1.m_queue = s.m_queue ∧
        s1.m_failedCountries = s.m_failedCountries ∧
        s1.m_indexGeneration = s.m_indexGeneration ∧
        s1.m_countryProgress = s.m_countryProgress ∧
        s1.m_request = s.m_request) := by
  obtain ⟨s1, before, after, hrun, hlog, hbefore, hafter, hf, hi, _, _, hframe, _⟩ :=
    DeleteCountry_calls pl s key c hc hnodup hres
  refine ⟨s1, before, after, hrun, hlog, hbefore, hafter, ?_⟩
  intro hq
  obtain ⟨hb, hqq, hp, hr, _⟩ := hframe hq
  exact ⟨hb, hqq, hf, hi, hp, hr⟩

theorem C11_DeleteCountry_effects_witness :
    ∃ s1 before after,
      DeleteCountry Example.platform Example.twoQueued Example.Carpathians = some s1 ∧
      s1.log = Example.twoQueued.log ++ before ++
        removeCalls Example.platform [⟨"Carpathians", 3000⟩] s1.m_queue ++
        deleteCalls Example.platform [⟨"Carpathians", 3000⟩] s1.m_queue ++
        changeCalls Example.twoQueued.m_observers Example.Carpathians s1.m_queue ++ after ∧
      (∀ e ∈ before, (∃ url body, e.effect = Effect.PostJson url body) ∨
        ∃ slotId k, k ≠ Example.Carpathians ∧ e.effect = Effect.changeCountryFn slotId k) ∧
      (∀ e ∈ after, ∃ r, e.effect = Effect.updateRect r) ∧
      (Example.Carpathians ∉ Example.twoQueued.m_queue →
        before = [] ∧
        s1.m_queue = Example.twoQueued.m_queue ∧
        s1.m_failedCountries = Example.twoQueued.m_failedCountries ∧
        s1.m_indexGeneration = Example.twoQueued.m_indexGeneration ∧
        s1.m_countryProgress = Example.twoQueued.m_countryProgress ∧
        s1.m_request = Example.twoQueued.m_request) :=
  C11_DeleteCountry_effects Example.platform Example.twoQueued Example.Carpathians
    ⟨"Carpathians", "", [⟨"Carpathians", 3000⟩], RectD.rect 0 0 1 1⟩ rfl (by decide)
    (fun k hk => by
      have hk2 : k ∈ [Example.Alps, Example.Balkans] := hk
      simp only [List.mem_cons, List.mem_singleton, List.not_mem_nil, or_false] at hk2
      rcases hk2 with rfl | rfl <;> exact ⟨_, rfl⟩)

/-! ## Observer fan-out (C17) -/

/-- C17, as stated, fails for a successful completion: Alps is enqueued on a
fresh object with one observer (slot 1), its file arrives and the download
completes.  The completion makes two status-change calls for Alps to the
observer: one from `UpdateAfterSearchIndex`, one from the queue loop that pops
Alps. -/
theorem C17_counterexample :
    ∃ s0 s1, run Example.platform (Example.fresh [])
        [Call.download Example.Alps, Call.arrives "/w/Alps.mwm"] = some s0 ∧
      OnMapDownloadFinished Example.platform s0
        ⟨StatusT.ECompleted, "/w/Alps.mwm", (1000, 1000)⟩ = some s1 ∧
      s0.m_observers = [⟨1⟩] ∧
      s1.log.take s0.log.length = s0.log ∧
      changeSlotsFor Example.Alps (s1.log.drop s0.log.length) = [1, 1] := by
  refine ⟨_, _, rfl, rfl, ?_⟩
  decide

/-- C17 (amended): in a state with a duplicate-free queue whose keys resolve,
`DownloadCountry` of a key not yet queued, `DeleteCountry` and a failed
completion each make exactly one status-change call per observer, in list
order, for the key concerned (the key given, or the head that failed); a
successful completion makes exactly two per observer for the completed head,
one on activation and one from the queue loop. -/
theorem C17_status_change_fan_out (pl : Platform) (s : Storage)
    (hnodup : s.m_queue.Nodup)
    (hres : ∀ k ∈ s.m_queue, ∃ n, CountryByIndex s k = some n) :
    (∀ key c, key ∉ s.m_queue → CountryByIndex s key = some c →
        ∃ s1 new, DownloadCountry pl s key = some s1 ∧ s1.log = s.log ++ new ∧
          changeSlotsFor key new = s.m_observers.map CountryObservers.m_slotId) ∧
      (∀ key c, CountryByIndex s key = some c →
        ∃ s1 new, DeleteCountry pl s key = some s1 ∧ s1.log = s.log ++ new ∧
          changeSlotsFor key new = s.m_observers.map CountryObservers.m_slotId) ∧
      (∀ request h rs, s.m_queue = h :: rs → request.Status = StatusT.EFailed →
        ∃ s1 new, OnMapDownloadFinished pl s request = some s1 ∧ s1.log = s.log ++ new ∧
          changeSlotsFor h new = s.m_observers.map CountryObservers.m_slotId) ∧
      (∀ request h rs, s.m_queue = h :: rs → request.Status ≠ StatusT.EFailed →
        ∃ s1 new, OnMapDownloadFinished pl s request = some s1 ∧ s1.log = s.log ++ new ∧
          changeSlotsFor h new = s.m_observers.map CountryObservers.m_slotId ++
            s.m_observers.map CountryObservers.m_slotId) := by
  refine ⟨?_, ?_, ?_, ?_⟩
  · intro key c hkey hc
    cases hq : s.m_queue with
    | nil =>
      have hrun := DownloadCountry_on_empty_run pl s key c hq hc
      obtain ⟨s1, tail, hloop, hlog, hcount⟩ := loop_head_calls pl
        { s with m_failedCountries := s.m_failedCountries.erase key, m_queue := [key], m_countryProgress := (0, ((c.Size pl s.disk).2 : Int)) }
        key [] (by simp)
        (fun x hx => by
          rw [List.mem_singleton] at hx
          subst hx
          exact ⟨c, hc⟩)
      exact ⟨s1, tail, hrun.trans hloop, hlog, hcount⟩
    | cons a q =>
      have hrun := DownloadCountry_on_nonempty pl s key (by rw [hq]; simp) hkey
      refine ⟨_, changeCalls s.m_observers key (s.m_queue ++ [key]), hrun, rfl, ?_⟩
      exact changeSlotsFor_changeCalls_self _ _ _
  · intro key c hc
    obtain ⟨s1, before, after, hrun, hlog, hbefore, hafter, _⟩ :=
      DeleteCountry_calls pl s key c hc hnodup hres
    refine ⟨s1, before ++ removeCalls pl c.m_files s1.m_queue ++
      deleteCalls pl c.m_files s1.m_queue ++ changeCalls s.m_observers key s1.m_queue ++ after,
      hrun, by rw [hlog]; simp, ?_⟩
    have h1 : changeSlotsFor key before = [] := by
      apply changeSlotsFor_none
      intro e he slotId heq
      rcases hbefore e he with ⟨url, body, hp⟩ | ⟨sl, k, hk, hke⟩
      · rw [hp] at heq; exact absurd heq (by simp)
      · rw [hke] at heq
        injection heq with _ h2
        exact hk h2
    have h2 : changeSlotsFor key (removeCalls pl c.m_files s1.m_queue) = [] := by
      apply changeSlotsFor_none
      intro e he slotId heq
      obtain ⟨f, hf⟩ := removeCalls_effect pl _ _ e he
      rw [hf] at heq; exact absurd heq (by simp)
    have h3 : changeSlotsFor key (deleteCalls pl c.m_files s1.m_queue) = [] := by
      apply changeSlotsFor_none
      intro e he slotId heq
      obtain ⟨f, hf⟩ := deleteCalls_effect pl _ _ e he
      rw [hf] at heq; exact absurd heq (by simp)
    have h4 : changeSlotsFor key after = [] := by
      apply changeSlotsFor_none
      intro e he slotId heq
      obtain ⟨r, hr⟩ := hafter e he
      rw [hr] at heq; exact absurd heq (by simp)
    rw [changeSlotsFor_append, changeSlotsFor_append, changeSlotsFor_append,
      changeSlotsFor_append, h1, h2, h3, h4, changeSlotsFor_changeCalls_self]
    simp
  · intro request h rs hq hfail
    have hnd : h ∉ rs := by
      rw [hq] at hnodup; exact (List.nodup_cons.1 hnodup).1
    have hrun := OnMapDownloadFinished_failed pl s request h rs hq hfail
    obtain ⟨s1, tail, hloop, hlog, _, _, _, _, _, hnone⟩ := loop_calls_other pl rs
      { NotifyStatusChanged
          { s with m_queue := rs, m_failedCountries := insert h s.m_failedCountries } h
        with m_request := none } h
      (fun k hk => hres k (by rw [hq]; exact List.mem_cons_of_mem _ hk)) hnd
    refine ⟨s1, changeCalls s.m_observers h rs ++ tail, hrun.trans hloop, ?_, ?_⟩
    · rw [hlog]; simp [NotifyStatusChanged, changeCalls]
    · rw [changeSlotsFor_append, changeSlotsFor_changeCalls_self, hnone, List.append_nil]
  · intro request h rs hq hok
    have hnd : h ∉ rs := by
      rw [hq] at hnodup; exact (List.nodup_cons.1 hnodup).1
    obtain ⟨c, hc⟩ := hres h (by rw [hq]; exact List.mem_cons_self _ _)
    have hrun := OnMapDownloadFinished_completed pl s request h rs c hq hok hc
    obtain ⟨s0, hs0, h0q, h0c, h0o, h0l⟩ : ∃ s0 : Storage,
        (if (c.Size pl s.disk).2 ≠ 0 then
          { s with m_countryProgress := (((c.Size pl s.disk).1 : Int), s.m_countryProgress.2) }
         else s) = s0 ∧ s0.m_queue = s.m_queue ∧ s0.m_countries = s.m_countries ∧
        s0.m_observers = s.m_observers ∧ s0.log = s.log := by
      split_ifs
      · exact ⟨_, rfl, rfl, rfl, rfl, rfl⟩
      · exact ⟨_, rfl, rfl, rfl, rfl, rfl⟩
    rw [hs0] at hrun
    obtain ⟨s1, new, hadv, hlog, hcount⟩ := activate_then_advance_calls pl s0 h rs
      (fileFromData request.Data) (h0q.trans hq) hnd
      (fun k hk => by
        rw [CountryByIndex_of_countries s0 s k h0c]
        exact hres k (by rw [hq]; exact hk))
    exact ⟨s1, new, hrun.trans hadv, by rw [hlog, h0l], by rw [hcount, h0o]⟩

theorem C17_status_change_fan_out_witness :
    ∃ s1 new, OnMapDownloadFinished Example.platform
        (fileArrives Example.twoQueued "/w/Alps.mwm")
        ⟨StatusT.ECompleted, "/w/Alps.mwm", (1000, 1000)⟩ = some s1 ∧
      s1.log = (fileArrives Example.twoQueued "/w/Alps.mwm").log ++ new ∧
      changeSlotsFor Example.Alps new = [1] ++ [1] :=
  (C17_status_change_fan_out Example.platform (fileArrives Example.twoQueued "/w/Alps.mwm")
    (by decide)
    (fun k hk => by
      have hk2 : k ∈ [Example.Alps, Example.Balkans] := hk
      simp only [List.mem_cons, List.mem_singleton, List.not_mem_nil, or_false] at hk2
      rcases hk2 with rfl | rfl <;> exact ⟨_, rfl⟩)).2.2.2
    ⟨StatusT.ECompleted, "/w/Alps.mwm", (1000, 1000)⟩ Example.Alps [Example.Balkans] rfl
    (by decide)

/-! ## Slot ids (C15) -/

/-- C15: in every state reached from the initial state by any sequence of
steps, `Subscribe` returns one more than the number of `Subscribe` calls made
so far (so the first returns 1 and each returns exactly one more than the
previous one, whatever `Unsubscribe` calls or other steps lie in between), the
id returned differs from the slot id of every registration in the observer
list, and `Subscribe` appends the new registration and leaves the existing
ones, the queue, the failed set and the progress pair unchanged. -/
theorem C15_Subscribe_slot_ids (pl : Platform) (countries : CountriesContainerT)
    (version : Int) (disk : List String) (calls : List Call) (s : Storage)
    (hrun : run pl (Storage.initial countries version disk) calls = some s) :
    (Subscribe (Storage.initial countries version disk)).1 = 1 ∧
      (Subscribe s).1 = (subscribeCount calls : Int) + 1 ∧
      (∀ others s2, Call.subscribe ∉ others → run pl (Subscribe s).2 others = some s2 →
        (Subscribe s2).1 = (Subscribe s).1 + 1) ∧
      (∀ o ∈ s.m_observers, o.m_slotId ≠ (Subscribe s).1) ∧
      (Subscribe s).2.m_observers = s.m_observers ++ [⟨(Subscribe s).1⟩] ∧
      ((Subscribe s).2.m_observers.map CountryObservers.m_slotId).Nodup ∧
      (Subscribe s).2.m_queue = s.m_queue ∧
      (Subscribe s).2.m_failedCountries = s.m_failedCountries ∧
      (Subscribe s).2.m_countryProgress = s.m_countryProgress := by
  obtain ⟨hslot, hinv⟩ := run_slots pl calls _ s hrun
  have hord := hinv (SlotsInOrder_initial countries version disk)
  have hnext : SlotsInOrder (Subscribe s).2 :=
    (Call.apply_slots pl s (Subscribe s).2 Call.subscribe rfl).2 hord
  refine ⟨rfl, ?_, ?_, ?_, rfl, hnext.1, rfl, rfl, rfl⟩
  · show s.m_currentSlotId + 1 = _
    rw [hslot]
    simp [Storage.initial]
  · intro others s2 hnone h2
    obtain ⟨hs2, _⟩ := run_slots pl others _ s2 h2
    show s2.m_currentSlotId + 1 = _
    rw [hs2]
    unfold subscribeCount
    rw [List.count_eq_zero_of_not_mem hnone]
    simp [Subscribe]
  · intro o ho heq
    have := hord.2 o ho
    have h1 : (Subscribe s).1 = s.m_currentSlotId + 1 := rfl
    omega

theorem C15_Subscribe_slot_ids_witness :
    (Subscribe (Storage.initial Example.countries 1 [])).1 = 1 ∧
      (Subscribe (Unsubscribe (Subscribe (Subscribe
        (Storage.initial Example.countries 1 [])).2).2 1)).1 =
        (subscribeCount [Call.subscribe, Call.subscribe, Call.unsubscribe 1] : Int) + 1 :=
  ⟨(C15_Subscribe_slot_ids Example.platform Example.countries 1 []
      [Call.subscribe, Call.subscribe, Call.unsubscribe 1] _ rfl).1,
   (C15_Subscribe_slot_ids Example.platform Example.countries 1 []
      [Call.subscribe, Call.subscribe, Call.unsubscribe 1] _ rfl).2.1⟩

/-! ## Progress bounds (C19) -/

/-- C19: the code at the failing input.  One observer subscribes, Alps (1000
bytes) and Balkans (2000 bytes) are enqueued and the download of Alps fails.
Balkans is now the head, with remote size 2000, and a progress callback with
1500 bytes so far (within the remote size of Balkans) is reported to the
observer as `(1500, 1000)`: the total is still the size of Alps and the bytes
done exceed it. -/
theorem C19_progress_exceeds_total :
    ∃ s, run Example.platform (Storage.initial Example.countries 1 [])
        [Call.subscribe, Call.download Example.Alps, Call.download Example.Balkans,
         Call.finished ⟨StatusT.EFailed, "", (0, 0)⟩,
         Call.progress ⟨StatusT.EInProgress, "", (1500, 2000)⟩] = some s ∧
      s.m_queue = [Example.Balkans] ∧
      CountrySizeInBytes Example.platform s Example.Balkans = some (0, 2000) ∧
      s.log.getLast? = some (Event.mk
        (Effect.progressFn 1 Example.Balkans (1500, 1000)) [Example.Balkans]) ∧
      (1500 : Int) ≤ 2000 ∧ ¬ ((1500 : Int) ≤ 1000) := by
  refine ⟨_, rfl, ?_⟩
  decide

/-! ## Stale completions (C20) -/

/-- C21: in every state reached from the initial state by any sequence of
operations and callbacks (`DownloadCountry`, `DeleteCountry`, the three
network callbacks, and also `Subscribe`, `Unsubscribe` and file arrivals) the
download queue has no duplicate: every key occurs at most once in it. -/
theorem C21_queue_has_no_duplicate (pl : Platform) (countries : CountriesContainerT)
    (version : Int) (disk : List String) (calls : List Call) (s : Storage)
    (hrun : run pl (Storage.initial countries version disk) calls = some s) :
    s.m_queue.Nodup ∧ ∀ key, s.m_queue.count key ≤ 1 := by
  have hs := run_consistent pl calls _ s hrun (Consistent_initial countries version disk)
  exact ⟨hs.1, fun key => List.nodup_iff_count_le_one.1 hs.1 key⟩

theorem C21_queue_has_no_duplicate_witness :
    ∃ s, run Example.platform (Storage.initial Example.countries 1 [])
        [Call.download Example.Alps, Call.download Example.Balkans,
         Call.download Example.Alps, Call.delete Example.Carpathians,
         Call.download Example.Balkans] = some s ∧
      s.m_queue = [Example.Alps, Example.Balkans] ∧
      s.m_queue.Nodup ∧ ∀ key, s.m_queue.count key ≤ 1 :=
  ⟨_, rfl, rfl, C21_queue_has_no_duplicate Example.platform Example.countries 1 []
    [Call.download Example.Alps, Call.download Example.Balkans,
     Call.download Example.Alps, Call.delete Example.Carpathians,
     Call.download Example.Balkans] _ rfl⟩

/-- C22: in every state reached from the initial state by any sequence of
operations and callbacks, no queued key is in the failed set, and
`CountryStatus key` is DownloadFailed exactly when the key is in the failed
set. -/
theorem C22_queue_and_failed_disjoint (pl : Platform) (countries : CountriesContainerT)
    (version : Int) (disk : List String) (calls : List Call) (s : Storage)
    (hrun : run pl (Storage.initial countries version disk) calls = some s) :
    (∀ key ∈ s.m_queue, key ∉ s.m_failedCountries) ∧
      ∀ key, CountryStatus pl s key = some TStatus.EDownloadFailed ↔
        key ∈ s.m_failedCountries := by
  have hs := run_consistent pl calls _ s hrun (Consistent_initial countries version disk)
  refine ⟨hs.2.1, ?_⟩
  intro key
  constructor
  · intro h
    exact (CountryStatus_failed_imp pl s key h).2
  · intro h
    exact CountryStatus_failed pl s key (fun hq => hs.2.1 key hq h) h

theorem C22_queue_and_failed_disjoint_witness :
    ∃ s, run Example.platform (Storage.initial Example.countries 1 [])
        [Call.download Example.Alps, Call.download Example.Balkans,
         Call.finished ⟨StatusT.EFailed, "", (0, 0)⟩] = some s ∧
      s.m_queue = [Example.Balkans] ∧
      Example.Alps ∈ s.m_failedCountries ∧
      (∀ key ∈ s.m_queue, key ∉ s.m_failedCountries) ∧
      ∀ key, CountryStatus Example.platform s key = some TStatus.EDownloadFailed ↔
        key ∈ s.m_failedCountries :=
  ⟨_, rfl, rfl, by decide, C22_queue_and_failed_disjoint Example.platform Example.countries 1 []
    [Call.download Example.Alps, Call.download Example.Balkans,
     Call.finished ⟨StatusT.EFailed, "", (0, 0)⟩] _ rfl⟩

/-- C29: in every state reached from the initial state by any sequence of
operations and callbacks the indexing set is empty, so `CountryStatus` never
returns GeneratingIndex. -/
theorem C29_indexing_set_empty (pl : Platform) (countries : CountriesContainerT)
    (version : Int) (disk : List String) (calls : List Call) (s : Storage)
    (hrun : run pl (Storage.initial countries version disk) calls = some s) :
    s.m_indexGeneration = ∅ ∧
      ∀ key, CountryStatus pl s key ≠ some TStatus.EGeneratingIndex := by
  have hs := run_consistent pl calls _ s hrun (Consistent_initial countries version disk)
  refine ⟨hs.2.2.1, ?_⟩
  intro key h
  have := CountryStatus_generating_imp pl s key h
  rw [hs.2.2.1] at this
  exact absurd this (Finset.not_mem_empty key)

theorem C29_indexing_set_empty_witness :
    ∃ s, run Example.platform (Storage.initial Example.countries 1 [])
        [Call.subscribe, Call.download Example.Alps, Call.arrives "/w/Alps.mwm",
         Call.finished ⟨StatusT.ECompleted, "/w/Alps.mwm", (1000, 1000)⟩] = some s ∧
      CountryStatus Example.platform s Example.Alps = some TStatus.EOnDisk ∧
      s.m_indexGeneration = ∅ ∧
      ∀ key, CountryStatus Example.platform s key ≠ some TStatus.EGeneratingIndex :=
  ⟨_, rfl, by decide, C29_indexing_set_empty Example.platform Example.countries 1 []
    [Call.subscribe, Call.download Example.Alps, Call.arrives "/w/Alps.mwm",
     Call.finished ⟨StatusT.ECompleted, "/w/Alps.mwm", (1000, 1000)⟩] _ rfl⟩

/-! ## The request slot (C23) -/

/-- C23: with the request slot an optional value (so at most one request is
outstanding), in every state reached from the initial state by any sequence
of operations and callbacks a request is outstanding if and only if the queue
is not empty; in particular, when a completion or a cancellation returns with
an empty queue the slot is empty and no request was issued by that step. -/
theorem C23_request_iff_queue_nonempty (pl : Platform) (countries : CountriesContainerT)
    (version : Int) (disk : List String) (calls : List Call) (s : Storage)
    (hrun : run pl (Storage.initial countries version disk) calls = some s) :
    (s.m_request.isSome = true ↔ s.m_queue ≠ []) ∧
      (∀ request s1, OnMapDownloadFinished pl s request = some s1 → s1.m_queue = [] →
        s1.m_request = none ∧
        ∃ new, s1.log = s.log ++ new ∧ ∀ e ∈ new, e.effect.isRequest = false) ∧
      (∀ key s1, DeleteCountry pl s key = some s1 → s1.m_queue = [] →
        s1.m_request = none ∧
        ∃ new, s1.log = s.log ++ new ∧ ∀ e ∈ new, e.effect.isRequest = false) := by
  have hs := run_consistent pl calls _ s hrun (Consistent_initial countries version disk)
  have hnone : ∀ s1 : Storage, Consistent s1 → s1.m_queue = [] → s1.m_request = none := by
    intro s1 h1 hq
    cases hr : s1.m_request with
    | none => rfl
    | some r => exact absurd hq (h1.2.2.2.1 (by rw [hr]; rfl))
  refine ⟨hs.2.2.2, ?_, ?_⟩
  · intro request s1 h hq
    exact ⟨hnone s1 (Call.apply_consistent pl s s1 (Call.finished request) h hs) hq,
      OnMapDownloadFinished_quiet pl s s1 request h hq⟩
  · intro key s1 h hq
    exact ⟨hnone s1 (Call.apply_consistent pl s s1 (Call.delete key) h hs) hq,
      DeleteCountry_quiet pl s s1 key h hq⟩

theorem C23_request_iff_queue_nonempty_witness :
    ∃ s, run Example.platform (Storage.initial Example.countries 1 [])
        [Call.download Example.Alps, Call.serverList ⟨StatusT.ECompleted, "", (0, 0)⟩,
         Call.download Example.Balkans, Call.delete Example.Alps] = some s ∧
      s.m_queue = [Example.Balkans] ∧
      s.m_request = some (PendingRequest.PostJson "http://meta/" "Balkans") ∧
      (s.m_request.isSome = true ↔ s.m_queue ≠ []) :=
  ⟨_, rfl, rfl, rfl, (C23_request_iff_queue_nonempty Example.platform Example.countries 1 []
    [Call.download Example.Alps, Call.serverList ⟨StatusT.ECompleted, "", (0, 0)⟩,
     Call.download Example.Balkans, Call.delete Example.Alps] _ rfl).1⟩

/-! ## Download URLs and the fetched file (C24, C25) -/

/-- C24: `GetFileDownloadUrl` returns the mirror base URL followed by the OS
name, a slash, the catalog version in decimal, a slash and the URL-encoded
file name; `OnServerListDownloaded` applies it, with the file name of the
first file of the head, to every mirror of the server list, so the URLs of
the fetch it starts are as many as the mirrors and in the same order. -/
theorem C24_download_urls (pl : Platform) (s : Storage) :
    (∀ baseUrl fName, GetFileDownloadUrl pl s baseUrl fName =
        baseUrl ++ pl.OMIM_OS_NAME ++ "/" ++ toString s.m_currentVersion ++ "/" ++
          pl.UrlEncode fName) ∧
      (∀ request front rest c file files, s.m_queue = front :: rest →
        CountryByIndex s front = some c → c.m_files = file :: files →
        ∃ s1 urls, OnServerListDownloaded pl s request = some s1 ∧
          s1.m_request = some (PendingRequest.GetFile urls
            (pl.WritableDir ++ file.GetFileWithExt pl) file.m_remoteSize) ∧
          urls.length = (pl.GetServerListFromRequest request).length ∧
          ∀ i, urls.get? i = ((pl.GetServerListFromRequest request).get? i).map
            (fun mirror => mirror ++ pl.OMIM_OS_NAME ++ "/" ++ toString s.m_currentVersion ++
              "/" ++ pl.UrlEncode (file.GetFileWithExt pl))) := by
  refine ⟨fun _ _ => rfl, ?_⟩
  intro request front rest c file files hq hc hfiles
  have hrun : OnServerListDownloaded pl s request = some
      (emit { s with m_request := some (PendingRequest.GetFile
          ((pl.GetServerListFromRequest request).map
            (fun url => GetFileDownloadUrl pl s url (file.GetFileWithExt pl)))
          (pl.WritableDir ++ file.GetFileWithExt pl) file.m_remoteSize) }
        (Effect.GetFile ((pl.GetServerListFromRequest request).map
            (fun url => GetFileDownloadUrl pl s url (file.GetFileWithExt pl)))
          (pl.WritableDir ++ file.GetFileWithExt pl) file.m_remoteSize)) := by
    unfold OnServerListDownloaded
    split
    · rename_i heq; rw [hq] at heq; exact absurd heq (by simp)
    · rename_i f r heq
      rw [hq] at heq
      cases heq
      simp only [hc, hfiles]
  refine ⟨_, _, hrun, rfl, by simp, ?_⟩
  intro i
  simp [GetFileDownloadUrl]

theorem C24_download_urls_witness :
    GetFileDownloadUrl Example.platform Example.twoQueued "http://a/" "Alps.mwm" =
        "http://a/" ++ "linux" ++ "/" ++ toString (1 : Int) ++ "/" ++ "Alps.mwm" ∧
      GetFileDownloadUrl Example.platform Example.twoQueued "http://a/" "Alps.mwm" =
        "http://a/linux/1/Alps.mwm" :=
  ⟨(C24_download_urls Example.platform Example.twoQueued).1 "http://a/" "Alps.mwm", by decide⟩

/-- C25: the code at the failing input.  The region Twin has the files `a`
(on disk) and `b` (missing).  `DownloadCountry` posts the name `b`, the first
file not yet downloaded, but the fetch started on the server-list response is
for `a.mwm`, the first file of the country; after its completion the head is
unchanged, `b` is still missing from the disk and the name `b` is posted
again. -/
theorem C25_fetch_ignores_posted_file :
    ∃ s0 s1 s2, run Example.platform (Storage.initial Example.twinCountries 1 ["/w/a.mwm"])
        [Call.download Example.Twin] = some s0 ∧
      s0.m_request = some (PendingRequest.PostJson "http://meta/" "b") ∧
      OnServerListDownloaded Example.platform s0 ⟨StatusT.ECompleted, "", (0, 0)⟩ = some s1 ∧
      s1.m_request = some (PendingRequest.GetFile
        ["http://a/linux/1/a.mwm", "http://b/linux/1/a.mwm"] "/w/a.mwm" 100) ∧
      OnMapDownloadFinished Example.platform s1
        ⟨StatusT.ECompleted, "/w/a.mwm", (100, 100)⟩ = some s2 ∧
      s2.m_queue = [Example.Twin] ∧
      s2.disk = ["/w/a.mwm"] ∧
      s2.m_request = some (PendingRequest.PostJson "http://meta/" "b") := by
  refine ⟨_, _, _, rfl, by decide, rfl, by decide, rfl, ?_⟩
  decide

/-! ## Bounds update and failed set on deletion (C26, C27) -/

/-- C26: for a key that resolves in the catalog (and a queue whose keys
resolve), `DeleteCountry` calls the bounds-update callback exactly once, with
the bounding rectangle of the country, when the key was not in the queue and
that rectangle is not the empty one, and does not call it at all otherwise; in
particular not when the key was queued, at the head or behind it. -/
theorem C26_DeleteCountry_bounds_update (pl : Platform) (s : Storage) (key : TIndex)
    (c : Country)
    (hc : CountryByIndex s key = some c)
    (hres : ∀ k ∈ s.m_queue, ∃ n, CountryByIndex s k = some n) :
    ∃ s1 new, DeleteCountry pl s key = some s1 ∧ s1.log = s.log ++ new ∧
      updateRectsOf new =
        (if key ∉ s.m_queue ∧ c.m_bounds ≠ RectD.GetEmptyRect then [c.m_bounds] else []) ∧
      (key ∈ s.m_queue → updateRectsOf new = []) := by
  obtain ⟨s1, before, hrun, hlog, hbefore, _, _⟩ := DeleteCountry_log pl s key c hc hres
  have h1 : updateRectsOf before = [] := by
    apply updateRectsOf_none
    intro e he r heq
    rcases hbefore e he with ⟨url, body, hp⟩ | ⟨sl, k, hke⟩
    · rw [hp] at heq; exact absurd heq (by simp)
    · rw [hke] at heq; exact absurd heq (by simp)
  have h2 : updateRectsOf (removeCalls pl c.m_files s1.m_queue) = [] := by
    apply updateRectsOf_none
    intro e he r heq
    obtain ⟨f, hf⟩ := removeCalls_effect pl _ _ e he
    rw [hf] at heq; exact absurd heq (by simp)
  have h3 : updateRectsOf (deleteCalls pl c.m_files s1.m_queue) = [] := by
    apply updateRectsOf_none
    intro e he r heq
    obtain ⟨f, hf⟩ := deleteCalls_effect pl _ _ e he
    rw [hf] at heq; exact absurd heq (by simp)
  have h4 : updateRectsOf (changeCalls s.m_observers key s1.m_queue) = [] := by
    apply updateRectsOf_none
    intro e he r heq
    simp only [changeCalls, List.mem_map] at he
    obtain ⟨o, _, rfl⟩ := he
    exact absurd heq (by simp)
  have hcount : updateRectsOf (before ++ removeCalls pl c.m_files s1.m_queue ++
      deleteCalls pl c.m_files s1.m_queue ++ changeCalls s.m_observers key s1.m_queue ++
      (if key ∉ s.m_queue ∧ c.m_bounds ≠ RectD.GetEmptyRect
        then [Event.mk (Effect.updateRect c.m_bounds) s.m_queue] else [])) =
      (if key ∉ s.m_queue ∧ c.m_bounds ≠ RectD.GetEmptyRect then [c.m_bounds] else []) := by
    rw [updateRectsOf_append, updateRectsOf_append, updateRectsOf_append,
      updateRectsOf_append, h1, h2, h3, h4]
    split_ifs <;> rfl
  refine ⟨s1, before ++ removeCalls pl c.m_files s1.m_queue ++
      deleteCalls pl c.m_files s1.m_queue ++ changeCalls s.m_observers key s1.m_queue ++
      (if key ∉ s.m_queue ∧ c.m_bounds ≠ RectD.GetEmptyRect
        then [Event.mk (Effect.updateRect c.m_bounds) s.m_queue] else []),
    hrun, by rw [hlog]; simp only [List.append_assoc], hcount, ?_⟩
  intro hmem
  rw [hcount, if_neg (fun h => h.1 hmem)]

theorem C26_DeleteCountry_bounds_update_witness :
    ∃ s1 new, DeleteCountry Example.platform Example.twoQueued Example.Carpathians = some s1 ∧
      s1.log = Example.twoQueued.log ++ new ∧
      updateRectsOf new =
        (if Example.Carpathians ∉ Example.twoQueued.m_queue ∧
            RectD.rect 0 0 1 1 ≠ RectD.GetEmptyRect then [RectD.rect 0 0 1 1] else []) ∧
      (Example.Carpathians ∈ Example.twoQueued.m_queue → updateRectsOf new = []) :=
  C26_DeleteCountry_bounds_update Example.platform Example.twoQueued Example.Carpathians
    ⟨"Carpathians", "", [⟨"Carpathians", 3000⟩], RectD.rect 0 0 1 1⟩ rfl
    (fun k hk => by
      have hk2 : k ∈ [Example.Alps, Example.Balkans] := hk
      simp only [List.mem_cons, List.mem_singleton, List.not_mem_nil, or_false] at hk2
      rcases hk2 with rfl | rfl <;> exact ⟨_, rfl⟩)

/-- C27: for a key that resolves in the catalog (and a queue whose keys
resolve), the failed set after `DeleteCountry` equals the failed set before;
in particular a key that is in the failed set and not queued is still reported
DownloadFailed after it is deleted. -/
theorem C27_DeleteCountry_keeps_failed_set (pl : Platform) (s : Storage) (key : TIndex)
    (c : Country)
    (hc : CountryByIndex s key = some c)
    (hres : ∀ k ∈ s.m_queue, ∃ n, CountryByIndex s k = some n) :
    ∃ s1, DeleteCountry pl s key = some s1 ∧
      s1.m_failedCountries = s.m_failedCountries ∧
      (key ∈ s.m_failedCountries → key ∉ s.m_queue →
        CountryStatus pl s1 key = some TStatus.EDownloadFailed) := by
  obtain ⟨s1, before, hrun, _, _, hf, hq⟩ := DeleteCountry_log pl s key c hc hres
  refine ⟨s1, hrun, hf, ?_⟩
  intro hfailed hnot
  exact CountryStatus_failed pl s1 key (by rw [hq hnot]; exact hnot) (by rw [hf]; exact hfailed)

theorem C27_DeleteCountry_keeps_failed_set_witness :
    ∃ s1, DeleteCountry Example.platform
        { Example.twoQueued with m_failedCountries := {Example.Carpathians} }
        Example.Carpathians = some s1 ∧
      s1.m_failedCountries = {Example.Carpathians} ∧
      (Example.Carpathians ∈ ({Example.Carpathians} : Finset TIndex) →
        Example.Carpathians ∉ [Example.Alps, Example.Balkans] →
        CountryStatus Example.platform s1 Example.Carpathians =
          some TStatus.EDownloadFailed) :=
  C27_DeleteCountry_keeps_failed_set Example.platform
    { Example.twoQueued with m_failedCountries := {Example.Carpathians} } Example.Carpathians
    ⟨"Carpathians", "", [⟨"Carpathians", 3000⟩], RectD.rect 0 0 1 1⟩ rfl
    (fun k hk => by
      have hk2 : k ∈ [Example.Alps, Example.Balkans] := hk
      simp only [List.mem_cons, List.mem_singleton, List.not_mem_nil, or_false] at hk2
      rcases hk2 with rfl | rfl <;> exact ⟨_, rfl⟩)

/-! ## Outcome of the queue loop (C28) -/

/-- C28: for a queue whose keys all resolve, `DownloadNextCountryFromQueue`
returns, and the queue it leaves is a suffix of the queue at entry: what it
removed are keys with all their files on disk, each notified once per
observer at its removal; the queue left is either empty, with no request
issued, or headed by a key with a file not downloaded, for which exactly one
server-list request (for the first such file) was issued and one round of
status-change calls made.  Consequently `DownloadCountry` on an empty queue
with a key whose files are all on disk leaves the queue empty, issues no
request and notifies the key once. -/
theorem C28_DownloadNextCountryFromQueue_outcome (pl : Platform) (s : Storage)
    (hres : ∀ k ∈ s.m_queue, ∃ c, CountryByIndex s k = some c) :
    (∃ s1 removed, DownloadNextCountryFromQueue pl s = some s1 ∧
        s.m_queue = removed ++ s1.m_queue ∧
        s1.m_queue <:+ s.m_queue ∧
        (∀ k ∈ removed, ∃ c, CountryByIndex s k = some c ∧
          c.m_files.all (IsFileDownloaded pl s.disk) = true) ∧
        ((s1.m_queue = [] ∧ s1.m_request = s.m_request ∧
            s1.log = s.log ++ removedCalls s.m_observers removed []) ∨
          ∃ h rest c it, s1.m_queue = h :: rest ∧ CountryByIndex s h = some c ∧
            it ∈ c.m_files ∧ IsFileDownloaded pl s.disk it = false ∧
            s1.m_request = some (PendingRequest.PostJson pl.MetaServerUrl it.m_fileName) ∧
            s1.log = s.log ++ removedCalls s.m_observers removed (h :: rest) ++
              Event.mk (Effect.PostJson pl.MetaServerUrl it.m_fileName) (h :: rest) ::
                changeCalls s.m_observers h (h :: rest))) ∧
      (∀ key c, s.m_queue = [] → CountryByIndex s key = some c →
        c.m_files.all (IsFileDownloaded pl s.disk) = true →
        ∃ s2, DownloadCountry pl s key = some s2 ∧ s2.m_queue = [] ∧
          s2.m_request = s.m_request ∧
          s2.log = s.log ++ changeCalls s.m_observers key []) := by
  constructor
  · obtain ⟨s1, removed, hrun, hsplit, hremoved, hend⟩ := loop_exact pl s.m_queue s hres
    refine ⟨s1, removed, hrun, hsplit, ⟨removed, hsplit.symm⟩, hremoved, ?_⟩
    rcases hend with hempty | ⟨h, rest, c, it, hq, hc, hfind, hr, hlog⟩
    · exact Or.inl hempty
    · refine Or.inr ⟨h, rest, c, it, hq, hc, List.mem_of_find?_eq_some hfind, ?_, hr, hlog⟩
      simpa using List.find?_some hfind
  · intro key c hq hc hall
    have hrun := DownloadCountry_on_empty_run pl s key c hq hc
    have hloop := loop_skip_last pl
      { s with m_failedCountries := s.m_failedCountries.erase key, m_queue := [key], m_countryProgress := (0, ((c.Size pl s.disk).2 : Int)) }
      key c hc hall
    refine ⟨_, hrun.trans hloop, rfl, rfl, ?_⟩
    simp [NotifyStatusChanged, changeCalls]

theorem C28_DownloadNextCountryFromQueue_outcome_witness :
    ∃ s1 removed, DownloadNextCountryFromQueue Example.platform
        (fileArrives Example.twoQueued "/w/Alps.mwm") = some s1 ∧
      [Example.Alps, Example.Balkans] = removed ++ s1.m_queue ∧
      s1.m_queue <:+ [Example.Alps, Example.Balkans] ∧
      (∀ k ∈ removed, ∃ c,
        CountryByIndex (fileArrives Example.twoQueued "/w/Alps.mwm") k = some c ∧
        c.m_files.all (IsFileDownloaded Example.platform ["/w/Alps.mwm"]) = true) ∧
      ((s1.m_queue = [] ∧ s1.m_request = Example.twoQueued.m_request ∧
          s1.log = [] ++ removedCalls [⟨1⟩] removed []) ∨
        ∃ h rest c it, s1.m_queue = h :: rest ∧
          CountryByIndex (fileArrives Example.twoQueued "/w/Alps.mwm") h = some c ∧
          it ∈ c.m_files ∧ IsFileDownloaded Example.platform ["/w/Alps.mwm"] it = false ∧
          s1.m_request = some (PendingRequest.PostJson "http://meta/" it.m_fileName) ∧
          s1.log = [] ++ removedCalls [⟨1⟩] removed (h :: rest) ++
            Event.mk (Effect.PostJson "http://meta/" it.m_fileName) (h :: rest) ::
              changeCalls [⟨1⟩] h (h :: rest)) :=
  (C28_DownloadNextCountryFromQueue_outcome Example.platform
    (fileArrives Example.twoQueued "/w/Alps.mwm")
    (fun k hk => by
      have hk2 : k ∈ [Example.Alps, Example.Balkans] := hk
      simp only [List.mem_cons, List.mem_singleton, List.not_mem_nil, or_false] at hk2
      rcases hk2 with rfl | rfl <;> exact ⟨_, rfl⟩)).1

/-! ## Name lookup and index resolution (C30) -/

/-- C30: for every tree and every name carried by at least one node at depth 1
to 3, the key returned by `FindIndexByName` resolves, through `NodeFromIndex`,
to a node whose name is that name, so `CountryName (FindIndexByName name)` is
the name; and the key returned is that of the first node with the name in
pre-order, which differs from the key of every later node. -/
theorem C30_FindIndexByName_round_trip (s : Storage) (name : String)
    (hcarried : ∃ e ∈ preorderEntries s.m_countries, e.2 = name) :
    CountryName s (FindIndexByName s name) = some name ∧
      (∃ node, NodeFromIndex s.m_countries (FindIndexByName s name) = some node ∧
        node.Value.m_name = name) ∧
      (∀ pre e post, preorderEntries s.m_countries = pre ++ e :: post → e.2 = name →
        (∀ x ∈ pre, x.2 ≠ name) →
        FindIndexByName s name = e.1 ∧ ∀ later ∈ post, FindIndexByName s name ≠ later.1) := by
  have hsplit : ∀ pre e post, preorderEntries s.m_countries = pre ++ e :: post → e.2 = name →
      (∀ x ∈ pre, x.2 ≠ name) →
      FindIndexByName s name = e.1 ∧ ∀ later ∈ post, FindIndexByName s name ≠ later.1 := by
    intro pre e post hentries he hpre
    have hkey := FindIndexByName_first s name pre post e hentries he hpre
    refine ⟨hkey, ?_⟩
    intro later hlater heq
    have hnodup := groupEntries_keys_nodup s.m_countries.Siblings 0
    have hentries2 : groupEntries s.m_countries.Siblings 0 = pre ++ e :: post := hentries
    rw [hentries2, List.map_append, List.map_cons] at hnodup
    have h2 := (List.nodup_cons.1 (List.nodup_append.1 hnodup).2.1).1
    apply h2
    rw [← hkey, heq]
    exact List.mem_map.2 ⟨later, hlater, rfl⟩
  obtain ⟨e0, he0, hname0⟩ := hcarried
  have hfound : ∃ e, (preorderEntries s.m_countries).find? (fun x => decide (x.2 = name))
      = some e := by
    cases hf : (preorderEntries s.m_countries).find? (fun x => decide (x.2 = name)) with
    | some e => exact ⟨e, rfl⟩
    | none =>
      rw [List.find?_eq_none] at hf
      have := hf e0 he0
      simp [hname0] at this
  obtain ⟨e, hfind⟩ := hfound
  obtain ⟨hpe, pre, post, hentries, hpre⟩ := List.find?_eq_some.1 hfind
  have hname : e.2 = name := by simpa using hpe
  have hkey := (hsplit pre e post hentries hname
    (fun x hx => by simpa using hpre x hx)).1
  obtain ⟨node, hnode, hnn⟩ := preorderEntries_resolve s.m_countries e
    (List.mem_of_find?_eq_some hfind)
  refine ⟨?_, ⟨node, by rw [hkey]; exact hnode, hnn.trans hname⟩, hsplit⟩
  unfold CountryName
  rw [hkey, hnode]
  simp only [Option.map_some', hnn, hname]

theorem C30_FindIndexByName_round_trip_witness :
    CountryName (Example.fresh []) (FindIndexByName (Example.fresh []) "Balkans") =
      some "Balkans" ∧ FindIndexByName (Example.fresh []) "Balkans" = Example.Balkans :=
  ⟨(C30_FindIndexByName_round_trip (Example.fresh []) "Balkans"
      ⟨(Example.Balkans, "Balkans"), by decide, rfl⟩).1, by decide⟩

end storage

namespace graphics

/-! ## Lemmas about the arrays of `drawSolidPath` -/

theorem numPoints_values (leftIsCap rightIsCap hasRoundCap hasSquareCap hasRoundJoin
    hasBevelJoin : Bool) :
    (drawSolidPath.numPoints leftIsCap rightIsCap hasRoundCap hasSquareCap hasRoundJoin
        hasBevelJoin = 4 ∨
      drawSolidPath.numPoints leftIsCap rightIsCap hasRoundCap hasSquareCap hasRoundJoin
        hasBevelJoin = 6 ∨
      drawSolidPath.numPoints leftIsCap rightIsCap hasRoundCap hasSquareCap hasRoundJoin
        hasBevelJoin = 8) := by
  cases leftIsCap <;> cases rightIsCap <;> cases hasRoundCap <;> cases hasSquareCap <;>
    cases hasRoundJoin <;> cases hasBevelJoin <;> decide

theorem coords_length {R : Type} [Arith R] (leftIsCap rightIsCap hasRoundCap hasSquareCap
    hasRoundJoin hasBevelJoin : Bool) (pt nextPt fNorm fDir fNormNextSeg : Point R) :
    ∃ cs, drawSolidPath.coords leftIsCap rightIsCap hasRoundCap hasSquareCap hasRoundJoin
        hasBevelJoin pt nextPt fNorm fDir fNormNextSeg = some cs ∧
      cs.length = drawSolidPath.numPoints leftIsCap rightIsCap hasRoundCap hasSquareCap
        hasRoundJoin hasBevelJoin := by
  cases leftIsCap <;> cases rightIsCap <;> cases hasRoundCap <;> cases hasSquareCap <;>
    cases hasRoundJoin <;> cases hasBevelJoin <;> exact ⟨_, rfl, rfl⟩

theorem texCoords_length {R : Type} (leftIsCap rightIsCap hasRoundCap hasSquareCap
    hasRoundJoin hasBevelJoin : Bool) (mapPixel : Point R → Point R) (texMinX texMaxX texMinY texMaxY texCenterX : R) :
    ∃ ts, drawSolidPath.texCoords leftIsCap rightIsCap hasRoundCap hasSquareCap hasRoundJoin
        hasBevelJoin mapPixel texMinX texMaxX texMinY texMaxY texCenterX = some ts ∧
      ts.length = drawSolidPath.numPoints leftIsCap rightIsCap hasRoundCap hasSquareCap
        hasRoundJoin hasBevelJoin := by
  cases leftIsCap <;> cases rightIsCap <;> cases hasRoundCap <;> cases hasSquareCap <;>
    cases hasRoundJoin <;> cases hasBevelJoin <;> exact ⟨_, rfl, rfl⟩


theorem advance_some {R : Type} [Arith R] (points : List (Point R)) (geomHalfWidth : R)
    (leftIsCap rightIsCap : Bool) (i : Nat) (st : SolidPathState R)
    (h2 : rightIsCap = false → i + 2 < points.length) :
    ∃ st1, drawSolidPath.advance points geomHalfWidth leftIsCap rightIsCap i st = some st1 ∧
      st1.calls = st.calls := by
  cases rightIsCap with
  | true =>
    cases leftIsCap <;> exact ⟨_, rfl, rfl⟩
  | false =>
    have h := h2 rfl
    have hp1 : points.get? (i + 1) = some (points.get ⟨i + 1, by omega⟩) := List.get?_eq_get _
    have hp2 : points.get? (i + 2) = some (points.get ⟨i + 2, h⟩) := List.get?_eq_get _
    cases leftIsCap <;>
      (simp only [drawSolidPath.advance, hp1, hp2, Option.bind_eq_bind, Option.some_bind,
        Option.pure_def]
       exact ⟨_, rfl, rfl⟩)

theorem draw_spec {R : Type} [Arith R] (rd : Renderer R) (pen : Pen R) (depth : R)
    (leftIsCap rightIsCap : Bool) (pt nextPt : Point R) (st : SolidPathState R) :
    ∃ seg, drawSolidPath.draw rd pen depth leftIsCap rightIsCap pt nextPt st = some seg ∧
      seg.coords.length = seg.numPoints ∧
      (seg.numPoints = 4 ∨ seg.numPoints = 6 ∨ seg.numPoints = 8) ∧
      ((rd.texture pen.m_pipelineID = none ∧ seg.texCoords = none ∧
          ∃ st1, seg.flow = Flow.ret st1 ∧ st1.calls = st.calls) ∨
        (∃ ts st1 c, (rd.texture pen.m_pipelineID).isSome = true ∧ seg.texCoords = some ts ∧
          ts.length = seg.numPoints ∧ seg.flow = Flow.next st1 ∧
          st1.calls = st.calls ++ [c] ∧ c.coords = seg.coords ∧ c.texCoords = ts ∧
          c.size = seg.numPoints ∧ c.pipelineID = pen.m_pipelineID ∧ c.depth = depth)) := by
  obtain ⟨cs, hcs, hlen⟩ := coords_length leftIsCap rightIsCap
    (decide (pen.m_info.m_cap = ELineCap.ERoundCap))
    (decide (pen.m_info.m_cap = ELineCap.ESquareCap))
    (decide (pen.m_info.m_join = ELineJoin.ERoundJoin))
    (decide (pen.m_info.m_join = ELineJoin.EBevelJoin)) pt nextPt st.fNorm st.fDir st.fNormNextSeg
  have hnum := numPoints_values leftIsCap rightIsCap
    (decide (pen.m_info.m_cap = ELineCap.ERoundCap))
    (decide (pen.m_info.m_cap = ELineCap.ESquareCap))
    (decide (pen.m_info.m_join = ELineJoin.ERoundJoin))
    (decide (pen.m_info.m_join = ELineJoin.EBevelJoin))
  unfold drawSolidPath.draw
  simp only [hcs, Option.bind_eq_bind, Option.some_bind, Option.pure_def]
  cases htex : rd.texture pen.m_pipelineID with
  | none => exact ⟨_, rfl, hlen, hnum, Or.inl ⟨rfl, rfl, _, rfl, rfl⟩⟩
  | some mapPixel =>
    obtain ⟨ts, hts, htlen⟩ := texCoords_length leftIsCap rightIsCap
      (decide (pen.m_info.m_cap = ELineCap.ERoundCap))
      (decide (pen.m_info.m_cap = ELineCap.ESquareCap))
      (decide (pen.m_info.m_join = ELineJoin.ERoundJoin))
      (decide (pen.m_info.m_join = ELineJoin.EBevelJoin)) mapPixel
      (Arith.toFloat (pen.m_texRect.minX + Arith.lit 1))
      (Arith.toFloat (pen.m_texRect.maxX - Arith.lit 1))
      (Arith.toFloat (pen.m_texRect.maxY - rd.aaShift))
      (Arith.toFloat (pen.m_texRect.minY + rd.aaShift))
      (Arith.toFloat ((Arith.toFloat (pen.m_texRect.minX + Arith.lit 1) +
        Arith.toFloat (pen.m_texRect.maxX - Arith.lit 1)) / Arith.lit 2))
    simp only [hts, Option.some_bind]
    exact ⟨_, rfl, hlen, hnum, Or.inr ⟨ts, _, _, rfl, rfl, htlen, rfl, rfl, rfl, rfl, rfl, rfl, rfl⟩⟩

theorem body_spec {R : Type} [Arith R] (rd : Renderer R) (points : List (Point R))
    (pointsCount : Nat) (pen : Pen R) (depth : R) (geomHalfWidth : R) (i : Nat)
    (st : SolidPathState R) (h1 : i + 1 < points.length)
    (h2 : i ≠ pointsCount - 2 → i + 2 < points.length) :
    ∃ seg, drawSolidPath.body rd points pointsCount pen depth geomHalfWidth i st = some seg ∧
      seg.coords.length = seg.numPoints ∧
      (seg.numPoints = 4 ∨ seg.numPoints = 6 ∨ seg.numPoints = 8) ∧
      ((rd.texture pen.m_pipelineID = none ∧ seg.texCoords = none ∧
          ∃ st1, seg.flow = Flow.ret st1 ∧ st1.calls = st.calls) ∨
        (∃ ts st1 c, (rd.texture pen.m_pipelineID).isSome = true ∧ seg.texCoords = some ts ∧
          ts.length = seg.numPoints ∧ seg.flow = Flow.next st1 ∧
          st1.calls = st.calls ++ [c] ∧ c.coords = seg.coords ∧ c.texCoords = ts ∧
          c.size = seg.numPoints ∧ c.pipelineID = pen.m_pipelineID ∧ c.depth = depth)) := by
  have hpt : points.get? i = some (points.get ⟨i, by omega⟩) := List.get?_eq_get _
  have hnext : points.get? (i + 1) = some (points.get ⟨i + 1, h1⟩) := List.get?_eq_get _
  obtain ⟨st1, hst1, hcalls⟩ := advance_some points geomHalfWidth (decide (i = 0))
    (decide (i = pointsCount - 2)) i st (fun h => h2 (by simpa using h))
  unfold drawSolidPath.body
  simp only [hpt, hnext, hst1, Option.bind_eq_bind, Option.some_bind, Option.pure_def]
  rw [← hcalls]
  exact draw_spec rd pen depth _ _ _ _ st1


theorem loop_spec {R : Type} [Arith R] (rd : Renderer R) (points : List (Point R))
    (pointsCount : Nat) (pen : Pen R) (depth : R) (geomHalfWidth : R) :
    ∀ (idx : List Nat) (st : SolidPathState R),
      (∀ i ∈ idx, i + 1 < points.length ∧ (i ≠ pointsCount - 2 → i + 2 < points.length)) →
      ∃ segs st1 new,
        drawSolidPath.loop rd points pointsCount pen depth geomHalfWidth idx st =
          some (segs, st1) ∧
        st1.calls = st.calls ++ new ∧
        (∀ seg ∈ segs, seg.Filled) ∧ (∀ c ∈ new, c.Filled) ∧
        ((rd.texture pen.m_pipelineID).isSome = true →
          segs.length = idx.length ∧ new.length = idx.length ∧
            ∀ seg ∈ segs, seg.texCoords.isSome = true) ∧
        (rd.texture pen.m_pipelineID = none → new = [] ∧ segs.length ≤ 1)
  | [], st, _ => ⟨[], st, [], rfl, by simp, by simp, by simp, by simp, by simp⟩
  | i :: rest, st, h => by
    obtain ⟨seg, hseg, hlen, hnum, hcase⟩ := body_spec rd points pointsCount pen depth
      geomHalfWidth i st (h i (List.mem_cons_self _ _)).1 (h i (List.mem_cons_self _ _)).2
    rcases hcase with ⟨htex, hnone, st1, hflow, hcalls⟩ | ⟨ts, st1, c, htex, hts, htlen, hflow,
      hcalls, hc1, hc2, hc3, _, _⟩
    · refine ⟨[seg], st1, [], ?_, by simp [hcalls], ?_, by simp, ?_, by simp⟩
      · simp only [drawSolidPath.loop, hseg, hflow]
      · intro s hs
        rw [List.mem_singleton] at hs
        subst hs
        exact ⟨hlen, hnum, fun ts h => by rw [hnone] at h; cases h⟩
      · intro h2
        rw [htex] at h2
        cases h2
    · obtain ⟨segs, st2, new, hloop, hcalls2, hsegs, hnew, hsome, hnone⟩ :=
        loop_spec rd points pointsCount pen depth geomHalfWidth rest st1
          (fun j hj => h j (List.mem_cons_of_mem _ hj))
      have hcf : c.Filled := ⟨by rw [hc1, hlen, hc3], by rw [hc2, htlen, hc3], by rw [hc3]; exact hnum⟩
      refine ⟨seg :: segs, st2, c :: new, ?_, ?_, ?_, ?_, ?_, ?_⟩
      · simp only [drawSolidPath.loop, hseg, hflow, hloop, Option.map_some']
      · rw [hcalls2, hcalls, List.append_assoc, List.singleton_append]
      · intro s hs
        rcases List.mem_cons.1 hs with rfl | hs
        · exact ⟨hlen, hnum, fun t h => by rw [hts] at h; cases h; exact htlen⟩
        · exact hsegs s hs
      · intro d hd
        rcases List.mem_cons.1 hd with rfl | hd
        · exact hcf
        · exact hnew d hd
      · intro h2
        obtain ⟨a, b, e⟩ := hsome h2
        refine ⟨by simp [a], by simp [b], ?_⟩
        intro s hs
        rcases List.mem_cons.1 hs with rfl | hs
        · rw [hts]; rfl
        · exact e s hs
      · intro h2
        rw [h2] at htex
        cases htex

/-! ## Vertex counts of solid paths (C32) -/

/-- C32: in every iteration of `drawSolidPath`, whatever the position of the
segment and the cap and join of the pen, `coords` receives exactly `numPoints`
cells, `texCoords` receives exactly `numPoints` cells, and `numPoints` is 4, 6
or 8, so no write passes the eighth cell; on a path of at least two points the
function returns, every iteration and every strip it adds has both arrays
filled to `numPoints`, and with a texture reserved there is one strip per
segment. -/
theorem C32_drawSolidPath_vertex_counts {R : Type} [Arith R] (rd : Renderer R)
    (points : List (Point R)) (offset : R) (pen : Pen R) (depth : R)
    (hcount : 2 ≤ points.length) :
    (∀ (leftIsCap rightIsCap : Bool) (cap : ELineCap) (join : ELineJoin)
        (pt nextPt fNorm fDir fNormNextSeg : Point R) (mapPixel : Point R → Point R)
        (texMinX texMaxX texMinY texMaxY texCenterX : R),
      ∃ cs ts,
        drawSolidPath.coords leftIsCap rightIsCap (decide (cap = ELineCap.ERoundCap))
          (decide (cap = ELineCap.ESquareCap)) (decide (join = ELineJoin.ERoundJoin))
          (decide (join = ELineJoin.EBevelJoin)) pt nextPt fNorm fDir fNormNextSeg = some cs ∧
        drawSolidPath.texCoords leftIsCap rightIsCap (decide (cap = ELineCap.ERoundCap))
          (decide (cap = ELineCap.ESquareCap)) (decide (join = ELineJoin.ERoundJoin))
          (decide (join = ELineJoin.EBevelJoin)) mapPixel texMinX texMaxX texMinY texMaxY
          texCenterX = some ts ∧
        cs.length = ts.length ∧
        ts.length = drawSolidPath.numPoints leftIsCap rightIsCap
          (decide (cap = ELineCap.ERoundCap)) (decide (cap = ELineCap.ESquareCap))
          (decide (join = ELineJoin.ERoundJoin)) (decide (join = ELineJoin.EBevelJoin)) ∧
        (ts.length = 4 ∨ ts.length = 6 ∨ ts.length = 8) ∧ cs.length ≤ 8 ∧ ts.length ≤ 8) ∧
    ∃ segs calls, drawSolidPath rd points offset pen depth = some (segs, calls) ∧
      (∀ seg ∈ segs, seg.coords.length = seg.numPoints ∧ seg.numPoints ≤ 8 ∧
        (seg.numPoints = 4 ∨ seg.numPoints = 6 ∨ seg.numPoints = 8) ∧
        ∀ ts, seg.texCoords = some ts → ts.length = seg.numPoints) ∧
      (∀ c ∈ calls, c.coords.length = c.size ∧ c.texCoords.length = c.size ∧ c.size ≤ 8) ∧
      ((rd.texture pen.m_pipelineID).isSome = true →
        segs.length = points.length - 1 ∧ calls.length = points.length - 1 ∧
          ∀ seg ∈ segs, seg.texCoords.isSome = true) := by
  constructor
  · intro leftIsCap rightIsCap cap join pt nextPt fNorm fDir fNormNextSeg mapPixel texMinX
      texMaxX texMinY texMaxY texCenterX
    obtain ⟨cs, hcs, hclen⟩ := coords_length leftIsCap rightIsCap
      (decide (cap = ELineCap.ERoundCap)) (decide (cap = ELineCap.ESquareCap))
      (decide (join = ELineJoin.ERoundJoin)) (decide (join = ELineJoin.EBevelJoin)) pt nextPt
      fNorm fDir fNormNextSeg
    obtain ⟨ts, hts, htlen⟩ := texCoords_length leftIsCap rightIsCap
      (decide (cap = ELineCap.ERoundCap)) (decide (cap = ELineCap.ESquareCap))
      (decide (join = ELineJoin.ERoundJoin)) (decide (join = ELineJoin.EBevelJoin)) mapPixel
      texMinX texMaxX texMinY texMaxY texCenterX
    have hnum := numPoints_values leftIsCap rightIsCap
      (decide (cap = ELineCap.ERoundCap)) (decide (cap = ELineCap.ESquareCap))
      (decide (join = ELineJoin.ERoundJoin)) (decide (join = ELineJoin.EBevelJoin))
    refine ⟨cs, ts, hcs, hts, by rw [hclen, htlen], htlen, by rw [htlen]; exact hnum, ?_, ?_⟩
    · rw [hclen]; omega
    · rw [htlen]; omega
  · have hp0 : points.get? 0 = some (points.get ⟨0, by omega⟩) := List.get?_eq_get _
    have hp1 : points.get? 1 = some (points.get ⟨1, by omega⟩) := List.get?_eq_get _
    have hidx : ∀ i ∈ List.range (points.length - 1),
        i + 1 < points.length ∧ (i ≠ points.length - 2 → i + 2 < points.length) := by
      intro i hi
      rw [List.mem_range] at hi
      exact ⟨by omega, fun _ => by omega⟩
    obtain ⟨segs, st1, new, hloop, hcalls, hsegs, hnew, hsome, _⟩ :=
      loop_spec rd points points.length pen depth _ (List.range (points.length - 1))
        ⟨_, _, ⟨Arith.lit 0, Arith.lit 0⟩, ⟨Arith.lit 0, Arith.lit 0⟩, []⟩ hidx
    refine ⟨segs, st1.calls, ?_, ?_, ?_, ?_⟩
    · unfold drawSolidPath
      simp only [hp0, hp1, Option.bind_eq_bind, Option.some_bind, Option.pure_def]
      rw [hloop]
      rfl
    · intro seg hseg
      obtain ⟨a, b, c⟩ := hsegs seg hseg
      exact ⟨a, by omega, b, c⟩
    · intro c hc
      rw [hcalls, List.nil_append] at hc
      obtain ⟨a, b, d⟩ := hnew c hc
      exact ⟨a, b, by omega⟩
    · intro h
      obtain ⟨a, b, c⟩ := hsome h
      rw [List.length_range] at a b
      refine ⟨a, ?_, c⟩
      rw [hcalls, List.nil_append]
      exact b

/-- C32 at a path of three points drawn with round caps and bevel joins: the
first segment gets 8 vertices and the last gets 6. -/
theorem C32_drawSolidPath_vertex_counts_witness :
    2 ≤ Example.path.length ∧
      (∃ segs calls,
        drawSolidPath Example.renderer Example.path 0
          (Example.pen ELineCap.ERoundCap ELineJoin.EBevelJoin) 0 = some (segs, calls) ∧
        (∀ seg ∈ segs, seg.coords.length = seg.numPoints ∧ seg.numPoints ≤ 8 ∧
          (seg.numPoints = 4 ∨ seg.numPoints = 6 ∨ seg.numPoints = 8) ∧
          ∀ ts, seg.texCoords = some ts → ts.length = seg.numPoints) ∧
        ∀ c ∈ calls, c.coords.length = c.size ∧ c.texCoords.length = c.size ∧ c.size ≤ 8) ∧
      (drawSolidPath Example.renderer Example.path 0
          (Example.pen ELineCap.ERoundCap ELineJoin.EBevelJoin) 0).map
        (fun r => (r.1.map Segment.numPoints, r.2.map StripCall.size)) =
          some ([8, 6], [8, 6]) :=
  ⟨by decide,
    (C32_drawSolidPath_vertex_counts Example.renderer Example.path 0
      (Example.pen ELineCap.ERoundCap ELineJoin.EBevelJoin) 0 (by decide)).2.elim
      (fun segs h => h.elim (fun calls h2 => ⟨segs, calls, h2.1, h2.2.1, h2.2.2.1⟩)),
    by decide⟩

end graphics

namespace feature

/-! ## Lemmas about `int64_t` arithmetic -/

theorem wrap64_of_range (x : Int) (h1 : -2 ^ 63 ≤ x) (h2 : x < 2 ^ 63) : wrap64 x = x := by
  unfold wrap64
  omega

theorem wrap64_range (x : Int) : -2 ^ 63 ≤ wrap64 x ∧ wrap64 x < 2 ^ 63 := by
  unfold wrap64
  omega

theorem wrap64_add_sub (prev x : Int) (h1 : -2 ^ 63 ≤ x) (h2 : x < 2 ^ 63) :
    wrap64 (prev + wrap64 (x - prev)) = x := by
  unfold wrap64
  omega

/-! ## Lemmas about the variable-length integers -/

theorem WriteVarInt_ne_nil {R : Type} (env : Env R) (hlaw : env.Lawful) (v : Int)
    (h1 : -2 ^ 63 ≤ v) (h2 : v < 2 ^ 63) : env.WriteVarInt v ≠ [] := by
  intro hnil
  obtain ⟨_, _, h64, _⟩ := hlaw
  by_cases hv : v = 0
  · have a := h64 v (env.WriteVarInt 1) h1 h2
    have b := h64 1 [] (by norm_num) (by norm_num)
    rw [hnil, List.nil_append] at a
    rw [List.append_nil, a] at b
    simp only [Option.some.injEq, Prod.mk.injEq] at b
    omega
  · have a := h64 v (env.WriteVarInt 0) h1 h2
    have b := h64 0 [] (by norm_num) (by norm_num)
    rw [hnil, List.nil_append] at a
    rw [List.append_nil, a] at b
    simp only [Option.some.injEq, Prod.mk.injEq] at b
    omega

theorem length_le_flatMap_WriteVarInt {R : Type} (env : Env R) (hlaw : env.Lawful) :
    ∀ ids : List Int, (∀ id ∈ ids, -2 ^ 63 ≤ id ∧ id < 2 ^ 63) →
      ids.length ≤ (ids.flatMap env.WriteVarInt).length
  | [], _ => by simp
  | x :: xs, h => by
    have hx := WriteVarInt_ne_nil env hlaw x (h x (List.mem_cons_self _ _)).1
      (h x (List.mem_cons_self _ _)).2
    have ih := length_le_flatMap_WriteVarInt env hlaw xs
      (fun id hid => h id (List.mem_cons_of_mem _ hid))
    have hpos : 0 < (env.WriteVarInt x).length := List.length_pos.2 hx
    simp only [List.flatMap_cons, List.length_append, List.length_cons]
    omega

theorem drop_add_append {α : Type} (l a b : List α) (n : Nat) (h : l.drop n = a ++ b) :
    l.drop (n + a.length) = b := by
  rw [← List.drop_drop, h, List.drop_left]

theorem readTypes_write {R : Type} (env : Env R) (hlaw : env.Lawful) (rest : List Byte) :
    ∀ ts : List Nat, (∀ t ∈ ts, t < 2 ^ 32) →
      FeatureGeom.readTypes env ts.length (ts.flatMap env.WriteVarUint ++ rest) =
        some (ts, (ts.flatMap env.WriteVarUint).length)
  | [], _ => rfl
  | t :: ts, h => by
    have ht := h t (List.mem_cons_self _ _)
    have ih := readTypes_write env hlaw rest ts (fun x hx => h x (List.mem_cons_of_mem _ hx))
    have hread := hlaw.1 t (ts.flatMap env.WriteVarUint ++ rest) ht
    simp only [List.flatMap_cons, List.length_cons, FeatureGeom.readTypes, List.append_assoc,
      hread, List.drop_left, ih, Option.bind_eq_bind, Option.some_bind, Option.pure_def,
      List.length_append, Nat.mod_eq_of_lt ht]

theorem deltasFrom_range (prev : Int) (ids : List Int) :
    ∀ d ∈ FeatureBuilder.deltasFrom prev ids, -2 ^ 63 ≤ d ∧ d < 2 ^ 63 := by
  induction ids generalizing prev with
  | nil => intro d hd; cases hd
  | cons x xs ih =>
    intro d hd
    rcases List.mem_cons.1 hd with rfl | hd
    · exact wrap64_range _
    · exact ih x d hd

theorem deltas_eq_deltasFrom (ids : List Int) (h : ∀ id ∈ ids, -2 ^ 63 ≤ id ∧ id < 2 ^ 63) :
    FeatureBuilder.deltas ids = FeatureBuilder.deltasFrom 0 ids := by
  cases ids with
  | nil => rfl
  | cons x xs =>
    have hx := h x (List.mem_cons_self _ _)
    simp only [FeatureBuilder.deltas, FeatureBuilder.deltasFrom, Int.sub_zero,
      wrap64_of_range x hx.1 hx.2]

theorem deltasFrom_length (prev : Int) (ids : List Int) :
    (FeatureBuilder.deltasFrom prev ids).length = ids.length := by
  induction ids generalizing prev with
  | nil => rfl
  | cons x xs ih => simp only [FeatureBuilder.deltasFrom, List.length_cons, ih]

theorem readPoints_write {R : Type} (env : Env R) (hlaw : env.Lawful) (rest : List Byte) :
    ∀ (ids : List Int) (prev : Int), (∀ id ∈ ids, -2 ^ 63 ≤ id ∧ id < 2 ^ 63) →
      FeatureGeom.readPoints env ids.length prev
          ((FeatureBuilder.deltasFrom prev ids).flatMap env.WriteVarInt ++ rest) =
        some (ids.map (pts.ToPoint env),
          ((FeatureBuilder.deltasFrom prev ids).flatMap env.WriteVarInt).length)
  | [], _, _ => rfl
  | x :: xs, prev, h => by
    have hx := h x (List.mem_cons_self _ _)
    have ih := readPoints_write env hlaw rest xs x (fun y hy => h y (List.mem_cons_of_mem _ hy))
    have hd := wrap64_range (x - prev)
    have hread := hlaw.2.2.1 (wrap64 (x - prev))
      ((FeatureBuilder.deltasFrom x xs).flatMap env.WriteVarInt ++ rest) hd.1 hd.2
    simp only [FeatureBuilder.deltasFrom, List.flatMap_cons, List.length_cons,
      FeatureGeom.readPoints, List.append_assoc, hread, List.drop_left,
      wrap64_add_sub prev x hx.1 hx.2, ih, Option.bind_eq_bind, Option.some_bind,
      Option.pure_def, List.length_append, List.map_cons]


/-! ## Lemmas about parsing what `Serialize` wrote -/

theorem Header_mk {R : Type} (data : List Byte) (a b c d : Nat) (p1 p2 p3 p4 p5 : Bool)
    (ty : List Nat) (la : Int) (na : List Byte) (ge tr : List (PointD R)) :
    FeatureGeom.Header (⟨data, 0, a, b, c, d, p1, p2, p3, p4, p5, ty, la, na, ge, tr⟩ :
      FeatureGeom R) = data.head? := by
  simp only [FeatureGeom.Header, FeatureGeom.source, Nat.add_zero, List.drop_zero]

theorem source_mk {R : Type} (data : List Byte) (pos a b c d : Nat) (p1 p2 p3 p4 p5 : Bool)
    (ty : List Nat) (la : Int) (na : List Byte) (ge tr : List (PointD R)) :
    FeatureGeom.source (⟨data, 0, a, b, c, d, p1, p2, p3, p4, p5, ty, la, na, ge, tr⟩ :
      FeatureGeom R) pos = data.drop pos := by
  simp only [FeatureGeom.source, Nat.zero_add]

theorem data_head {R : Type} (env : Env R) (fb : FeatureBuilder) :
    (FeatureBuilder.Serialize.data env fb).head? = some (fb.header env) := rfl

theorem data_drop_types {R : Type} (env : Env R) (fb : FeatureBuilder) :
    (FeatureBuilder.Serialize.data env fb).drop 1 =
      FeatureBuilder.Serialize.types env fb ++ (FeatureBuilder.Serialize.layer env fb ++
        (FeatureBuilder.Serialize.name env fb ++ (FeatureBuilder.Serialize.geometry env fb ++
          FeatureBuilder.Serialize.triangles env fb))) := rfl

theorem data_drop_layer {R : Type} (env : Env R) (fb : FeatureBuilder) :
    (FeatureBuilder.Serialize.data env fb).drop
        (1 + (FeatureBuilder.Serialize.types env fb).length) =
      FeatureBuilder.Serialize.layer env fb ++
        (FeatureBuilder.Serialize.name env fb ++ (FeatureBuilder.Serialize.geometry env fb ++
          FeatureBuilder.Serialize.triangles env fb)) :=
  drop_add_append _ _ _ _ (data_drop_types env fb)

theorem data_drop_name {R : Type} (env : Env R) (fb : FeatureBuilder) :
    (FeatureBuilder.Serialize.data env fb).drop
        (1 + (FeatureBuilder.Serialize.types env fb).length +
          (FeatureBuilder.Serialize.layer env fb).length) =
      FeatureBuilder.Serialize.name env fb ++ (FeatureBuilder.Serialize.geometry env fb ++
        FeatureBuilder.Serialize.triangles env fb) :=
  drop_add_append _ _ _ _ (data_drop_layer env fb)

theorem data_drop_geometry {R : Type} (env : Env R) (fb : FeatureBuilder) :
    (FeatureBuilder.Serialize.data env fb).drop
        (1 + (FeatureBuilder.Serialize.types env fb).length +
          (FeatureBuilder.Serialize.layer env fb).length +
          (FeatureBuilder.Serialize.name env fb).length) =
      FeatureBuilder.Serialize.geometry env fb ++ FeatureBuilder.Serialize.triangles env fb :=
  drop_add_append _ _ _ _ (data_drop_name env fb)

theorem data_drop_triangles {R : Type} (env : Env R) (fb : FeatureBuilder) :
    (FeatureBuilder.Serialize.data env fb).drop
        (1 + (FeatureBuilder.Serialize.types env fb).length +
          (FeatureBuilder.Serialize.layer env fb).length +
          (FeatureBuilder.Serialize.name env fb).length +
          (FeatureBuilder.Serialize.geometry env fb).length) =
      FeatureBuilder.Serialize.triangles env fb := by
  have h := drop_add_append _ _ _ _ (data_drop_geometry env fb)
  exact h

theorem data_length {R : Type} (env : Env R) (fb : FeatureBuilder) :
    (FeatureBuilder.Serialize.data env fb).length =
      1 + (FeatureBuilder.Serialize.types env fb).length +
        (FeatureBuilder.Serialize.layer env fb).length +
        (FeatureBuilder.Serialize.name env fb).length +
        (FeatureBuilder.Serialize.geometry env fb).length +
        (FeatureBuilder.Serialize.triangles env fb).length := by
  simp only [FeatureBuilder.Serialize.data, List.length_cons, List.length_append]
  omega

theorem ParseTypes_data {R : Type} (env : Env R) (hlaw : env.Lawful) (fb : FeatureBuilder)
    (hvalid : fb.Valid) (htypes : fb.m_Types.length < 16)
    (hfit : (FeatureBuilder.Serialize.data env fb).length < 2 ^ 32) :
    FeatureGeom.ParseTypes env
        ⟨FeatureBuilder.Serialize.data env fb, 0, 0, 0, 0, 0, false, false, false, false, false,
          [], 0, [], [], []⟩ =
      some ⟨FeatureBuilder.Serialize.data env fb, 0,
        1 + (FeatureBuilder.Serialize.types env fb).length, 0, 0, 0,
        true, false, false, false, false, fb.m_Types, 0, [], [], []⟩ := by
  have hlen := data_length env fb
  have hcount := (hlaw.2.2.2 fb htypes).1
  have hread := readTypes_write env hlaw
    (FeatureBuilder.Serialize.layer env fb ++
      (FeatureBuilder.Serialize.name env fb ++ (FeatureBuilder.Serialize.geometry env fb ++
        FeatureBuilder.Serialize.triangles env fb))) fb.m_Types hvalid.1
  have hoff : FeatureGeom.CalcOffset (1 + (FeatureBuilder.Serialize.types env fb).length) =
      1 + (FeatureBuilder.Serialize.types env fb).length :=
    Nat.mod_eq_of_lt (by omega)
  simp only [FeatureGeom.ParseTypes, Header_mk, source_mk, data_head,
    data_drop_types, hcount, FeatureBuilder.Serialize.types, Option.bind_eq_bind,
    Option.some_bind, Option.pure_def] at hread hoff ⊢
  simp only [hread, Option.some_bind, hoff]


theorem ParseLayer_data {R : Type} (env : Env R) (hlaw : env.Lawful) (fb : FeatureBuilder)
    (hvalid : fb.Valid) (htypes : fb.m_Types.length < 16)
    (hfit : (FeatureBuilder.Serialize.data env fb).length < 2 ^ 32) :
    FeatureGeom.ParseLayer env
        ⟨FeatureBuilder.Serialize.data env fb, 0, 0, 0, 0, 0, false, false, false, false, false,
          [], 0, [], [], []⟩ =
      some ⟨FeatureBuilder.Serialize.data env fb, 0,
        1 + (FeatureBuilder.Serialize.types env fb).length, 0, 0,
        1 + (FeatureBuilder.Serialize.types env fb).length +
          (FeatureBuilder.Serialize.layer env fb).length,
        true, true, false, false, false, fb.m_Types, fb.m_Layer, [], [], []⟩ := by
  have hlen := data_length env fb
  have hflag := (hlaw.2.2.2 fb htypes).2.1
  simp only [FeatureGeom.ParseLayer, ParseTypes_data env hlaw fb hvalid htypes hfit,
    Bool.not_false, if_true, Option.bind_eq_bind, Option.some_bind, Header_mk, source_mk,
    data_head, data_drop_layer]
  by_cases hl : fb.m_Layer = 0
  · have hno : ¬ (fb.header env &&& env.HEADER_HAS_LAYER ≠ 0) := fun h => hflag.1 h hl
    have hL : FeatureBuilder.Serialize.layer env fb = [] := by
      simp only [FeatureBuilder.Serialize.layer, hl, ne_eq, not_true_eq_false, if_false]
    have hoff : FeatureGeom.CalcOffset (1 + (FeatureBuilder.Serialize.types env fb).length) =
        1 + (FeatureBuilder.Serialize.types env fb).length := Nat.mod_eq_of_lt (by omega)
    rw [if_neg hno]
    simp only [Option.pure_def, hoff, hL, List.length_nil, Nat.add_zero, hl]
  · have hyes : fb.header env &&& env.HEADER_HAS_LAYER ≠ 0 := hflag.2 hl
    obtain ⟨_, h10a, h10b, _⟩ := hvalid
    have hL : FeatureBuilder.Serialize.layer env fb = env.WriteVarInt fb.m_Layer := by
      simp only [FeatureBuilder.Serialize.layer, ne_eq, hl, not_false_eq_true, if_true]
    have hread := hlaw.2.1 fb.m_Layer
      (FeatureBuilder.Serialize.name env fb ++ (FeatureBuilder.Serialize.geometry env fb ++
          FeatureBuilder.Serialize.triangles env fb)) (by omega) (by omega)
    have hoff : FeatureGeom.CalcOffset (1 + (FeatureBuilder.Serialize.types env fb).length +
        (env.WriteVarInt fb.m_Layer).length) =
        1 + (FeatureBuilder.Serialize.types env fb).length +
          (env.WriteVarInt fb.m_Layer).length := by
      rw [hL] at hlen
      exact Nat.mod_eq_of_lt (by omega)
    rw [if_pos hyes]
    simp only [hL, hread, Option.some_bind, Option.pure_def, hoff]


theorem readBytes_append (name rest : List Byte) :
    FeatureGeom.readBytes name.length (name ++ rest) = some name := by
  simp only [FeatureGeom.readBytes, List.length_append, Nat.le_add_right, if_true,
    List.take_left]

theorem ParseName_data {R : Type} (env : Env R) (hlaw : env.Lawful) (fb : FeatureBuilder)
    (hvalid : fb.Valid) (htypes : fb.m_Types.length < 16)
    (hfit : (FeatureBuilder.Serialize.data env fb).length < 2 ^ 32) :
    FeatureGeom.ParseName env
        ⟨FeatureBuilder.Serialize.data env fb, 0, 0, 0, 0, 0, false, false, false, false, false,
          [], 0, [], [], []⟩ =
      some ⟨FeatureBuilder.Serialize.data env fb, 0,
        1 + (FeatureBuilder.Serialize.types env fb).length,
        1 + (FeatureBuilder.Serialize.types env fb).length +
          (FeatureBuilder.Serialize.layer env fb).length +
          (FeatureBuilder.Serialize.name env fb).length, 0,
        1 + (FeatureBuilder.Serialize.types env fb).length +
          (FeatureBuilder.Serialize.layer env fb).length,
        true, true, false, false, true, fb.m_Types, fb.m_Layer, fb.m_Name, [], []⟩ := by
  have hlen := data_length env fb
  have hflag := (hlaw.2.2.2 fb htypes).2.2.1
  simp only [FeatureGeom.ParseName, ParseLayer_data env hlaw fb hvalid htypes hfit,
    Bool.not_false, if_true, Option.bind_eq_bind, Option.some_bind, Header_mk, source_mk,
    data_head, data_drop_name]
  by_cases hn : fb.m_Name = []
  · have hno : ¬ (fb.header env &&& env.HEADER_HAS_NAME ≠ 0) := fun h => hflag.1 h hn
    have hN : FeatureBuilder.Serialize.name env fb = [] := by
      simp only [FeatureBuilder.Serialize.name, hn, ne_eq, not_true_eq_false, if_false]
    have hoff : FeatureGeom.CalcOffset (1 + (FeatureBuilder.Serialize.types env fb).length +
        (FeatureBuilder.Serialize.layer env fb).length) =
        1 + (FeatureBuilder.Serialize.types env fb).length +
          (FeatureBuilder.Serialize.layer env fb).length := Nat.mod_eq_of_lt (by omega)
    rw [if_neg hno]
    simp only [Option.pure_def, hoff, hN, List.length_nil, Nat.add_zero, hn]
  · have hyes : fb.header env &&& env.HEADER_HAS_NAME ≠ 0 := hflag.2 hn
    have hN : FeatureBuilder.Serialize.name env fb =
        env.WriteVarUint (fb.m_Name.length - 1) ++ fb.m_Name := by
      simp only [FeatureBuilder.Serialize.name, ne_eq, hn, not_false_eq_true, if_true]
    have hpos : 0 < fb.m_Name.length := List.length_pos.2 hn
    have hNlen : (FeatureBuilder.Serialize.name env fb).length =
        (env.WriteVarUint (fb.m_Name.length - 1)).length + fb.m_Name.length := by
      rw [hN, List.length_append]
    have hread := hlaw.1 (fb.m_Name.length - 1)
      (fb.m_Name ++ (FeatureBuilder.Serialize.geometry env fb ++
          FeatureBuilder.Serialize.triangles env fb)) (by omega)
    have hsize : ((fb.m_Name.length - 1) % 2 ^ 32 + 1) % 2 ^ 32 = fb.m_Name.length := by
      omega
    have hdrop := drop_add_append _ (env.WriteVarUint (fb.m_Name.length - 1))
      (fb.m_Name ++ (FeatureBuilder.Serialize.geometry env fb ++
          FeatureBuilder.Serialize.triangles env fb)) _
      (by rw [data_drop_name, hN, List.append_assoc])
    have hoff : FeatureGeom.CalcOffset (1 + (FeatureBuilder.Serialize.types env fb).length +
        (FeatureBuilder.Serialize.layer env fb).length +
        (env.WriteVarUint (fb.m_Name.length - 1)).length + fb.m_Name.length) =
        1 + (FeatureBuilder.Serialize.types env fb).length +
          (FeatureBuilder.Serialize.layer env fb).length +
          (FeatureBuilder.Serialize.name env fb).length := by
      rw [hNlen]
      exact (Nat.mod_eq_of_lt (by omega)).trans (by omega)
    rw [if_pos hyes]
    simp only [hN, List.append_assoc, hread, Option.some_bind, hsize, hdrop, readBytes_append,
      Option.pure_def, hoff]


theorem ParseGeometry_data {R : Type} (env : Env R) (hlaw : env.Lawful) (fb : FeatureBuilder)
    (hvalid : fb.Valid) (hgeom : fb.m_Geometry ≠ []) (htypes : fb.m_Types.length < 16)
    (hfit : (FeatureBuilder.Serialize.data env fb).length < 2 ^ 32) :
    FeatureGeom.ParseGeometry env
        ⟨FeatureBuilder.Serialize.data env fb, 0, 0, 0, 0, 0, false, false, false, false, false,
          [], 0, [], [], []⟩ =
      some ⟨FeatureBuilder.Serialize.data env fb, 0,
        1 + (FeatureBuilder.Serialize.types env fb).length,
        1 + (FeatureBuilder.Serialize.types env fb).length +
          (FeatureBuilder.Serialize.layer env fb).length +
          (FeatureBuilder.Serialize.name env fb).length,
        1 + (FeatureBuilder.Serialize.types env fb).length +
          (FeatureBuilder.Serialize.layer env fb).length +
          (FeatureBuilder.Serialize.name env fb).length +
          (FeatureBuilder.Serialize.geometry env fb).length,
        1 + (FeatureBuilder.Serialize.types env fb).length +
          (FeatureBuilder.Serialize.layer env fb).length,
        true, true, true, false, true, fb.m_Types, fb.m_Layer, fb.m_Name,
        fb.m_Geometry.map (pts.ToPoint env), []⟩ := by
  have hlen := data_length env fb
  have hflag := (hlaw.2.2.2 fb htypes).2.2.2.1
  have hrange := hvalid.2.2.2.1
  have hdel := deltas_eq_deltasFrom fb.m_Geometry hrange
  have hpoints := readPoints_write env hlaw (FeatureBuilder.Serialize.triangles env fb)
    fb.m_Geometry 0 hrange
  have hcount := length_le_flatMap_WriteVarInt env hlaw (FeatureBuilder.deltasFrom 0 fb.m_Geometry)
    (deltasFrom_range 0 fb.m_Geometry)
  rw [deltasFrom_length] at hcount
  simp only [FeatureGeom.ParseGeometry, ParseName_data env hlaw fb hvalid htypes hfit,
    Bool.not_false, if_true, Option.bind_eq_bind, Option.some_bind, Header_mk, source_mk,
    data_head]
  by_cases h1 : 1 < fb.m_Geometry.length
  · have hnp : ¬ env.GetFeatureType (fb.header env) = FeatureType.FEATURE_TYPE_POINT :=
      fun h => hflag.1 h h1
    have hG : FeatureBuilder.Serialize.geometry env fb =
        env.WriteVarUint (fb.m_Geometry.length - 1) ++
          (FeatureBuilder.deltasFrom 0 fb.m_Geometry).flatMap env.WriteVarInt := by
      simp only [FeatureBuilder.Serialize.geometry, hdel, if_neg (show ¬ fb.m_Geometry.length = 1
        by omega)]
    have hGlen : (FeatureBuilder.Serialize.geometry env fb).length =
        (env.WriteVarUint (fb.m_Geometry.length - 1)).length +
          ((FeatureBuilder.deltasFrom 0 fb.m_Geometry).flatMap env.WriteVarInt).length := by
      rw [hG, List.length_append]
    have hread := hlaw.1 (fb.m_Geometry.length - 1)
      ((FeatureBuilder.deltasFrom 0 fb.m_Geometry).flatMap env.WriteVarInt ++
          FeatureBuilder.Serialize.triangles env fb) (by omega)
    have hsize : ((fb.m_Geometry.length - 1) % 2 ^ 32 + 1) % 2 ^ 32 = fb.m_Geometry.length := by
      omega
    have hdrop := drop_add_append _ (env.WriteVarUint (fb.m_Geometry.length - 1))
      ((FeatureBuilder.deltasFrom 0 fb.m_Geometry).flatMap env.WriteVarInt ++
          FeatureBuilder.Serialize.triangles env fb) _
      (by rw [data_drop_geometry, hG, List.append_assoc])
    have hoff : FeatureGeom.CalcOffset (1 + (FeatureBuilder.Serialize.types env fb).length +
        (FeatureBuilder.Serialize.layer env fb).length +
        (FeatureBuilder.Serialize.name env fb).length +
        (env.WriteVarUint (fb.m_Geometry.length - 1)).length +
        ((FeatureBuilder.deltasFrom 0 fb.m_Geometry).flatMap env.WriteVarInt).length) =
        1 + (FeatureBuilder.Serialize.types env fb).length +
          (FeatureBuilder.Serialize.layer env fb).length +
          (FeatureBuilder.Serialize.name env fb).length +
          (FeatureBuilder.Serialize.geometry env fb).length := by
      rw [hGlen]
      exact (Nat.mod_eq_of_lt (by omega)).trans (by omega)
    rw [if_neg hnp]
    simp only [data_drop_geometry, hG, List.append_assoc, hread, Option.some_bind,
      Option.pure_def, hsize, hdrop, hpoints, hoff]
  · have hp : env.GetFeatureType (fb.header env) = FeatureType.FEATURE_TYPE_POINT :=
      hflag.2 h1
    have hone : fb.m_Geometry.length = 1 := by
      have := List.length_pos.2 hgeom
      omega
    obtain ⟨g0, hg0⟩ : ∃ g0, fb.m_Geometry = [g0] := List.length_eq_one.1 hone
    have hin := hrange g0 (by rw [hg0]; exact List.mem_singleton_self g0)
    have hG : FeatureBuilder.Serialize.geometry env fb = env.WriteVarInt g0 := by
      simp only [FeatureBuilder.Serialize.geometry, hg0, List.length_singleton, if_true,
        List.headD_cons]
    have hoff : FeatureGeom.CalcOffset (1 + (FeatureBuilder.Serialize.types env fb).length +
        (FeatureBuilder.Serialize.layer env fb).length +
        (FeatureBuilder.Serialize.name env fb).length +
        (env.WriteVarInt g0).length) =
        1 + (FeatureBuilder.Serialize.types env fb).length +
          (FeatureBuilder.Serialize.layer env fb).length +
          (FeatureBuilder.Serialize.name env fb).length +
          (env.WriteVarInt g0).length := by
      rw [hG] at hlen
      exact (Nat.mod_eq_of_lt (by omega)).trans (by omega)
    rw [if_pos hp]
    simp only [hg0, FeatureBuilder.deltasFrom, Int.sub_zero, wrap64_of_range g0 hin.1 hin.2,
      List.flatMap_cons, List.flatMap_nil, List.append_nil, List.length_singleton,
      List.map_cons, List.map_nil] at hpoints
    simp only [Option.pure_def, Option.some_bind, Nat.add_zero, data_drop_geometry, hG, hpoints,
      hoff, hg0, List.map_cons, List.map_nil]


theorem ParseTriangles_data {R : Type} (env : Env R) (hlaw : env.Lawful) (fb : FeatureBuilder)
    (hvalid : fb.Valid) (hgeom : fb.m_Geometry ≠ [])
    (htri : 1 < fb.m_Geometry.length ∨ fb.m_Triangles = []) (htypes : fb.m_Types.length < 16)
    (hfit : (FeatureBuilder.Serialize.data env fb).length < 2 ^ 32) :
    FeatureGeom.ParseTriangles env
        ⟨FeatureBuilder.Serialize.data env fb, 0, 0, 0, 0, 0, false, false, false, false, false,
          [], 0, [], [], []⟩ =
      some ⟨FeatureBuilder.Serialize.data env fb, 0,
        1 + (FeatureBuilder.Serialize.types env fb).length,
        1 + (FeatureBuilder.Serialize.types env fb).length +
          (FeatureBuilder.Serialize.layer env fb).length +
          (FeatureBuilder.Serialize.name env fb).length,
        1 + (FeatureBuilder.Serialize.types env fb).length +
          (FeatureBuilder.Serialize.layer env fb).length +
          (FeatureBuilder.Serialize.name env fb).length +
          (FeatureBuilder.Serialize.geometry env fb).length,
        1 + (FeatureBuilder.Serialize.types env fb).length +
          (FeatureBuilder.Serialize.layer env fb).length,
        true, true, true, true, true, fb.m_Types, fb.m_Layer, fb.m_Name,
        fb.m_Geometry.map (pts.ToPoint env), fb.m_Triangles.map (pts.ToPoint env)⟩ := by
  have hlen := data_length env fb
  have hflag := (hlaw.2.2.2 fb htypes).2.2.2.2
  have hrange := hvalid.2.2.2.2.1
  have hthree := hvalid.2.2.2.2.2
  have hdel := deltas_eq_deltasFrom fb.m_Triangles hrange
  have hpoints := readPoints_write env hlaw [] fb.m_Triangles 0 hrange
  have hcount := length_le_flatMap_WriteVarInt env hlaw
    (FeatureBuilder.deltasFrom 0 fb.m_Triangles) (deltasFrom_range 0 fb.m_Triangles)
  rw [deltasFrom_length] at hcount
  simp only [FeatureGeom.ParseTriangles,
    ParseGeometry_data env hlaw fb hvalid hgeom htypes hfit,
    Bool.not_false, if_true, Option.bind_eq_bind, Option.some_bind, Header_mk, source_mk,
    data_head]
  by_cases ht : fb.m_Triangles = []
  · have hna : ¬ env.GetFeatureType (fb.header env) = FeatureType.FEATURE_TYPE_AREA :=
      fun h => (hflag.1 h).2 ht
    rw [if_neg hna]
    simp only [Option.pure_def, ht, List.map_nil]
  · have h1 : 1 < fb.m_Geometry.length := htri.resolve_right ht
    have ha : env.GetFeatureType (fb.header env) = FeatureType.FEATURE_TYPE_AREA :=
      hflag.2 ⟨h1, ht⟩
    have hpos : 0 < fb.m_Triangles.length := List.length_pos.2 ht
    have hle : fb.m_Triangles.length ≤ (FeatureBuilder.Serialize.triangles env fb).length := by
      simp only [FeatureBuilder.Serialize.triangles, hdel, ne_eq, ht, not_false_eq_true, if_true,
        List.length_append]
      omega
    have hT : FeatureBuilder.Serialize.triangles env fb =
        env.WriteVarUint (fb.m_Triangles.length / 3 - 1) ++
          (FeatureBuilder.deltasFrom 0 fb.m_Triangles).flatMap env.WriteVarInt := by
      have hw : (fb.m_Triangles.length / 3 + 2 ^ 64 - 1) % 2 ^ 64 =
          fb.m_Triangles.length / 3 - 1 := by omega
      simp only [FeatureBuilder.Serialize.triangles, hdel, ne_eq, ht, not_false_eq_true, if_true,
        hw]
    have hTlen : (FeatureBuilder.Serialize.triangles env fb).length =
        (env.WriteVarUint (fb.m_Triangles.length / 3 - 1)).length +
          ((FeatureBuilder.deltasFrom 0 fb.m_Triangles).flatMap env.WriteVarInt).length := by
      rw [hT, List.length_append]
    have hread := hlaw.1 (fb.m_Triangles.length / 3 - 1)
      ((FeatureBuilder.deltasFrom 0 fb.m_Triangles).flatMap env.WriteVarInt) (by omega)
    have hsize : (((fb.m_Triangles.length / 3 - 1) % 2 ^ 32 + 1) * 3) % 2 ^ 32 =
        fb.m_Triangles.length := by omega
    have hdrop := drop_add_append _ (env.WriteVarUint (fb.m_Triangles.length / 3 - 1))
      ((FeatureBuilder.deltasFrom 0 fb.m_Triangles).flatMap env.WriteVarInt) _
      (by rw [data_drop_triangles, hT])
    rw [List.append_nil] at hpoints
    rw [if_pos ha]
    simp only [data_drop_triangles, hT, hread, Option.some_bind, Option.pure_def, hsize, hdrop,
      hpoints]


/-! ## Lemmas about `InitFeatureBuilder` -/

theorem ToId_ToPoint {R : Type} (env : Env R) (id : Int) (h1 : -2 ^ 63 ≤ id) (h2 : id < 2 ^ 63)
    (hid : env.PointToInt64 (env.Int64ToPoint id).1 (env.Int64ToPoint id).2 = id) :
    pts.ToId env ((pts.ToPoint env id).x, (pts.ToPoint env id).y) = id := by
  simp only [pts.ToId, pts.ToPoint, hid, wrap64_of_range id h1 h2]

theorem foldl_AddPoint {R : Type} (env : Env R) :
    ∀ (ids : List Int) (fb : FeatureBuilder),
      (∀ id ∈ ids, pts.ToId env ((pts.ToPoint env id).x, (pts.ToPoint env id).y) = id) →
      (ids.map (pts.ToPoint env)).foldl (fun fb p => fb.AddPoint env p) fb =
        { fb with m_Geometry := fb.m_Geometry ++ ids }
  | [], fb, _ => by simp only [List.map_nil, List.foldl_nil, List.append_nil]
  | x :: xs, fb, h => by
    have ih := foldl_AddPoint env xs (fb.AddPoint env (pts.ToPoint env x))
      (fun id hid => h id (List.mem_cons_of_mem _ hid))
    simp only [List.map_cons, List.foldl_cons]
    rw [ih]
    simp only [FeatureBuilder.AddPoint, h x (List.mem_cons_self _ _), List.append_assoc,
      List.singleton_append]

theorem addTriangles_range {R : Type} (env : Env R) (ps : List (PointD R)) :
    ∀ (n start : Nat) (fb : FeatureBuilder), ps.length = 3 * (start + n) →
      FeatureGeom.addTriangles env ps (List.range' start n) fb =
        some { fb with m_Triangles := fb.m_Triangles ++
          (ps.drop (3 * start)).map (fun p => pts.ToId env (p.x, p.y)) }
  | 0, start, fb, h => by
    have hd : ps.drop (3 * start) = [] := List.drop_eq_nil_of_le (by omega)
    simp only [List.range', FeatureGeom.addTriangles, hd, List.map_nil, List.append_nil]
  | n + 1, start, fb, h => by
    have ha : ps.get? (3 * start + 0) = some (ps.get ⟨3 * start + 0, by omega⟩) :=
      List.get?_eq_get _
    have hb : ps.get? (3 * start + 1) = some (ps.get ⟨3 * start + 1, by omega⟩) :=
      List.get?_eq_get _
    have hc : ps.get? (3 * start + 2) = some (ps.get ⟨3 * start + 2, by omega⟩) :=
      List.get?_eq_get _
    have ih := addTriangles_range env ps n (start + 1)
      (fb.AddTriangle env (ps.get ⟨3 * start + 0, by omega⟩) (ps.get ⟨3 * start + 1, by omega⟩)
        (ps.get ⟨3 * start + 2, by omega⟩)) (by omega)
    have hd : ps.drop (3 * start) = ps.get ⟨3 * start + 0, by omega⟩ ::
        ps.get ⟨3 * start + 1, by omega⟩ :: ps.get ⟨3 * start + 2, by omega⟩ ::
        ps.drop (3 * (start + 1)) := by
      rw [List.drop_eq_getElem_cons (by omega : 3 * start < ps.length),
        List.drop_eq_getElem_cons (by omega : 3 * start + 1 < ps.length),
        List.drop_eq_getElem_cons (by omega : 3 * start + 1 + 1 < ps.length)]
      rfl
    simp only [List.range', FeatureGeom.addTriangles, ha, hb, hc, Option.bind_eq_bind,
      Option.some_bind]
    rw [ih, hd]
    simp only [List.map_cons, FeatureBuilder.AddTriangle, List.append_assoc,
      List.singleton_append, List.cons_append, List.nil_append]

theorem map_ToId_ToPoint {R : Type} (env : Env R) (ids : List Int)
    (h : ∀ id ∈ ids, pts.ToId env ((pts.ToPoint env id).x, (pts.ToPoint env id).y) = id) :
    (ids.map (pts.ToPoint env)).map (fun p => pts.ToId env (p.x, p.y)) = ids := by
  induction ids with
  | nil => rfl
  | cons x xs ih =>
    simp only [List.map_cons, h x (List.mem_cons_self _ _),
      ih (fun id hid => h id (List.mem_cons_of_mem _ hid))]

theorem map_mod_of_lt (ts : List Nat) (h : ∀ t ∈ ts, t < 2 ^ 32) :
    ts.map (fun t => t % 2 ^ 32) = ts := by
  induction ts with
  | nil => rfl
  | cons x xs ih =>
    simp only [List.map_cons, Nat.mod_eq_of_lt (h x (List.mem_cons_self _ _)),
      ih (fun t ht => h t (List.mem_cons_of_mem _ ht))]

theorem equals_iff (a b : FeatureBuilder) : a.equals b = true ↔ a = b := by
  cases a
  cases b
  simp only [FeatureBuilder.equals, Bool.and_eq_true, beq_iff_eq, FeatureBuilder.mk.injEq,
    and_assoc]


theorem InitFeatureBuilder_parsed {R : Type} (env : Env R) (hlaw : env.Lawful)
    (fb : FeatureBuilder) (hvalid : fb.Valid) (htypes : fb.m_Types.length < 16)
    (hsmall : fb.m_Triangles.length < 2 ^ 32)
    (hids : ∀ id ∈ fb.m_Geometry ++ fb.m_Triangles,
      env.PointToInt64 (env.Int64ToPoint id).1 (env.Int64ToPoint id).2 = id)
    (a b c d : Nat) :
    FeatureGeom.InitFeatureBuilder env
        ⟨FeatureBuilder.Serialize.data env fb, 0, a, b, c, d, true, true, true, true, true,
          fb.m_Types, fb.m_Layer, fb.m_Name, fb.m_Geometry.map (pts.ToPoint env),
          fb.m_Triangles.map (pts.ToPoint env)⟩ FeatureBuilder.init = some fb := by
  obtain ⟨hty, hl1, hl2, hg, ht, hthree⟩ := hvalid
  have hcount := (hlaw.2.2.2 fb htypes).1
  have hgeo : ∀ id ∈ fb.m_Geometry,
      pts.ToId env ((pts.ToPoint env id).x, (pts.ToPoint env id).y) = id :=
    fun id hid => ToId_ToPoint env id (hg id hid).1 (hg id hid).2
      (hids id (List.mem_append_left _ hid))
  have htri : ∀ id ∈ fb.m_Triangles,
      pts.ToId env ((pts.ToPoint env id).x, (pts.ToPoint env id).y) = id :=
    fun id hid => ToId_ToPoint env id (ht id hid).1 (ht id hid).2
      (hids id (List.mem_append_right _ hid))
  have hlayer : (if fb.m_Layer < -10 then (-10 : Int) else if fb.m_Layer > 10 then 10
      else fb.m_Layer) = fb.m_Layer := by
    rw [if_neg (by omega), if_neg (by omega)]
  have hn : (fb.m_Triangles.length / 3) % 2 ^ 32 = fb.m_Triangles.length / 3 := by omega
  have hadd := addTriangles_range env (fb.m_Triangles.map (pts.ToPoint env))
    (fb.m_Triangles.length / 3) 0
    ⟨fb.m_Types, fb.m_Layer, fb.m_Name, fb.m_Geometry, []⟩
    (by rw [List.length_map]; omega)
  rw [← List.range_eq_range'] at hadd
  simp only [FeatureGeom.InitFeatureBuilder, FeatureGeom.ParseAll, Bool.not_true,
    Bool.false_eq_true, if_false, Option.bind_eq_bind, Option.some_bind, Header_mk, data_head,
    hcount, List.take_length, FeatureBuilder.AddTypes, FeatureBuilder.init,
    map_mod_of_lt fb.m_Types hty, FeatureBuilder.AddLayer, if_true, hlayer,
    FeatureBuilder.AddName, foldl_AddPoint env fb.m_Geometry _ hgeo, List.nil_append,
    List.length_map, hn, hadd, Nat.mul_zero, List.drop_zero,
    map_ToId_ToPoint env fb.m_Triangles htri]


/-! ## Lemmas about the length of a parsed name -/

theorem ParseTypes_name {R : Type} (env : Env R) (f f1 : FeatureGeom R)
    (h : FeatureGeom.ParseTypes env f = some f1) : f1.m_Name = f.m_Name := by
  unfold FeatureGeom.ParseTypes at h
  simp only [Option.bind_eq_bind, Option.bind_eq_some, Option.pure_def, Option.some.injEq] at h
  obtain ⟨_, _, ⟨_, _⟩, _, h⟩ := h
  rw [← h]

theorem ParseLayer_name {R : Type} (env : Env R) (f f1 : FeatureGeom R)
    (h : FeatureGeom.ParseLayer env f = some f1) : f1.m_Name = f.m_Name := by
  unfold FeatureGeom.ParseLayer at h
  simp only [Option.bind_eq_bind, Option.bind_eq_some, Option.pure_def] at h
  obtain ⟨f2, hf2, _, _, h⟩ := h
  have h2 : f2.m_Name = f.m_Name := by
    split at hf2
    · exact ParseTypes_name env f f2 hf2
    · cases hf2; rfl
  split at h
  · simp only [Option.bind_eq_some, Option.some.injEq] at h
    obtain ⟨⟨_, _⟩, _, h⟩ := h
    rw [← h, ← h2]
  · cases h
    exact h2

theorem readBytes_length (size : Nat) (src name : List Byte)
    (h : FeatureGeom.readBytes size src = some name) : name.length = size := by
  unfold FeatureGeom.readBytes at h
  split at h
  · cases h
    rw [List.length_take]
    omega
  · cases h

theorem ParseName_name {R : Type} (env : Env R) (f f1 : FeatureGeom R)
    (hf : f.m_Name.length < 2 ^ 32) (h : FeatureGeom.ParseName env f = some f1) :
    f1.m_Name.length < 2 ^ 32 := by
  unfold FeatureGeom.ParseName at h
  simp only [Option.bind_eq_bind, Option.bind_eq_some, Option.pure_def] at h
  obtain ⟨f2, hf2, _, _, h⟩ := h
  have h2 : f2.m_Name = f.m_Name := by
    split at hf2
    · exact ParseLayer_name env f f2 hf2
    · cases hf2; rfl
  split at h
  · simp only [Option.bind_eq_some, Option.some.injEq] at h
    obtain ⟨⟨size, n⟩, _, name, hname, h⟩ := h
    rw [← h]
    have hlen := readBytes_length _ _ _ hname
    show name.length < 2 ^ 32
    rw [hlen]
    exact Nat.mod_lt _ (by norm_num)
  · cases h
    show f2.m_Name.length < 2 ^ 32
    rw [h2]
    exact hf

theorem ParseGeometry_name {R : Type} (env : Env R) (f f1 : FeatureGeom R)
    (hf : f.m_Name.length < 2 ^ 32) (h : FeatureGeom.ParseGeometry env f = some f1) :
    f1.m_Name.length < 2 ^ 32 := by
  unfold FeatureGeom.ParseGeometry at h
  simp only [Option.bind_eq_bind, Option.bind_eq_some, Option.pure_def] at h
  obtain ⟨f2, hf2, _, _, h⟩ := h
  have h2 : f2.m_Name.length < 2 ^ 32 := by
    split at hf2
    · exact ParseName_name env f f2 hf hf2
    · cases hf2; exact hf
  split at h
  · simp only [Option.some_bind, Option.bind_eq_some, Option.some.injEq] at h
    obtain ⟨⟨_, _⟩, _, h⟩ := h
    rw [← h]
    exact h2
  · simp only [Option.some_bind, Option.bind_eq_some, Option.some.injEq] at h
    obtain ⟨⟨_, _⟩, _, ⟨_, _⟩, _, h⟩ := h
    rw [← h]
    exact h2

theorem ParseTriangles_name {R : Type} (env : Env R) (f f1 : FeatureGeom R)
    (hf : f.m_Name.length < 2 ^ 32) (h : FeatureGeom.ParseTriangles env f = some f1) :
    f1.m_Name.length < 2 ^ 32 := by
  unfold FeatureGeom.ParseTriangles at h
  simp only [Option.bind_eq_bind, Option.bind_eq_some, Option.pure_def] at h
  obtain ⟨f2, hf2, _, _, h⟩ := h
  have h2 : f2.m_Name.length < 2 ^ 32 := by
    split at hf2
    · exact ParseGeometry_name env f f2 hf hf2
    · cases hf2; exact hf
  split at h
  · simp only [Option.bind_eq_some, Option.some.injEq] at h
    obtain ⟨⟨_, _⟩, _, ⟨_, _⟩, _, h⟩ := h
    rw [← h]
    exact h2
  · cases h
    exact h2

theorem ParseAll_name {R : Type} (env : Env R) (f f1 : FeatureGeom R)
    (hf : f.m_Name.length < 2 ^ 32) (h : FeatureGeom.ParseAll env f = some f1) :
    f1.m_Name.length < 2 ^ 32 := by
  unfold FeatureGeom.ParseAll at h
  split at h
  · exact ParseTriangles_name env f f1 hf h
  · cases h; exact hf

theorem foldl_AddPoint_name {R : Type} (env : Env R) :
    ∀ (ps : List (PointD R)) (fb : FeatureBuilder),
      (ps.foldl (fun fb p => fb.AddPoint env p) fb).m_Name = fb.m_Name
  | [], _ => rfl
  | p :: ps, fb => by
    rw [List.foldl_cons, foldl_AddPoint_name env ps (fb.AddPoint env p)]
    rfl

theorem addTriangles_name {R : Type} (env : Env R) (triangles : List (PointD R)) :
    ∀ (idx : List Nat) (fb fb1 : FeatureBuilder),
      FeatureGeom.addTriangles env triangles idx fb = some fb1 → fb1.m_Name = fb.m_Name
  | [], fb, fb1, h => by
    simp only [FeatureGeom.addTriangles, Option.some.injEq] at h
    rw [← h]
  | i :: rest, fb, fb1, h => by
    simp only [FeatureGeom.addTriangles, Option.bind_eq_bind, Option.bind_eq_some] at h
    obtain ⟨a, _, b, _, c, _, h⟩ := h
    rw [addTriangles_name env triangles rest _ fb1 h]
    rfl

theorem InitFeatureBuilder_name {R : Type} (env : Env R) (f : FeatureGeom R)
    (fb fb1 : FeatureBuilder) (hf : f.m_Name.length < 2 ^ 32)
    (h : FeatureGeom.InitFeatureBuilder env f fb = some fb1) : fb1.m_Name.length < 2 ^ 32 := by
  unfold FeatureGeom.InitFeatureBuilder at h
  simp only [Option.bind_eq_bind, Option.bind_eq_some] at h
  obtain ⟨f1, hf1, _, _, fb2, _, fb3, hfb3, h⟩ := h
  have hname := ParseAll_name env f f1 hf hf1
  rw [addTriangles_name env _ _ _ fb1 h, foldl_AddPoint_name]
  unfold FeatureBuilder.AddName at hfb3
  split at hfb3
  · cases hfb3
    exact hname
  · cases hfb3

theorem parsed_name_length {R : Type} (env : Env R) (data : List Byte) (fb : FeatureBuilder)
    (h : FeatureBuilder.CheckCorrect.parsed env data = some fb) : fb.m_Name.length < 2 ^ 32 := by
  unfold FeatureBuilder.CheckCorrect.parsed at h
  simp only [Option.bind_eq_bind, Option.bind_eq_some] at h
  obtain ⟨f, hf, h⟩ := h
  have hname : f.m_Name.length < 2 ^ 32 :=
    ParseAll_name env _ f (by simp [FeatureGeom.Deserialize]) hf
  exact InitFeatureBuilder_name env f _ fb hname h


/-! ## Lemmas about the builders the operations make -/

theorem init_valid : FeatureBuilder.init.Valid := by
  refine ⟨?_, by decide, by decide, ?_, ?_, rfl⟩ <;> intro x hx <;> cases hx

theorem Call.apply_valid {R : Type} (env : Env R) (fb fb1 : FeatureBuilder) (c : Call R)
    (hv : fb.Valid) (h : c.apply env fb = some fb1) : fb1.Valid := by
  obtain ⟨hty, hl1, hl2, hg, ht, hthree⟩ := hv
  cases c with
  | AddPoint p =>
    simp only [Call.apply, Option.some.injEq] at h
    subst h
    refine ⟨hty, hl1, hl2, ?_, ht, hthree⟩
    intro id hid
    simp only [FeatureBuilder.AddPoint, List.mem_append, List.mem_singleton] at hid
    rcases hid with hid | rfl
    · exact hg id hid
    · exact wrap64_range _
  | AddTriangle a b c =>
    simp only [Call.apply, Option.some.injEq] at h
    subst h
    refine ⟨hty, hl1, hl2, hg, ?_, ?_⟩
    · intro id hid
      simp only [FeatureBuilder.AddTriangle, List.mem_append, List.mem_singleton] at hid
      rcases hid with ((hid | rfl) | rfl) | rfl
      · exact ht id hid
      · exact wrap64_range _
      · exact wrap64_range _
      · exact wrap64_range _
    · simp only [FeatureBuilder.AddTriangle, List.length_append, List.length_singleton]
      omega
  | AddName name =>
    simp only [Call.apply, FeatureBuilder.AddName] at h
    split at h
    · cases h
      exact ⟨hty, hl1, hl2, hg, ht, hthree⟩
    · cases h
  | AddLayer layer =>
    simp only [Call.apply, FeatureBuilder.AddLayer] at h
    split at h
    · cases h
      refine ⟨hty, ?_, ?_, hg, ht, hthree⟩
      · show -10 ≤ (if layer < -10 then (-10 : Int) else if layer > 10 then 10 else layer)
        split
        · decide
        · split <;> omega
      · show (if layer < -10 then (-10 : Int) else if layer > 10 then 10 else layer) ≤ 10
        split
        · decide
        · split <;> omega
    · cases h
  | AddTypes types =>
    simp only [Call.apply, Option.some.injEq] at h
    subst h
    refine ⟨?_, hl1, hl2, hg, ht, hthree⟩
    intro t ht2
    simp only [FeatureBuilder.AddTypes, List.mem_map] at ht2
    obtain ⟨u, _, rfl⟩ := ht2
    exact Nat.mod_lt _ (by norm_num)

theorem build_valid {R : Type} (env : Env R) :
    ∀ (calls : List (Call R)) (fb fb1 : FeatureBuilder), fb.Valid →
      build env fb calls = some fb1 → fb1.Valid
  | [], fb, fb1, hv, h => by
    simp only [build, Option.some.injEq] at h
    rw [← h]
    exact hv
  | c :: cs, fb, fb1, hv, h => by
    simp only [build, Option.bind_eq_some] at h
    obtain ⟨fb2, h2, h3⟩ := h
    exact build_valid env cs fb2 fb1 (Call.apply_valid env fb fb2 c hv h2) h3

theorem Serialize_eq {R : Type} (env : Env R) (fb : FeatureBuilder) (hgeom : fb.m_Geometry ≠ [])
    (htri : 1 < fb.m_Geometry.length ∨ fb.m_Triangles = []) (htypes : fb.m_Types.length < 16) :
    fb.Serialize env = some (FeatureBuilder.Serialize.data env fb) := by
  unfold FeatureBuilder.Serialize
  rw [if_neg hgeom, if_neg (not_not.2 htri), if_neg (not_not.2 htypes)]

theorem parsed_data {R : Type} (env : Env R) (hlaw : env.Lawful) (fb : FeatureBuilder)
    (hvalid : fb.Valid) (hgeom : fb.m_Geometry ≠ [])
    (htri : 1 < fb.m_Geometry.length ∨ fb.m_Triangles = []) (htypes : fb.m_Types.length < 16)
    (hids : ∀ id ∈ fb.m_Geometry ++ fb.m_Triangles,
      env.PointToInt64 (env.Int64ToPoint id).1 (env.Int64ToPoint id).2 = id)
    (hfit : (FeatureBuilder.Serialize.data env fb).length < 2 ^ 32) :
    FeatureBuilder.CheckCorrect.parsed env (FeatureBuilder.Serialize.data env fb) = some fb := by
  have hparse := ParseTriangles_data env hlaw fb hvalid hgeom htri htypes hfit
  have hsmall : fb.m_Triangles.length < 2 ^ 32 := by
    have hlen := data_length env fb
    have hcount := length_le_flatMap_WriteVarInt env hlaw
      (FeatureBuilder.deltasFrom 0 fb.m_Triangles) (deltasFrom_range 0 fb.m_Triangles)
    rw [deltasFrom_length] at hcount
    by_cases ht : fb.m_Triangles = []
    · rw [ht]; decide
    · have hle : fb.m_Triangles.length ≤ (FeatureBuilder.Serialize.triangles env fb).length := by
        simp only [FeatureBuilder.Serialize.triangles,
          deltas_eq_deltasFrom fb.m_Triangles hvalid.2.2.2.2.1, ne_eq, ht, not_false_eq_true,
          if_true, List.length_append]
        omega
      omega
  unfold FeatureBuilder.CheckCorrect.parsed FeatureGeom.DeserializeAndParse FeatureGeom.ParseAll
  simp only [FeatureGeom.Deserialize, FeatureGeom.init, Bool.not_false, if_true, hparse,
    Option.bind_eq_bind, Option.some_bind]
  exact InitFeatureBuilder_parsed env hlaw fb hvalid htypes hsmall hids _ _ _ _


/-! ## Lemmas about the example instance -/

theorem Example.readVarUint_write (rest : List Byte) :
    ∀ (more v : Nat), v < 128 ^ (more + 1) →
      Example.readVarUint (Example.writeVarUint more v ++ rest) =
        some (v, (Example.writeVarUint more v).length)
  | 0, v, h => by
    have hv : v < 128 := by simpa using h
    simp only [Example.writeVarUint, List.singleton_append, Example.readVarUint, hv, if_true,
      List.length_singleton]
  | more + 1, v, h => by
    by_cases hv : v < 128
    · simp only [Example.writeVarUint, hv, if_true, List.singleton_append, Example.readVarUint,
        List.length_singleton]
    · have hdiv : v / 128 < 128 ^ (more + 1) := by
        rw [Nat.div_lt_iff_lt_mul (by norm_num)]
        calc v < 128 ^ (more + 1 + 1) := h
          _ = 128 ^ (more + 1) * 128 := by rw [Nat.pow_succ]
      have ih := Example.readVarUint_write rest more (v / 128) hdiv
      have hb : ¬ v % 128 + 128 < 128 := by omega
      have hval : v % 128 + 128 - 128 + 128 * (v / 128) = v := by omega
      simp only [Example.writeVarUint, hv, if_false, List.cons_append, Example.readVarUint, hb,
        ih, Option.map_some', hval, List.length_cons]

theorem Example.zigZag_32 (v : Int) (h1 : -2 ^ 31 ≤ v) (h2 : v < 2 ^ 31) :
    Example.zigZagEncode v < 2 ^ 32 ∧
      Example.zigZagDecode (Example.zigZagEncode v % 2 ^ 32) = v := by
  unfold Example.zigZagDecode Example.zigZagEncode
  split <;> omega

theorem Example.zigZag_64 (v : Int) (h1 : -2 ^ 63 ≤ v) (h2 : v < 2 ^ 63) :
    Example.zigZagEncode v < 2 ^ 64 ∧
      Example.zigZagDecode (Example.zigZagEncode v % 2 ^ 64) = v := by
  unfold Example.zigZagDecode Example.zigZagEncode
  split <;> omega

theorem Example.env_lawful : Example.env.Lawful := by
  refine ⟨?_, ?_, ?_, ?_⟩
  · intro v rest hv
    have h := Example.readVarUint_write rest 9 v (lt_trans hv (by norm_num))
    simp only [Example.env, h, Option.map_some', Nat.mod_eq_of_lt hv]
  · intro v rest h1 h2
    obtain ⟨hz, hd⟩ := Example.zigZag_32 v h1 h2
    have h := Example.readVarUint_write rest 9 (Example.zigZagEncode v)
      (lt_trans hz (by norm_num))
    simp only [Example.env, h, Option.map_some', hd]
  · intro v rest h1 h2
    obtain ⟨hz, hd⟩ := Example.zigZag_64 v h1 h2
    have h := Example.readVarUint_write rest 9 (Example.zigZagEncode v)
      (lt_trans hz (by norm_num))
    simp only [Example.env, h, Option.map_some', hd]
  · intro fb hlt
    simp only [FeatureBuilder.header, Example.env]
    generalize fb.m_Types.length = n at hlt
    by_cases hl : fb.m_Layer = 0 <;> by_cases hg : 1 < fb.m_Geometry.length <;>
      by_cases ht : fb.m_Triangles = [] <;> by_cases hn : fb.m_Name = [] <;>
      simp only [hl, hg, ht, hn, ne_eq, not_true_eq_false, not_false_eq_true, if_true, if_false,
        true_and, and_true, false_and, and_false, iff_true, iff_false, true_iff, false_iff,
        and_self, not_not] <;>
      interval_cases n <;> decide


/-! ## Serialization round trip (C31) -/

/-- Below 2^32 bytes the round trip holds: for every builder made by the
operations of `FeatureBuilder` that passes the checks of `Serialize` (geometry
not empty, triangles only with more than one point, fewer than 16 types) and
whose serialized bytes number fewer than 2^32, `Serialize` returns bytes which
`DeserializeAndParse` parses and from which `InitFeatureBuilder` fills a fresh
builder equal to the original under `operator==`, member by member, also when
a difference of consecutive ids wraps around in `int64_t`; the ids are assumed
to satisfy PointToInt64(Int64ToPoint(id)) = id. -/
theorem Serialize_round_trip {R : Type} (env : Env R) (hlaw : env.Lawful)
    (calls : List (Call R)) (fb : FeatureBuilder)
    (hbuilt : build env FeatureBuilder.init calls = some fb)
    (hgeom : fb.m_Geometry ≠ [])
    (htri : 1 < fb.m_Geometry.length ∨ fb.m_Triangles = [])
    (htypes : fb.m_Types.length < 16)
    (hids : ∀ id ∈ fb.m_Geometry ++ fb.m_Triangles,
      env.PointToInt64 (env.Int64ToPoint id).1 (env.Int64ToPoint id).2 = id)
    (hfit : (FeatureBuilder.Serialize.data env fb).length < 2 ^ 32) :
    ∃ data feature parsed,
      fb.Serialize env = some data ∧
      (FeatureGeom.init : FeatureGeom R).DeserializeAndParse env data 0 = some feature ∧
      feature.InitFeatureBuilder env FeatureBuilder.init = some parsed ∧
      fb.equals parsed = true ∧
      parsed.m_Types = fb.m_Types ∧ parsed.m_Layer = fb.m_Layer ∧ parsed.m_Name = fb.m_Name ∧
      parsed.m_Geometry = fb.m_Geometry ∧ parsed.m_Triangles = fb.m_Triangles ∧
      fb.CheckCorrect env data = true := by
  have hvalid := build_valid env calls FeatureBuilder.init fb init_valid hbuilt
  have hparsed := parsed_data env hlaw fb hvalid hgeom htri htypes hids hfit
  have hp := hparsed
  unfold FeatureBuilder.CheckCorrect.parsed at hp
  simp only [Option.bind_eq_bind, Option.bind_eq_some] at hp
  obtain ⟨feature, hfeature, hinit⟩ := hp
  refine ⟨_, feature, fb, Serialize_eq env fb hgeom htri htypes, hfeature, hinit,
    (equals_iff fb fb).2 rfl, rfl, rfl, rfl, rfl, rfl, ?_⟩
  simp only [FeatureBuilder.CheckCorrect, hparsed, (equals_iff fb fb).2 rfl]

/-- The round trip at the feature of `FeatureBucketerSmokeTest`, the points
(10, 10) and (20, 20), and at two points whose ids differ by more than an
`int64_t` holds, so that the difference written is -1. -/
theorem Serialize_round_trip_examples :
    (Example.env.Lawful ∧
      build Example.env FeatureBuilder.init Example.smokeTest =
        some ⟨[], 0, [], [42949672970, 85899345940], []⟩ ∧
      ∃ data feature parsed,
        FeatureBuilder.Serialize Example.env ⟨[], 0, [], [42949672970, 85899345940], []⟩ =
          some data ∧
        (FeatureGeom.init : FeatureGeom Int).DeserializeAndParse Example.env data 0 =
          some feature ∧
        feature.InitFeatureBuilder Example.env FeatureBuilder.init = some parsed ∧
        FeatureBuilder.equals ⟨[], 0, [], [42949672970, 85899345940], []⟩ parsed = true) ∧
    (build Example.env FeatureBuilder.init Example.farApart =
        some ⟨[], 0, [], [-9223372036854775808, 9223372036854775807], []⟩ ∧
      FeatureBuilder.deltas [-9223372036854775808, 9223372036854775807] =
        [-9223372036854775808, -1] ∧
      ∃ data feature parsed,
        FeatureBuilder.Serialize Example.env
          ⟨[], 0, [], [-9223372036854775808, 9223372036854775807], []⟩ = some data ∧
        (FeatureGeom.init : FeatureGeom Int).DeserializeAndParse Example.env data 0 =
          some feature ∧
        feature.InitFeatureBuilder Example.env FeatureBuilder.init = some parsed ∧
        FeatureBuilder.equals ⟨[], 0, [], [-9223372036854775808, 9223372036854775807], []⟩
          parsed = true) :=
  ⟨⟨Example.env_lawful, by decide,
      (Serialize_round_trip Example.env Example.env_lawful Example.smokeTest
        ⟨[], 0, [], [42949672970, 85899345940], []⟩ (by decide) (by decide) (by decide)
        (by decide) (by decide) (by decide)).elim
        (fun data h => h.elim (fun feature h => h.elim (fun parsed h =>
          ⟨data, feature, parsed, h.1, h.2.1, h.2.2.1, h.2.2.2.1⟩)))⟩,
    ⟨by decide, by decide,
      (Serialize_round_trip Example.env Example.env_lawful Example.farApart
        ⟨[], 0, [], [-9223372036854775808, 9223372036854775807], []⟩ (by decide) (by decide)
        (by decide) (by decide) (by decide) (by decide)).elim
        (fun data h => h.elim (fun feature h => h.elim (fun parsed h =>
          ⟨data, feature, parsed, h.1, h.2.1, h.2.2.1, h.2.2.2.1⟩)))⟩⟩

/-- C31: the code at the failing input.  The builder made of the point
(10, 10) and a name of 4294967296 bytes passes the checks of `Serialize`
(geometry not empty, no triangles, no types), which returns its bytes; yet no
bytes at all are parsed into a builder equal to it, because `ParseName`
computes the length of the name in `uint32_t`, so `CheckCorrect`, which
`Serialize` asserts on the bytes it wrote, is false. -/
theorem C31_name_of_4294967296_bytes_is_not_read_back :
    Example.env.Lawful ∧
      build Example.env FeatureBuilder.init Example.longNameCalls = some Example.longName ∧
      Example.longName.m_Geometry ≠ [] ∧
      (1 < Example.longName.m_Geometry.length ∨ Example.longName.m_Triangles = []) ∧
      Example.longName.m_Types.length < 16 ∧
      (∀ id ∈ Example.longName.m_Geometry ++ Example.longName.m_Triangles,
        Example.env.PointToInt64 (Example.env.Int64ToPoint id).1
          (Example.env.Int64ToPoint id).2 = id) ∧
      (Example.longName.Serialize Example.env).isSome = true ∧
      (∀ data, FeatureBuilder.CheckCorrect.parsed Example.env data ≠ some Example.longName) ∧
      ∀ data, Example.longName.CheckCorrect Example.env data = false :=
  ⟨Example.env_lawful, rfl, by decide, by decide, by decide, by decide,
    by rw [Serialize_eq Example.env Example.longName (by decide) (by decide) (by decide)]; rfl,
    fun data h => by
      have hlen := parsed_name_length Example.env data Example.longName h
      have hrep : Example.longName.m_Name.length = 4294967296 := List.length_replicate _ _
      rw [hrep] at hlen
      exact absurd hlen (by norm_num),
    fun data => by
      unfold FeatureBuilder.CheckCorrect
      cases hp : FeatureBuilder.CheckCorrect.parsed Example.env data with
      | none => rfl
      | some parsed =>
        have hlen := parsed_name_length Example.env data parsed hp
        have hrep : Example.longName.m_Name.length = 4294967296 := List.length_replicate _ _
        have hne : Example.longName ≠ parsed := by
          intro e
          rw [← e, hrep] at hlen
          exact absurd hlen (by norm_num)
        cases he : Example.longName.equals parsed with
        | false => exact he
        | true => exact absurd ((equals_iff _ _).1 he) hne⟩

end feature
